import Mathlib

/-!
# Verification of the arcosphere solver, planner, verifier and textual grammar

This development shallowly embeds the `arcosphere` crate and proves (or
refutes) the specification claims about it.

Conventions of the embedding:

* An arcosphere of the Space-Exploration family is an index `Fin 8`
  (`E, G, L, O, P, T, X, Z` in the source's index order).
* A multiset of arcospheres (`Set<A>` in `src/model.rs`, a `[u8; DIMENSION]`
  of per-sphere counts) is a function `Fin 8 → Nat`.  The counters in the
  source are `u8`; addition/multiplication use `strict_add`/`strict_mul`
  (which panic — i.e. diverge — on overflow above 255) so a successfully
  returning run never wraps, and `Nat` agrees with `u8` on every such run.
  Subtraction (`SubAssign`) uses `saturating_sub`, whose semantics on
  in-range values is exactly truncated `Nat` subtraction.
* Fallible or panicking code paths return `Option`/`Except` values; `none`
  models a panic or divergence, so theorems about "the code returned a
  result" quantify over `some`-returns only.
-/

namespace Arcosphere

/-- The number of arcosphere kinds in the Space Exploration family
(`SeArcosphere::DIMENSION = 8` in `src/space_exploration.rs`). -/
abbrev DIM : Nat := 8

/-- An arcosphere, identified by its index: 0=E(psilon), 1=G(amma), 2=L(ambda),
3=O(mega), 4=P(hi), 5=T(heta), 6=X(i), 7=Z(eta), as in `SeArcosphere`. -/
abbrev Sph : Type := Fin DIM

/-- A multiset of arcospheres: per-sphere counts, embedding
`Set<A> { spheres: [u8; A::DIMENSION] }` from `src/model.rs`. -/
def SSet : Type := Sph → Nat

instance : DecidableEq SSet := by
  unfold SSet; infer_instance

namespace SSet

/-- `Set::new()`: the empty multiset. -/
def empty : SSet := fun _ => 0

/-- `Set::full()`: one sphere of each kind. -/
def full : SSet := fun _ => 1

instance : Inhabited SSet := ⟨empty⟩

/-- `ops::AddAssign for Set`: element-wise addition (`strict_add` in the
source: a panic on `u8` overflow is divergence, never a wrap, so `Nat`
addition models every returning run). -/
def add (a b : SSet) : SSet := fun i => a i + b i

instance : Add SSet := ⟨add⟩

theorem add_def (a b : SSet) (i : Sph) : (a + b) i = a i + b i := rfl

/-- `ops::SubAssign for Set`: element-wise `saturating_sub` — counts clamp
at zero, exactly `Nat` truncated subtraction. -/
def sub (a b : SSet) : SSet := fun i => a i - b i

instance : Sub SSet := ⟨sub⟩

theorem sub_def (a b : SSet) (i : Sph) : (a - b) i = a i - b i := rfl

/-- `ops::MulAssign<u8> for Set`: element-wise scalar multiplication
(`strict_mul`, panic on overflow = divergence). -/
def smul (a : SSet) (n : Nat) : SSet := fun i => a i * n

theorem smul_def (a : SSet) (n : Nat) (i : Sph) : a.smul n i = a i * n := rfl

/-- `Set::is_subset_of`: element-wise `≤`. -/
def Subset (a b : SSet) : Prop := ∀ i, a i ≤ b i

instance (a b : SSet) : Decidable (Subset a b) := by
  unfold Subset; infer_instance

/-- Executable subset test, the form used inside the embedded algorithms. -/
def subsetOf (a b : SSet) : Bool := decide (∀ i, a i ≤ b i)

theorem subsetOf_iff {a b : SSet} : a.subsetOf b = true ↔ Subset a b := by
  simp [subsetOf, Subset]

/-- `Set::len()`: total number of spheres (sum of the counts). -/
def len (a : SSet) : Nat := (List.finRange DIM).foldl (fun acc i => acc + a i) 0

/-- `Set::contains`. -/
def contains (a : SSet) (i : Sph) : Bool := decide (0 < a i)

/-- `Set::insert` (`strict_add 1`; panic on overflow = divergence). -/
def insert (a : SSet) (i : Sph) : SSet := fun j => if j = i then a j + 1 else a j

/-- `Set::remove` uses `strict_sub 1`, which panics when the count is zero;
`none` models the panic. -/
def remove (a : SSet) (i : Sph) : Option SSet :=
  if 0 < a i then some (fun j => if j = i then a j - 1 else a j) else none

end SSet

section SSetLemmas

theorem sset_ext {a b : SSet} (h : ∀ i, a i = b i) : a = b := funext h

/-- Saturating subtraction of a subset then re-adding it restores the set. -/
theorem sub_add_cancel_of_subset {a b : SSet} (h : SSet.Subset b a) :
    a - b + b = a := by
  funext i
  have := h i
  show a i - b i + b i = a i
  omega

theorem subset_add_right (a b : SSet) : SSet.Subset a (a + b) := by
  intro i; show a i ≤ a i + b i; omega

theorem subset_refl (a : SSet) : SSet.Subset a a := fun i => le_refl (a i)

end SSetLemmas

/-- A multiset built from a list of spheres (`Set::from_spheres`). -/
def SSet.ofList (l : List Sph) : SSet := fun i => l.count i

/-- Polarity of an arcosphere ("category" in the spec).

Modelled from the spec: the binary category of a token is not part of the
sources under `src/` (the present `src/model.rs` revision has no polarity,
while `src/solver.rs` consumes `count_negatives`/`count_positives` and
`Polarity` from the older model).  The spec fixes only that inversion
recipes swap the two category counts; for the Space Exploration family the
inversion `GOTZ -> ELPX` therefore separates `{G, O, T, Z}` from
`{E, L, P, X}`.  We take `G, O, T, Z` (indices 1, 3, 5, 7) as the negative
category; every statement below is symmetric under flipping this choice. -/
def sePolarityNegative : Sph → Bool := fun i => i.val % 2 = 1

/-- `Set::count_negatives` (modelled from the spec, see `sePolarityNegative`):
number of spheres of the negative category. -/
def SSet.countNegatives (a : SSet) : Nat :=
  (List.finRange DIM).foldl (fun acc i => if sePolarityNegative i then acc + a i else acc) 0

/-- `Set::count_positives` (modelled from the spec, see `sePolarityNegative`). -/
def SSet.countPositives (a : SSet) : Nat :=
  (List.finRange DIM).foldl (fun acc i => if sePolarityNegative i then acc else acc + a i) 0

/-- `Set::negatives` (modelled from the spec): the sub-multiset of
negative-category spheres. -/
def SSet.negatives (a : SSet) : SSet := fun i => if sePolarityNegative i then a i else 0

/-- `Set::positives` (modelled from the spec). -/
def SSet.positives (a : SSet) : SSet := fun i => if sePolarityNegative i then 0 else a i

/-- A folding recipe of the older model consumed by `src/solver.rs` and
`src/verifier.rs`: identified structurally by its input/output pair. -/
structure Folding where
  inp : SSet
  out : SSet
deriving DecidableEq

/-- An inversion recipe of the older model. -/
structure Inversion where
  inp : SSet
  out : SSet
deriving DecidableEq

/-- Direction of an inversion (`Polarity` in the older model). -/
inductive Pol where
  | negative
  | positive
deriving DecidableEq

/-- `InversionRecipe::polarity`.

Modelled from the spec: the older model's `InversionRecipe` is not under
`src/`; the spec says the solver selects "the inversion whose direction
matches the needed sign", the direction being whether the recipe flips
spheres toward the positive or the negative category. -/
def Inversion.polarity (v : Inversion) : Pol :=
  if v.inp.countPositives < v.out.countPositives then .positive else .negative

/-- `Recipe<A>`: either kind of recipe (older model enum). -/
inductive Recipe where
  | folding (f : Folding)
  | inversion (v : Inversion)
deriving DecidableEq

/-- `Recipe::input`. -/
def Recipe.input : Recipe → SSet
  | .folding f => f.inp
  | .inversion v => v.inp

/-- `Recipe::output`. -/
def Recipe.output : Recipe → SSet
  | .folding f => f.out
  | .inversion v => v.out

/-- `RecipeSet`: the trait bundling the enumerated foldings and inversions
of a family (older model, consumed by `src/solver.rs`/`src/verifier.rs`). -/
structure RecipeSet where
  foldings : List Folding
  inversions : List Inversion

/-- `Path` of the older model (`src/solver.rs` output, `src/verifier.rs`
input): a candidate conversion of `count * source + catalysts` into
`count * target + catalysts`.  `count` is a `NonZeroU8` in the source; the
embedding carries a plain `Nat` (the solver only ever builds it from
`NonZeroU8` values). -/
structure PathO where
  source : SSet
  target : SSet
  count : Nat
  catalysts : SSet
  recipes : List Recipe
deriving DecidableEq

--
--  The Space Exploration recipes, from `src/space_exploration.rs`
--  (sphere indices: E=0, G=1, L=2, O=3, P=4, T=5, X=6, Z=7).
--

/-- Folding `EO -> LG`. -/
def foldEO : Folding := ⟨SSet.ofList [0, 3], SSet.ofList [2, 1]⟩

/-- Folding `ET -> PO`. -/
def foldET : Folding := ⟨SSet.ofList [0, 5], SSet.ofList [4, 3]⟩

/-- Folding `LO -> XT`. -/
def foldLO : Folding := ⟨SSet.ofList [2, 3], SSet.ofList [6, 5]⟩

/-- Folding `LT -> EZ`. -/
def foldLT : Folding := ⟨SSet.ofList [2, 5], SSet.ofList [0, 7]⟩

/-- Folding `PG -> XO`. -/
def foldPG : Folding := ⟨SSet.ofList [4, 1], SSet.ofList [6, 3]⟩

/-- Folding `PZ -> EG`. -/
def foldPZ : Folding := ⟨SSet.ofList [4, 7], SSet.ofList [0, 1]⟩

/-- Folding `XG -> LZ`. -/
def foldXG : Folding := ⟨SSet.ofList [6, 1], SSet.ofList [2, 7]⟩

/-- Folding `XZ -> PT`. -/
def foldXZ : Folding := ⟨SSet.ofList [6, 7], SSet.ofList [4, 5]⟩

/-- Inversion `GOTZ -> ELPX`. -/
def invGOTZ : Inversion := ⟨SSet.ofList [1, 3, 5, 7], SSet.ofList [0, 2, 4, 6]⟩

/-- Inversion `ELPX -> GOTZ`. -/
def invELPX : Inversion := ⟨SSet.ofList [0, 2, 4, 6], SSet.ofList [1, 3, 5, 7]⟩

/-- The Space Exploration recipe set (`SeRecipeSet`), in the enumeration
order of `SeArcosphereRecipe` in `src/space_exploration.rs`. -/
def seRecipeSet : RecipeSet :=
  { foldings := [foldEO, foldET, foldLO, foldLT, foldPG, foldPZ, foldXG, foldXZ]
    inversions := [invGOTZ, invELPX] }

--
--  Verifier (`src/verifier.rs`)
--

/-- `VerificationError` from `src/verifier.rs`. -/
inductive VerificationError where
  | UnknownRecipe (index : Nat) (recipe : Recipe)
  | FailedApplication (index : Nat) (recipe : Recipe) (current : SSet)
  | FailedTarget (result : SSet)
  | FailedCatalysts (remainder : SSet)
deriving DecidableEq

/-- Whether a recipe is one of the family's enumerated recipes
(the `is_known` match in `Verifier::verify`). -/
def knownRecipe (rs : RecipeSet) : Recipe → Bool
  | .inversion v => rs.inversions.any fun i => decide (i = v)
  | .folding f => rs.foldings.any fun g => decide (g = f)

/-- First loop of `Verifier::verify`: index and value of the first recipe
that is not among the enumerated ones. -/
def findUnknown (rs : RecipeSet) : Nat → List Recipe → Option (Nat × Recipe)
  | _, [] => none
  | i, r :: rest =>
    if knownRecipe rs r then findUnknown rs (i + 1) rest else some (i, r)

/-- Second loop of `Verifier::verify`: replay the recipes in order,
checking each input against the running state; on failure report the step
index and the state at that step. -/
def replayFrom (i : Nat) (state : SSet) : List Recipe → Except VerificationError SSet
  | [] => .ok state
  | r :: rest =>
    if r.input.subsetOf state then replayFrom (i + 1) (state - r.input + r.output) rest
    else .error (.FailedApplication i r state)

/-- `Verifier::verify` from `src/verifier.rs`. -/
def verify (rs : RecipeSet) (p : PathO) : Except VerificationError Unit :=
  match findUnknown rs 0 p.recipes with
  | some (i, r) => .error (.UnknownRecipe i r)
  | none =>
    match replayFrom 0 (p.source.smul p.count + p.catalysts) p.recipes with
    | .error e => .error e
    | .ok step =>
      let target := p.target.smul p.count
      if target.subsetOf step then
        if step - target = p.catalysts then .ok ()
        else .error (.FailedCatalysts (step - target))
      else .error (.FailedTarget step)

--
--  Replay semantics (shared by the verifier theorems)
--

/-- The state update of one verification step: `state - input + output`. -/
def applyRecipe (s : SSet) (r : Recipe) : SSet := s - r.input + r.output

/-- The state the verifier starts from: `count * source + catalysts`. -/
def startState (p : PathO) : SSet := p.source.smul p.count + p.catalysts

/-- The replay state reached after the first `k` recipes of the path
(ignoring whether the subset checks succeeded; used to state where the
first failure occurs). -/
def stateAfter (p : PathO) (k : Nat) : SSet :=
  (p.recipes.take k).foldl applyRecipe (startState p)

theorem stateAfter_length (p : PathO) :
    stateAfter p p.recipes.length = p.recipes.foldl applyRecipe (startState p) := by
  simp [stateAfter]

/-- If every step's input is contained in the state reached, the replay loop
returns the full fold of the recipe list. -/
theorem replayFrom_all_ok (l : List Recipe) : ∀ (i : Nat) (s : SSet),
    (∀ k (hk : k < l.length),
        SSet.Subset ((l.get ⟨k, hk⟩).input) ((l.take k).foldl applyRecipe s)) →
    replayFrom i s l = .ok (l.foldl applyRecipe s) := by
  induction l with
  | nil => intro i s _; rfl
  | cons r rest ih =>
    intro i s h
    have h0 : SSet.Subset r.input s := by
      have := h 0 (by simp)
      simpa using this
    have hb : r.input.subsetOf s = true := SSet.subsetOf_iff.2 h0
    simp only [replayFrom, hb, if_true, List.foldl_cons]
    exact ih (i + 1) (s - r.input + r.output) fun k hk => by
      have := h (k + 1) (by simpa using Nat.succ_lt_succ hk)
      simpa [applyRecipe] using this

/-- If the subset checks succeed for every step before `k` and fail at `k`,
the replay loop reports `FailedApplication` at index `i + k` with the state
reached before step `k`. -/
theorem replayFrom_first_failure (l : List Recipe) : ∀ (i : Nat) (s : SSet)
    (k : Nat) (hk : k < l.length),
    (∀ j (hj : j < k),
        SSet.Subset ((l.get ⟨j, hj.trans hk⟩).input) ((l.take j).foldl applyRecipe s)) →
    ¬ SSet.Subset ((l.get ⟨k, hk⟩).input) ((l.take k).foldl applyRecipe s) →
    replayFrom i s l =
      .error (.FailedApplication (i + k) (l.get ⟨k, hk⟩) ((l.take k).foldl applyRecipe s)) := by
  induction l with
  | nil => intro i s k hk; exact absurd hk (by simp)
  | cons r rest ih =>
    intro i s k hk hpre hbad
    match k with
    | 0 =>
      have : ¬ SSet.Subset r.input s := by simpa using hbad
      have hb : r.input.subsetOf s = false := by
        cases hs : r.input.subsetOf s
        · rfl
        · exact absurd (SSet.subsetOf_iff.1 hs) this
      simp [replayFrom, hb]
    | k + 1 =>
      have h0 : SSet.Subset r.input s := by
        have := hpre 0 (Nat.succ_pos k)
        simpa using this
      have hb : r.input.subsetOf s = true := SSet.subsetOf_iff.2 h0
      have hk' : k < rest.length := by simpa using Nat.lt_of_succ_lt_succ hk
      simp only [replayFrom, hb, if_true]
      have := ih (i + 1) (s - r.input + r.output) k hk'
        (fun j hj => by
          have := hpre (j + 1) (Nat.succ_lt_succ hj)
          simpa [applyRecipe] using this)
        (by
          intro hsub
          exact hbad (by simpa [applyRecipe] using hsub))
      simpa [Nat.add_comm, Nat.add_assoc, Nat.add_left_comm, applyRecipe] using this

/-- `findUnknown` returns `none` exactly when every recipe is known. -/
theorem findUnknown_eq_none_iff (rs : RecipeSet) (l : List Recipe) : ∀ i,
    findUnknown rs i l = none ↔ ∀ r ∈ l, knownRecipe rs r = true := by
  induction l with
  | nil => intro i; simp [findUnknown]
  | cons r rest ih =>
    intro i
    by_cases h : knownRecipe rs r = true
    · simp [findUnknown, h, ih (i + 1)]
    · simp [findUnknown, h]

/-- `findUnknown` reports the first unknown recipe. -/
theorem findUnknown_first (rs : RecipeSet) (l : List Recipe) : ∀ i k (hk : k < l.length),
    knownRecipe rs (l.get ⟨k, hk⟩) = false →
    (∀ j (hj : j < k), knownRecipe rs (l.get ⟨j, hj.trans hk⟩) = true) →
    findUnknown rs i l = some (i + k, l.get ⟨k, hk⟩) := by
  induction l with
  | nil => intro i k hk; exact absurd hk (by simp)
  | cons r rest ih =>
    intro i k hk hbad hpre
    match k with
    | 0 =>
      have : knownRecipe rs r = false := by simpa using hbad
      simp [findUnknown, this]
    | k + 1 =>
      have h0 : knownRecipe rs r = true := by
        have := hpre 0 (Nat.succ_pos k)
        simpa using this
      have hk' : k < rest.length := by simpa using Nat.lt_of_succ_lt_succ hk
      simp only [findUnknown, h0, if_true]
      have := ih (i + 1) k hk' (by simpa using hbad)
        (fun j hj => by
          have := hpre (j + 1) (Nat.succ_lt_succ hj)
          simpa using this)
      simpa [Nat.add_comm, Nat.add_assoc, Nat.add_left_comm] using this

instance {ε α : Type} [DecidableEq ε] [DecidableEq α] : DecidableEq (Except ε α) := fun a b =>
  match a, b with
  | .error e, .error f =>
    if h : e = f then .isTrue (by rw [h]) else .isFalse (by intro hc; cases hc; exact h rfl)
  | .error _, .ok _ => .isFalse fun hc => Except.noConfusion hc
  | .ok _, .error _ => .isFalse fun hc => Except.noConfusion hc
  | .ok u, .ok v =>
    if h : u = v then .isTrue (by rw [h]) else .isFalse (by intro hc; cases hc; exact h rfl)

/-- When every recipe is known, `verify` is the replay followed by the
target/catalysts checks. -/
theorem verify_eq_replay (rs : RecipeSet) (p : PathO)
    (hfu : findUnknown rs 0 p.recipes = none) :
    verify rs p =
      match replayFrom 0 (startState p) p.recipes with
      | .error e => .error e
      | .ok step =>
        if (p.target.smul p.count).subsetOf step = true then
          if step - p.target.smul p.count = p.catalysts then .ok ()
          else .error (.FailedCatalysts (step - p.target.smul p.count))
        else .error (.FailedTarget step) := by
  unfold verify startState
  rw [hfu]

/-- The replay loop never reports an unknown recipe. -/
theorem replayFrom_ne_unknown (l : List Recipe) : ∀ (i : Nat) (s : SSet) (j : Nat) (r : Recipe),
    replayFrom i s l ≠ .error (.UnknownRecipe j r) := by
  induction l with
  | nil => intro i s j r h; exact Except.noConfusion h
  | cons q rest ih =>
    intro i s j r
    by_cases hb : q.input.subsetOf s = true
    · simpa [replayFrom, hb] using ih (i + 1) (s - q.input + q.output) j r
    · simp only [Bool.not_eq_true] at hb
      simp [replayFrom, hb]

--
--  Claim C4: verifier replay behaviour (amended: all recipes known)
--

/-- A structurally well-formed folding that is not among the Space
Exploration recipes: `EP -> LX` (it preserves the category counts, but is
not enumerated by the family). -/
def fUnknown : Recipe := .folding ⟨SSet.ofList [0, 4], SSet.ofList [2, 6]⟩

/-- A path whose replay succeeds perfectly but whose single recipe is not an
enumerated recipe of the family. -/
def pC4 : PathO :=
  ⟨SSet.ofList [0, 4], SSet.ofList [2, 6], 1, SSet.empty, [fUnknown]⟩

/-- C4, counterexample.  The claim says that, for every path, `verify`
returns `FailedApplication`/`FailedTarget`/`FailedCatalysts` according to
the forward replay, "otherwise it returns Ok", and that "the error returned
is always one of these specific localized variants".  On the path `pC4`
(source `EP`, target `LX`, one recipe `EP -> LX`) the replay succeeds at
every step, reaches exactly `count * target + catalysts`, and the claim
therefore demands `Ok` — but `verify` returns the `UnknownRecipe` variant,
which is none of the three listed ones, because `EP -> LX` is not an
enumerated recipe. -/
theorem c4_counterexample :
    SSet.Subset fUnknown.input (stateAfter pC4 0) ∧
      SSet.Subset (pC4.target.smul pC4.count) (stateAfter pC4 1) ∧
      stateAfter pC4 1 - pC4.target.smul pC4.count = pC4.catalysts ∧
      verify seRecipeSet pC4 = .error (.UnknownRecipe 0 fUnknown) := by
  refine ⟨by decide, by decide, by decide, by decide⟩

/-- C4, amended: for every path all of whose recipes are enumerated recipes
of the family, `verify` performs a single forward replay starting from
`count * source + catalysts`: it returns `FailedApplication` naming the
index and the current state for the first step whose input is not a subset
of the current state (updating `state := state - input + output` otherwise);
after all steps it returns `FailedTarget` with the final state if
`count * target` is not a subset of it; it returns `FailedCatalysts` with
the remainder if the final state minus `count * target` differs from the
catalysts; otherwise it returns `Ok`. -/
theorem c4_theorem (rs : RecipeSet) (p : PathO)
    (hknown : ∀ r ∈ p.recipes, knownRecipe rs r = true) :
    (∀ k (hk : k < p.recipes.length),
        (∀ j (hj : j < k),
            SSet.Subset ((p.recipes.get ⟨j, hj.trans hk⟩).input) (stateAfter p j)) →
        ¬ SSet.Subset ((p.recipes.get ⟨k, hk⟩).input) (stateAfter p k) →
        verify rs p =
          .error (.FailedApplication k (p.recipes.get ⟨k, hk⟩) (stateAfter p k)))
    ∧ ((∀ k (hk : k < p.recipes.length),
          SSet.Subset ((p.recipes.get ⟨k, hk⟩).input) (stateAfter p k)) →
        (¬ SSet.Subset (p.target.smul p.count) (stateAfter p p.recipes.length) →
            verify rs p = .error (.FailedTarget (stateAfter p p.recipes.length)))
        ∧ (SSet.Subset (p.target.smul p.count) (stateAfter p p.recipes.length) →
            stateAfter p p.recipes.length - p.target.smul p.count ≠ p.catalysts →
            verify rs p = .error (.FailedCatalysts
              (stateAfter p p.recipes.length - p.target.smul p.count)))
        ∧ (SSet.Subset (p.target.smul p.count) (stateAfter p p.recipes.length) →
            stateAfter p p.recipes.length - p.target.smul p.count = p.catalysts →
            verify rs p = .ok ())) := by
  have hfu : findUnknown rs 0 p.recipes = none :=
    (findUnknown_eq_none_iff rs p.recipes 0).2 hknown
  constructor
  · intro k hk hpre hbad
    have hr := replayFrom_first_failure p.recipes 0 (startState p) k hk
      (fun j hj => hpre j hj) hbad
    simp only [Nat.zero_add] at hr
    rw [verify_eq_replay rs p hfu, hr]
    rfl
  · intro hall
    have hr := replayFrom_all_ok p.recipes 0 (startState p) (fun k hk => hall k hk)
    rw [← stateAfter_length] at hr
    refine ⟨?_, ?_, ?_⟩
    · intro hns
      have hb : (p.target.smul p.count).subsetOf (stateAfter p p.recipes.length) = false := by
        cases hs : (p.target.smul p.count).subsetOf (stateAfter p p.recipes.length)
        · rfl
        · exact absurd (SSet.subsetOf_iff.1 hs) hns
      rw [verify_eq_replay rs p hfu, hr]
      simp [hb]
    · intro hsub hne
      have hb : (p.target.smul p.count).subsetOf (stateAfter p p.recipes.length) = true :=
        SSet.subsetOf_iff.2 hsub
      rw [verify_eq_replay rs p hfu, hr]
      simp [hb, hne]
    · intro hsub heq
      have hb : (p.target.smul p.count).subsetOf (stateAfter p p.recipes.length) = true :=
        SSet.subsetOf_iff.2 hsub
      rw [verify_eq_replay rs p hfu, hr]
      simp [hb, heq]

/-- The trivial path from `EL` to `EL` (used as the closed instance of the
verifier theorems). -/
def pTrivEL : PathO := ⟨SSet.ofList [0, 2], SSet.ofList [0, 2], 1, SSet.empty, []⟩

/-- C4, witness: on the zero-recipe path `EL -> EL` the amended theorem
yields `verify = Ok`. -/
theorem c4_theorem_witness : verify seRecipeSet pTrivEL = .ok () :=
  ((c4_theorem seRecipeSet pTrivEL (by decide)).2
    (fun k hk => absurd hk (Nat.not_lt_zero k))).2.2 (by decide) (by decide)

--
--  Claim C10: the unknown-recipe pre-check
--

/-- C10: `verify` checks every recipe of the path against the family's
enumerated recipe set before replaying any state: if some recipe is
unknown, it returns `UnknownRecipe` carrying the index of the first unknown
recipe and the recipe itself; when all recipes are known, the result is
never `UnknownRecipe` (only the replay checks can fail). -/
theorem c10_theorem (rs : RecipeSet) (p : PathO) :
    (∀ k (hk : k < p.recipes.length),
        knownRecipe rs (p.recipes.get ⟨k, hk⟩) = false →
        (∀ j (hj : j < k), knownRecipe rs (p.recipes.get ⟨j, hj.trans hk⟩) = true) →
        verify rs p = .error (.UnknownRecipe k (p.recipes.get ⟨k, hk⟩)))
    ∧ ((∀ r ∈ p.recipes, knownRecipe rs r = true) →
        ∀ i r, verify rs p ≠ .error (.UnknownRecipe i r)) := by
  constructor
  · intro k hk hbad hpre
    have hf := findUnknown_first rs p.recipes 0 k hk hbad hpre
    simp only [Nat.zero_add] at hf
    simp [verify, hf]
  · intro hknown i r
    have hfu : findUnknown rs 0 p.recipes = none :=
      (findUnknown_eq_none_iff rs p.recipes 0).2 hknown
    cases hrep : replayFrom 0 (startState p) p.recipes with
    | error e =>
      have hv : verify rs p = .error e := by
        rw [verify_eq_replay rs p hfu, hrep]
      rw [hv]
      intro hcontra
      cases hcontra
      exact replayFrom_ne_unknown p.recipes 0 (startState p) i r hrep
    | ok s =>
      have hv : verify rs p =
          (if (p.target.smul p.count).subsetOf s = true then
            if s - p.target.smul p.count = p.catalysts then Except.ok ()
            else .error (.FailedCatalysts (s - p.target.smul p.count))
          else .error (.FailedTarget s)) := by
        rw [verify_eq_replay rs p hfu, hrep]
      rw [hv]
      split
      · split
        · intro h; exact Except.noConfusion h
        · intro h; cases h
      · intro h; cases h

/-- C10, witness: on the path `pC4` (single unknown recipe `EP -> LX`) the
verifier returns `UnknownRecipe` at index 0. -/
theorem c10_theorem_witness :
    verify seRecipeSet pC4 = .error (.UnknownRecipe 0 fUnknown) :=
  (c10_theorem seRecipeSet pC4).1 0 (by decide) (by decide)
    (fun j hj => absurd hj (Nat.not_lt_zero j))

--
--  Solver (`src/solver.rs`)
--

/-- `ResolutionError` from `src/solver.rs`. -/
inductive ResolutionError where
  | PreservationError
  | NotWithFoldings
  | NotWithInversions
  | OutsideCatalysts
  | OutsideInversions
  | OutsideRecipes
deriving DecidableEq

/-- `ResolutionError::is_definitive`. -/
def ResolutionError.isDefinitive : ResolutionError → Bool
  | .PreservationError => true
  | .NotWithFoldings => true
  | .NotWithInversions => true
  | _ => false

/-- `SolverConfiguration` from `src/solver.rs`. -/
structure SolverConfiguration where
  maximumCatalysts : Nat
  minimumCatalysts : Nat
  maximumRecipes : Nat

/-- `SolverConfiguration::default()`. -/
def defaultConfiguration : SolverConfiguration := ⟨8, 0, 10⟩

/-- The search frontier maps (`FxHashMap<Set, FoldingRecipe>`), embedded as
association lists in insertion order; keys are never overwritten because
the search skips states that are already known. -/
abbrev FMap : Type := List (SSet × Folding)

/-- Boolean membership of a state in a list of states
(`FxHashSet::contains`). -/
def memB (l : List SSet) (x : SSet) : Bool := l.any fun y => decide (y = x)

/-- Boolean membership of a key in a frontier map
(`FxHashMap::contains_key`). -/
def containsM (m : FMap) (k : SSet) : Bool := m.any fun e => decide (e.1 = k)

/-- Lookup in a frontier map (`FxHashMap::get`). -/
def lookupM (m : FMap) (k : SSet) : Option Folding :=
  (m.find? fun e => decide (e.1 = k)).map (·.2)

theorem memB_iff {l : List SSet} {x : SSet} : memB l x = true ↔ x ∈ l := by
  simp [memB, List.any_eq_true]

/-- The multiset iterator (`IntoIter`): each sphere repeated by its
multiplicity, in increasing index order. -/
def SSet.toList (s : SSet) : List Sph :=
  (List.finRange DIM).flatMap fun i => List.replicate (s i) i

/-- `DirectionSearcher::fold`, forward direction: one round of forward
recipe applications from the frontier `inputs`, skipping results that are
already an input, already produced this round, or already known. -/
def foldStepF (rs : RecipeSet) (known : FMap) (inputs : List SSet) : FMap :=
  inputs.foldl
    (fun outputs input =>
      rs.foldings.foldl
        (fun outputs folding =>
          if folding.inp.subsetOf input then
            let output := input - folding.inp + folding.out
            if memB inputs output || containsM outputs output || containsM known output then
              outputs
            else outputs ++ [(output, folding)]
          else outputs)
        outputs)
    []

/-- `DirectionSearcher::fold`, backward direction: reverse applications
(the recipe's output is removed, its input added). -/
def foldStepB (rs : RecipeSet) (known : FMap) (inputs : List SSet) : FMap :=
  inputs.foldl
    (fun outputs input =>
      rs.foldings.foldl
        (fun outputs folding =>
          if folding.out.subsetOf input then
            let output := input - folding.out + folding.inp
            if memB inputs output || containsM outputs output || containsM known output then
              outputs
            else outputs ++ [(output, folding)]
          else outputs)
        outputs)
    []

/-- A fold-searcher task (`FoldSearcher` in `src/solver.rs`): one fixed
pair of source/target catalysts. -/
structure FoldSearcher where
  recipes : RecipeSet
  source : SSet
  target : SSet
  sourceCatalysts : SSet
  targetCatalysts : SSet
  maximumRecipes : Nat

/-- `FoldSearcher::stitch_forward`: walk the forward predecessor chain from
a meeting state back to the start.  The Rust `while let` loop can diverge
if the walk cycles; the fuel argument makes the embedding total, and `none`
models divergence.  The returned list is in walk order (the caller
reverses it). -/
def stitchForwardAux : Nat → FMap → SSet → Option (List Folding)
  | 0, _, _ => none
  | fuel + 1, m, step =>
    match lookupM m step with
    | none => some []
    | some f => (stitchForwardAux fuel m (step - f.out + f.inp)).map fun l => f :: l

/-- `FoldSearcher::stitch_backward`: walk the backward predecessor chain
from a meeting state forward to the target. -/
def stitchBackwardAux : Nat → FMap → SSet → Option (List Folding)
  | 0, _, _ => none
  | fuel + 1, m, step =>
    match lookupM m step with
    | none => some []
    | some f => (stitchBackwardAux fuel m (step - f.inp + f.out)).map fun l => f :: l

/-- One candidate of `FoldSearcher::stitch`: forward prefix (reversed walk)
followed by the backward suffix. -/
def stitchOne (fs : FoldSearcher) (forward backward : FMap) (candidate : SSet) :
    Option PathO := do
  let fw ← stitchForwardAux (forward.length + 1) forward candidate
  let bw ← stitchBackwardAux (backward.length + 1) backward candidate
  pure ⟨fs.source, fs.target, 1, fs.sourceCatalysts,
    (fw.reverse.map .folding) ++ (bw.map .folding)⟩

/-- `FoldSearcher::stitch`: one path per meeting candidate present in both
frontier maps. -/
def stitch (fs : FoldSearcher) (forward backward : FMap) :
    List SSet → Option (List PathO)
  | [] => some []
  | c :: rest =>
    if containsM forward c && containsM backward c then
      match stitchOne fs forward backward c with
      | none => none
      | some p =>
        match stitch fs forward backward rest with
        | none => none
        | some ps => some (p :: ps)
    else stitch fs forward backward rest

/-- The iteration loop of `FoldSearcher::solve`: alternately advance the
forward and backward frontiers, stitching as soon as a meeting state is
found. -/
def searchLoop (fs : FoldSearcher) :
    Nat → FMap → FMap → List SSet → List SSet →
    Option (Except ResolutionError (List PathO))
  | 0, _, _, inF, inB =>
    if inF.isEmpty && inB.isEmpty then some (.error .NotWithFoldings)
    else some (.error .OutsideRecipes)
  | n + 1, forward, backward, inF, inB =>
    if inF.isEmpty && inB.isEmpty then some (.error .NotWithFoldings)
    else
      let outF := foldStepF fs.recipes forward inF
      let forward2 := forward ++ outF
      if outF.any fun e => containsM backward e.1 then
        (stitch fs forward2 backward (outF.map (·.1))).map .ok
      else
        let outB := foldStepB fs.recipes backward inB
        let backward2 := backward ++ outB
        if outB.any fun e => containsM forward2 e.1 then
          (stitch fs forward2 backward2 (outB.map (·.1))).map .ok
        else searchLoop fs n forward2 backward2 (outF.map (·.1)) (outB.map (·.1))

/-- `FoldSearcher::solve`: the real `assert_eq!` on the category balances
panics on mismatch (modelled by `none`); otherwise run the bidirectional
search for `(maximum_recipes + 1) / 2` rounds. -/
def FoldSearcher.solve (fs : FoldSearcher) :
    Option (Except ResolutionError (List PathO)) :=
  if fs.source.countNegatives = fs.target.countNegatives
      ∧ fs.source.countPositives = fs.target.countPositives then
    searchLoop fs ((fs.maximumRecipes + 1) / 2) [] []
      [fs.source + fs.sourceCatalysts] [fs.target + fs.targetCatalysts]
  else none

/-- `FoldSearcher::generate_catalysts_rec`: enumerate all insertions of
`number` further spheres (all index sequences, so multisets repeat once per
permutation). -/
def generateCatalystsRec (c : SSet) : Nat → List SSet
  | 0 => []
  | 1 => (List.finRange DIM).map fun i => c.insert i
  | n + 2 =>
    ((List.finRange DIM).map fun i => c.insert i).flatMap fun c2 =>
      generateCatalystsRec c2 (n + 1)

/-- `FoldSearcher::generate_catalysts`. -/
def generateCatalysts (number : Nat) : List SSet :=
  if number = 0 then [] else generateCatalystsRec SSet.empty number

/-- `FoldSearcher::generate_searchers`: one task per candidate catalyst
multiset, with identical source and target catalysts. -/
def FoldSearcher.generateSearchers (rs : RecipeSet) (source target : SSet)
    (numberCatalysts maxRecipes : Nat) : List FoldSearcher :=
  (generateCatalysts numberCatalysts).map fun c =>
    ⟨rs, source, target, c, c, maxRecipes⟩

/-- Collection of task results (`Solver::solve_by_fold`'s result loop):
paths accumulate in task order; definitive errors and `OutsideRecipes`
update the remembered error; other errors are dropped. -/
def collectResults :
    List (Option (Except ResolutionError (List PathO))) → Option ResolutionError →
    Option (List PathO × Option ResolutionError)
  | [], le => some ([], le)
  | none :: _, _ => none
  | some (.ok paths) :: rest, le =>
    match collectResults rest le with
    | none => none
    | some (acc, le2) => some (paths ++ acc, le2)
  | some (.error e) :: rest, le =>
    collectResults rest (if e.isDefinitive || e = .OutsideRecipes then some e else le)

/-- The catalyst sizes explored: `minimum_catalysts ..= maximum_catalysts`. -/
def catalystSizes (cfg : SolverConfiguration) : List Nat :=
  List.range' cfg.minimumCatalysts (cfg.maximumCatalysts + 1 - cfg.minimumCatalysts)

/-- The result of one search task (`Result<Vec<Path>, ResolutionError>`,
with `none` modelling a panic inside the task). -/
abbrev TaskResult : Type := Option (Except ResolutionError (List PathO))

/-- An executor (`Executor::execute`): runs a batch of independent
zero-argument tasks and returns their results. -/
abbrev Exec : Type := List (Unit → TaskResult) → List TaskResult

/-- `SequentialExecutor`: run the tasks in submission order. -/
def seqExecute : Exec := fun tasks => tasks.map fun f => f ()

/-- The common catalyst-size loop of `solve_by_fold` and
`solve_by_middle_inversion`: run all tasks of each size through the
executor, return as soon as one size yields results, and report the
remembered error (or `OutsideCatalysts`) when every size was barren. -/
def sizesLoop (exec : Exec) (genTasks : Nat → List (Unit → TaskResult)) :
    List Nat → Option ResolutionError → Option (Except ResolutionError (List PathO))
  | [], le => some (.error (le.getD .OutsideCatalysts))
  | i :: rest, le =>
    match collectResults (exec (genTasks i)) le with
    | none => none
    | some (results, le2) =>
      if results.isEmpty then sizesLoop exec genTasks rest le2 else some (.ok results)

/-- `Solver::solve_by_fold`. -/
def solveByFold (exec : Exec) (rs : RecipeSet) (cfg : SolverConfiguration)
    (source target : SSet) : Option (Except ResolutionError (List PathO)) :=
  match rs.foldings.find? fun f => decide (source = f.inp) && decide (target = f.out) with
  | some folding => some (.ok [⟨source, target, 1, SSet.empty, [.folding folding]⟩])
  | none =>
    sizesLoop exec
      (fun i => (FoldSearcher.generateSearchers rs source target i cfg.maximumRecipes).map
        fun searcher => fun _ => searcher.solve)
      (catalystSizes cfg) none

/-- `InversionSearcher::select_inversion`: polarity of the required flip,
first inversion of that polarity, then the repetition count and number of
inversion applications (via the gcd when the deltas differ).  The `u8`
conversions and `NonZeroU8` constructions panic outside `1 ..= 255`
(modelled by `none`). -/
def selectInversion (rs : RecipeSet) (source target : SSet) :
    Option (Nat × Inversion × Nat) :=
  let polarity : Pol :=
    if target.countNegatives < source.countNegatives then .positive else .negative
  match rs.inversions.find? fun r => decide (r.polarity = polarity) with
  | none => none
  | some inversion =>
    let tf := if polarity = .positive then target.countPositives - source.countPositives
      else target.countNegatives - source.countNegatives
    let rf := if polarity = .positive
      then inversion.out.countPositives - inversion.inp.countPositives
      else inversion.out.countNegatives - inversion.inp.countNegatives
    if tf = rf then some (1, inversion, 1)
    else
      let g := Nat.gcd tf rf
      let count := rf / g
      let apps := tf / g
      if 0 < count ∧ count ≤ 255 ∧ 0 < apps ∧ apps ≤ 255 then
        some (count, inversion, apps)
      else none

/-- `InversionSearcher::generate_catalysts_combinations`: all ordered pairs
of candidate catalysts with equal negative-category counts. -/
def generateCatalystsCombinations (catalysts : List SSet) : List (SSet × SSet) :=
  catalysts.flatMap fun select =>
    (catalysts.filter fun cand => decide (select.countNegatives = cand.countNegatives)).map
      fun cand => (select, cand)

/-- `InversionSearcher::generate_candidate_pre_inversions_rec`. -/
def genPreInvRec (seeds : SSet) : SSet → Nat → List SSet
  | _, 0 => []
  | current, 1 => seeds.toList.map fun i => current.insert i
  | current, n + 2 =>
    (seeds.toList.map fun i => current.insert i).flatMap fun c =>
      genPreInvRec seeds c (n + 1)

/-- `InversionSearcher::generate_candidate_pre_inversions`: candidate
middle states, each containing the inversion's input as a seed. -/
def genPreInversions (source : SSet) (count : Nat) (inversion : Inversion) :
    List SSet :=
  let seed := inversion.inp
  let remainder := source.smul count - seed
  let nn := remainder.countNegatives
  let np := remainder.countPositives
  match nn, np with
  | 0, 0 => [seed]
  | _ + 1, 0 => genPreInvRec SSet.full.negatives seed nn
  | 0, _ + 1 => genPreInvRec SSet.full.positives seed np
  | _ + 1, _ + 1 =>
    (genPreInvRec SSet.full.negatives seed nn).flatMap fun t =>
      genPreInvRec SSet.full.positives t np

/-- An inversion-searcher task (`InversionSearcher` in `src/solver.rs`). -/
structure InversionSearcher where
  source : SSet
  target : SSet
  count : Nat
  pre : FoldSearcher
  inversion : Inversion
  post : FoldSearcher

/-- `InversionSearcher::generate_searchers`. -/
def InversionSearcher.generateSearchers (rs : RecipeSet) (source target : SSet)
    (count : Nat) (inversion : Inversion) (numberCatalysts maxRecipes : Nat) :
    List InversionSearcher :=
  let catalysts := generateCatalysts numberCatalysts
  let combinations := generateCatalystsCombinations catalysts
  let preInversions := genPreInversions source count inversion
  combinations.flatMap fun sm =>
    preInversions.map fun preInv =>
      let postInv := preInv - inversion.inp + inversion.out
      { source := source, target := target, count := count,
        pre := ⟨rs, source.smul count, preInv, sm.1, sm.2, maxRecipes⟩,
        inversion := inversion,
        post := ⟨rs, postInv, target.smul count, sm.2, sm.1, maxRecipes⟩ }

/-- `InversionSearcher::solve`: solve both folding halves, then combine
every pre-path with every post-path around the inversion. -/
def InversionSearcher.solve (vs : InversionSearcher) :
    Option (Except ResolutionError (List PathO)) :=
  match vs.pre.solve with
  | none => none
  | some (.error e) => some (.error e)
  | some (.ok preP) =>
    match vs.post.solve with
    | none => none
    | some (.error e) => some (.error e)
    | some (.ok postP) =>
      some (.ok (preP.flatMap fun pre => postP.map fun post =>
        ⟨vs.source, vs.target, vs.count, pre.catalysts,
          pre.recipes ++ [.inversion vs.inversion] ++ post.recipes⟩))

/-- `Solver::solve_by_middle_inversion`. -/
def solveInvMiddle (exec : Exec) (rs : RecipeSet) (cfg : SolverConfiguration)
    (source target : SSet) (count : Nat) (inversion : Inversion) :
    Option (Except ResolutionError (List PathO)) :=
  sizesLoop exec
    (fun i =>
      (InversionSearcher.generateSearchers rs source target count inversion i
        cfg.maximumRecipes).map fun searcher => fun _ => searcher.solve)
    (catalystSizes cfg) none

/-- `Solver::solve_by_inversion`. -/
def solveByInversion (exec : Exec) (rs : RecipeSet) (cfg : SolverConfiguration)
    (source target : SSet) : Option (Except ResolutionError (List PathO)) :=
  match rs.inversions.find? fun v => decide (source = v.inp) && decide (target = v.out) with
  | some inversion => some (.ok [⟨source, target, 1, SSet.empty, [.inversion inversion]⟩])
  | none =>
    match selectInversion rs source target with
    | none => some (.error .NotWithInversions)
    | some (count, inversion, apps) =>
      if apps ≠ 1 then some (.error .OutsideInversions)
      else
        let sc := source.smul count
        let tc := target.smul count
        let middle := solveInvMiddle exec rs cfg source target count inversion
        let tryLast : Option (Except ResolutionError (List PathO)) :=
          if inversion.out.subsetOf tc then
            match solveByFold exec rs cfg sc (tc - inversion.out + inversion.inp) with
            | none => none
            | some (.ok paths) =>
              some (.ok (paths.map fun p =>
                ⟨source, target, count, p.catalysts,
                  p.recipes ++ [.inversion inversion]⟩))
            | some (.error _) => middle
          else middle
        if inversion.inp.subsetOf sc then
          match solveByFold exec rs cfg (sc - inversion.inp + inversion.out) tc with
          | none => none
          | some (.ok paths) =>
            some (.ok (paths.map fun p =>
              ⟨source, target, count, p.catalysts,
                .inversion inversion :: p.recipes⟩))
          | some (.error _) => tryLast
        else tryLast

/-- `Solver::solve`, generic over the executor (`Solver<R, E>`). -/
def solve (exec : Exec) (rs : RecipeSet) (cfg : SolverConfiguration)
    (source target : SSet) : Option (Except ResolutionError (List PathO)) :=
  if source.len ≠ target.len then some (.error .PreservationError)
  else if source = target then some (.ok [⟨source, target, 1, SSet.empty, []⟩])
  else if source.countNegatives = target.countNegatives then
    solveByFold exec rs cfg source target
  else solveByInversion exec rs cfg source target

--
--  Executors (`src/executor.rs`)
--

/-- `RayonExecutor`: tasks execute across a worker pool.  The order in
which workers complete is modelled by the `sched` key (tasks complete in
order of their key), but `par_iter().collect()` places every result at its
task's submission index, which the embedding realizes by sorting the
completed `(index, result)` pairs back by index. -/
def rayonExecute (sched : Nat → Nat) : Exec := fun tasks =>
  let completion := tasks.enum.mergeSort fun a b => decide (sched a.1 ≤ sched b.1)
  let finished := completion.map fun p => (p.1, p.2 ())
  (finished.mergeSort fun a b => decide (a.1 ≤ b.1)).map (·.2)

/-- Strict ordering of `(index, result)` pairs by index. -/
def keyLt {α : Type} (a b : Nat × α) : Prop := a.1 < b.1

instance {α : Type} : IsAntisymm (Nat × α) keyLt :=
  ⟨fun a b h1 h2 => (Nat.lt_irrefl a.1 (Nat.lt_trans h1 h2)).elim⟩

/-- The parallel executor returns exactly the sequential results: the
completion schedule cannot influence the collected vector. -/
theorem rayonExecute_eq_seqExecute (sched : Nat → Nat)
    (tasks : List (Unit → TaskResult)) :
    rayonExecute sched tasks = seqExecute tasks := by
  unfold rayonExecute seqExecute
  simp only []
  have hpair_enum : List.Pairwise (fun a b : Nat × (Unit → TaskResult) => a.1 < b.1)
      tasks.enum := by
    have := List.pairwise_lt_range tasks.length
    rw [← List.enum_map_fst tasks] at this
    exact List.pairwise_map.1 this
  have hbase : List.Pairwise keyLt (tasks.enum.map fun p => (p.1, p.2 ())) := by
    rw [List.pairwise_map]
    exact hpair_enum.imp fun h => h
  have hperm :
      ((((tasks.enum.mergeSort fun a b => decide (sched a.1 ≤ sched b.1)).map
          fun p => (p.1, p.2 ())).mergeSort fun a b => decide (a.1 ≤ b.1)).Perm
        (tasks.enum.map fun p => (p.1, p.2 ()))) :=
    (List.mergeSort_perm _ _).trans
      ((List.mergeSort_perm tasks.enum _).map fun p => (p.1, p.2 ()))
  have hle : List.Pairwise (fun a b : Nat × TaskResult => a.1 ≤ b.1)
      (((tasks.enum.mergeSort fun a b => decide (sched a.1 ≤ sched b.1)).map
          fun p => (p.1, p.2 ())).mergeSort fun a b => decide (a.1 ≤ b.1)) := by
    have := @List.sorted_mergeSort (Nat × TaskResult)
      (fun a b : Nat × TaskResult => decide (a.1 ≤ b.1))
      (fun a b c hab hbc => by
        simp only [decide_eq_true_eq] at hab hbc ⊢
        omega)
      (fun a b => by
        simp only [Bool.or_eq_true, decide_eq_true_eq]
        omega)
      ((tasks.enum.mergeSort fun a b => decide (sched a.1 ≤ sched b.1)).map
        fun p => (p.1, p.2 ()))
    exact this.imp fun h => by simpa using h
  have hnodup : (((((tasks.enum.mergeSort fun a b => decide (sched a.1 ≤ sched b.1)).map
      fun p => (p.1, p.2 ())).mergeSort fun a b => decide (a.1 ≤ b.1)).map Prod.fst)).Nodup := by
    have hperm2 := hperm.map Prod.fst
    have : ((tasks.enum.map fun p => (p.1, p.2 ())).map Prod.fst).Nodup := by
      rw [List.map_map]
      have : (Prod.fst ∘ fun p : Nat × (Unit → TaskResult) => (p.1, p.2 ())) = Prod.fst := rfl
      rw [this, List.enum_map_fst]
      exact List.nodup_range tasks.length
    exact hperm2.symm.nodup this
  have hne : List.Pairwise (fun a b : Nat × TaskResult => a.1 ≠ b.1)
      (((tasks.enum.mergeSort fun a b => decide (sched a.1 ≤ sched b.1)).map
          fun p => (p.1, p.2 ())).mergeSort fun a b => decide (a.1 ≤ b.1)) :=
    List.pairwise_map.1 hnodup
  have hsorted : List.Pairwise keyLt
      (((tasks.enum.mergeSort fun a b => decide (sched a.1 ≤ sched b.1)).map
          fun p => (p.1, p.2 ())).mergeSort fun a b => decide (a.1 ≤ b.1)) :=
    (hle.and hne).imp fun h => Nat.lt_of_le_of_ne h.1 h.2
  have heq := @List.eq_of_perm_of_sorted (Nat × TaskResult) keyLt _ _ _ hperm hsorted hbase
  rw [heq, List.map_map]
  have hsnd : ((fun p : Nat × TaskResult => p.2) ∘ fun p : Nat × (Unit → TaskResult) =>
      (p.1, p.2 ())) = fun p : Nat × (Unit → TaskResult) => p.2 () := rfl
  rw [hsnd]
  have : tasks.enum.map (fun p : Nat × (Unit → TaskResult) => p.2 ()) =
      (tasks.enum.map Prod.snd).map fun f => f () := by
    rw [List.map_map]; rfl
  rw [this, List.enum_map_snd]

--
--  Path ordering (`impl cmp::Ord for Path` in `src/model.rs`: the tuple
--  (source, target, count, catalysts, recipes), with sets compared by the
--  reversed lexicographic order of their count arrays)
--

/-- Three-way comparison of naturals. -/
def cmpNat (a b : Nat) : Ordering := if a < b then .lt else if b < a then .gt else .eq

/-- Lexicographic comparison of the count arrays (`self.spheres.cmp`). -/
def cmpArr (a b : SSet) : Ordering :=
  (List.finRange DIM).foldl (fun o i => o.then (cmpNat (a i) (b i))) .eq

/-- `impl cmp::Ord for Set`: the reversed array comparison. -/
def cmpSSet (a b : SSet) : Ordering := (cmpArr a b).swap

/-- Comparison of recipes by their (input, output) pairs; the relative
order of the two variants never matters below (the counterexample is
decided at the catalysts). -/
def cmpRec : Recipe → Recipe → Ordering
  | .folding f, .folding g => (cmpSSet f.inp g.inp).then (cmpSSet f.out g.out)
  | .inversion f, .inversion g => (cmpSSet f.inp g.inp).then (cmpSSet f.out g.out)
  | .folding _, .inversion _ => .lt
  | .inversion _, .folding _ => .gt

/-- Lexicographic comparison of recipe lists (`Vec`/slice ordering). -/
def cmpRecList : List Recipe → List Recipe → Ordering
  | [], [] => .eq
  | [], _ :: _ => .lt
  | _ :: _, [] => .gt
  | a :: as2, b :: bs2 => (cmpRec a b).then (cmpRecList as2 bs2)

/-- `impl cmp::Ord for Path` via `tuplify`. -/
def cmpPath (p q : PathO) : Ordering :=
  (cmpSSet p.source q.source).then ((cmpSSet p.target q.target).then
    ((cmpNat p.count q.count).then ((cmpSSet p.catalysts q.catalysts).then
      (cmpRecList p.recipes q.recipes))))

/-- Whether a vector of paths is sorted in the path order. -/
def isSortedPaths : List PathO → Bool
  | [] => true
  | [_] => true
  | a :: b :: rest => (cmpPath a b != Ordering.gt) && isSortedPaths (b :: rest)

/-- The paths of a successful solver result. -/
def pathsOf : Option (Except ResolutionError (List PathO)) → List PathO
  | some (.ok l) => l
  | _ => []

--
--  Claim C8: determinism and ordering of solve results
--

/-- The default configuration widened to start at two catalysts
(`minimum_catalysts = 2`). -/
def cfgMinTwo : SolverConfiguration := ⟨8, 2, 10⟩

/-- The multiset `EP`. -/
def spEP : SSet := SSet.ofList [0, 4]

/-- The multiset `LX`. -/
def spLX : SSet := SSet.ofList [2, 6]

/-- C8, counterexample.  The claim states that the vector returned by
`solve` "is already sorted (final results are explicitly sorted after all
search tasks complete)".  No sort exists in `src/solver.rs`: results are
concatenated in task-generation order.  Solving `EP -> LX` with
`minimum_catalysts = 2` succeeds with 34 paths whose catalysts appear in
catalyst-enumeration order (`EG, EO, EG, GG, ...`), which is not sorted in
the path order (e.g. a path with catalysts `EO` precedes a later duplicate
with catalysts `EG`, yet `EG < EO`). -/
theorem c8_counterexample :
    (pathsOf (solve seqExecute seRecipeSet cfgMinTwo spEP spLX)).length = 34 ∧
      isSortedPaths (pathsOf (solve seqExecute seRecipeSet cfgMinTwo spEP spLX)) = false := by
  constructor
  · rfl
  · rfl

/-- C8, amended: `solve` is deterministic — identical inputs and
configuration give identical result vectors, and in particular the result
does not depend on the executor's completion schedule: the parallel
executor produces exactly the sequential executor's vector for every
schedule.  The returned vector is however not sorted in general (no sort
is performed; see the counterexample). -/
theorem c8_theorem (sched : Nat → Nat) (rs : RecipeSet) (cfg : SolverConfiguration)
    (source target : SSet) :
    solve (rayonExecute sched) rs cfg source target =
      solve seqExecute rs cfg source target := by
  have h : rayonExecute sched = seqExecute := funext (rayonExecute_eq_seqExecute sched)
  rw [h]

--
--  Claim C9: solve on identical source and target
--

/-- C9: for every multiset `s` (and any executor, recipe set and
configuration), `solve s s` succeeds and returns exactly the trivial
zero-recipe path: source and target `s`, count 1, no catalysts, no
recipes. -/
theorem c9_theorem (exec : Exec) (rs : RecipeSet) (cfg : SolverConfiguration) (s : SSet) :
    solve exec rs cfg s s = some (.ok [⟨s, s, 1, SSet.empty, []⟩]) := by
  unfold solve
  simp

--
--  Claim C7: inversion selection and repetition count
--

theorem foldl_pos_add_neg (s : SSet) (l : List Sph) : ∀ (a b c : Nat), a + b = c →
    (l.foldl (fun acc i => if sePolarityNegative i then acc else acc + s i) a)
      + (l.foldl (fun acc i => if sePolarityNegative i then acc + s i else acc) b)
      = l.foldl (fun acc i => acc + s i) c := by
  induction l with
  | nil => intro a b c h; simpa using h
  | cons i rest ih =>
    intro a b c h
    by_cases hp : sePolarityNegative i
    · simp only [List.foldl_cons, hp, if_true]
      exact ih a (b + s i) (c + s i) (by omega)
    · simp only [List.foldl_cons, hp, if_false]
      exact ih (a + s i) b (c + s i) (by omega)

/-- Every sphere has exactly one category: the category counts add up to
the cardinality. -/
theorem countPos_add_countNeg (s : SSet) :
    s.countPositives + s.countNegatives = s.len :=
  foldl_pos_add_neg s (List.finRange DIM) 0 0 0 rfl

/-- The direction of the category flip needed to go from `source` to
`target` — the claim's "sign of the needed category delta" (this is the
`polarity` computed at the head of `select_inversion`). -/
def neededPol (s t : SSet) : Pol :=
  if t.countNegatives < s.countNegatives then .positive else .negative

/-- The claim's "needed category delta": how many spheres must flip toward
the needed direction in one `source -> target` conversion. -/
def neededDelta (s t : SSet) : Nat :=
  if neededPol s t = .positive then t.countPositives - s.countPositives
  else t.countNegatives - s.countNegatives

/-- The claim's "fixed per-application delta" of an inversion recipe in a
given direction. -/
def perAppDelta (pol : Pol) (v : Inversion) : Nat :=
  if pol = .positive then v.out.countPositives - v.inp.countPositives
  else v.out.countNegatives - v.inp.countNegatives

/-- C7: when source and target have equal cardinality but unequal category
balance: (a) if no inversion recipe of the needed direction exists, `solve`
fails definitively with `NotWithInversions`; (b) whenever
`select_inversion` chooses `(count, inversion, apps)`, the chosen inversion
is an enumerated one whose direction matches the sign of the needed
category delta, and `count` is the minimal positive number such that
`count` copies of the needed delta are an exact multiple of the inversion's
fixed per-application delta. -/
theorem c7_theorem (exec : Exec) (rs : RecipeSet) (cfg : SolverConfiguration)
    (s t : SSet) (hlen : s.len = t.len)
    (hneg : s.countNegatives ≠ t.countNegatives) :
    ((∀ v ∈ rs.inversions, v.polarity ≠ neededPol s t) →
        solve exec rs cfg s t = some (.error .NotWithInversions))
    ∧ (∀ count inv apps, selectInversion rs s t = some (count, inv, apps) →
        inv ∈ rs.inversions ∧ inv.polarity = neededPol s t ∧ 0 < count ∧
        perAppDelta (neededPol s t) inv ∣ count * neededDelta s t ∧
        (∀ c, 0 < c → perAppDelta (neededPol s t) inv ∣ c * neededDelta s t →
          count ≤ c)) := by
  constructor
  · intro hnone
    have hst : s ≠ t := fun he => hneg (by rw [he])
    have hfind1 : (rs.inversions.find? fun v =>
        decide (s = v.inp) && decide (t = v.out)) = none := by
      rw [List.find?_eq_none]
      intro v hv hdec
      simp only [Bool.and_eq_true, decide_eq_true_eq] at hdec
      obtain ⟨hsi, hto⟩ := hdec
      apply hnone v hv
      have hps := countPos_add_countNeg s
      have hpt := countPos_add_countNeg t
      unfold Inversion.polarity neededPol
      rw [← hsi, ← hto]
      by_cases hlt : t.countNegatives < s.countNegatives
      · rw [if_pos hlt, if_pos (by omega)]
      · rw [if_neg hlt, if_neg (by omega)]
    have hfind2 : (rs.inversions.find? fun r =>
        decide (r.polarity =
          if t.countNegatives < s.countNegatives then Pol.positive else Pol.negative))
        = none := by
      rw [List.find?_eq_none]
      intro v hv hdec
      simp only [decide_eq_true_eq] at hdec
      exact hnone v hv hdec
    unfold solve
    rw [if_neg (not_not_intro hlen), if_neg hst, if_neg hneg]
    unfold solveByInversion selectInversion
    simp only [hfind1, hfind2]
  · intro count inv apps hsel
    simp only [selectInversion] at hsel
    rw [show (if t.countNegatives < s.countNegatives then Pol.positive else Pol.negative)
      = neededPol s t from rfl] at hsel
    cases hfind : (rs.inversions.find? fun r => decide (r.polarity = neededPol s t)) with
    | none =>
      rw [hfind] at hsel
      exact Option.noConfusion hsel
    | some inversion =>
      rw [hfind] at hsel
      have hmem : inversion ∈ rs.inversions := List.mem_of_find?_eq_some hfind
      have hpol : inversion.polarity = neededPol s t := by
        have := List.find?_some hfind
        simpa using this
      simp only [neededDelta, perAppDelta] at *
      by_cases htr : (if neededPol s t = Pol.positive
            then t.countPositives - s.countPositives
            else t.countNegatives - s.countNegatives)
          = (if neededPol s t = Pol.positive
            then inversion.out.countPositives - inversion.inp.countPositives
            else inversion.out.countNegatives - inversion.inp.countNegatives)
      · rw [if_pos htr] at hsel
        cases hsel
        refine ⟨hmem, hpol, Nat.one_pos, by rw [htr, Nat.one_mul], ?_⟩
        intro c hc _
        exact hc
      · rw [if_neg htr] at hsel
        set tf := (if neededPol s t = Pol.positive
            then t.countPositives - s.countPositives
            else t.countNegatives - s.countNegatives) with htf
        set rf := (if neededPol s t = Pol.positive
            then inversion.out.countPositives - inversion.inp.countPositives
            else inversion.out.countNegatives - inversion.inp.countNegatives) with hrf
        by_cases hguard : 0 < rf / Nat.gcd tf rf ∧ rf / Nat.gcd tf rf ≤ 255
            ∧ 0 < tf / Nat.gcd tf rf ∧ tf / Nat.gcd tf rf ≤ 255
        · rw [if_pos hguard] at hsel
          cases hsel
          obtain ⟨hcpos, _, hapos, _⟩ := hguard
          have hg : 0 < Nat.gcd tf rf := by
            by_contra hgz
            have : Nat.gcd tf rf = 0 := by omega
            rw [this, Nat.div_zero] at hcpos
            exact Nat.lt_irrefl 0 hcpos
          have hgtf : Nat.gcd tf rf ∣ tf := Nat.gcd_dvd_left tf rf
          have hgrf : Nat.gcd tf rf ∣ rf := Nat.gcd_dvd_right tf rf
          refine ⟨hmem, hpol, hcpos, ?_, ?_⟩
          · refine ⟨tf / Nat.gcd tf rf, ?_⟩
            calc rf / Nat.gcd tf rf * tf
                = rf / Nat.gcd tf rf * (Nat.gcd tf rf * (tf / Nat.gcd tf rf)) := by
                  rw [Nat.mul_div_cancel' hgtf]
              _ = rf / Nat.gcd tf rf * Nat.gcd tf rf * (tf / Nat.gcd tf rf) := by
                  rw [Nat.mul_assoc]
              _ = rf * (tf / Nat.gcd tf rf) := by rw [Nat.div_mul_cancel hgrf]
          · intro c hc hdvd
            have hco : Nat.Coprime (rf / Nat.gcd tf rf) (tf / Nat.gcd tf rf) :=
              (@Nat.coprime_div_gcd_div_gcd tf rf hg).symm
            have hdvd2 : rf / Nat.gcd tf rf ∣ c * (tf / Nat.gcd tf rf) := by
              have h1 : Nat.gcd tf rf * (rf / Nat.gcd tf rf) ∣
                  Nat.gcd tf rf * (c * (tf / Nat.gcd tf rf)) := by
                rw [Nat.mul_div_cancel' hgrf]
                have : Nat.gcd tf rf * (c * (tf / Nat.gcd tf rf))
                    = c * (Nat.gcd tf rf * (tf / Nat.gcd tf rf)) := by ring
                rw [this, Nat.mul_div_cancel' hgtf]
                exact hdvd
              exact (Nat.mul_dvd_mul_iff_left hg).1 h1
            have hdc : rf / Nat.gcd tf rf ∣ c := hco.dvd_of_dvd_mul_right hdvd2
            exact Nat.le_of_dvd hc hdc
        · rw [if_neg hguard] at hsel
          exact Option.noConfusion hsel

/-- The multiset `GGOO`. -/
def spGGOO : SSet := SSet.ofList [1, 1, 3, 3]

/-- The multiset `EEGO`. -/
def spEEGO : SSet := SSet.ofList [0, 0, 1, 3]

/-- C7, witness: for `GGOO -> EEGO` the solver selects the positive
inversion `GOTZ -> ELPX` with repetition count 2 (needed delta 2, per
application delta 4, gcd 2), and 2 copies of the needed delta are an exact
multiple of the per-application delta. -/
theorem c7_theorem_witness :
    selectInversion seRecipeSet spGGOO spEEGO = some (2, invGOTZ, 1) ∧
      invGOTZ ∈ seRecipeSet.inversions ∧
      invGOTZ.polarity = neededPol spGGOO spEEGO ∧
      perAppDelta (neededPol spGGOO spEEGO) invGOTZ ∣ 2 * neededDelta spGGOO spEEGO := by
  have h := (c7_theorem seqExecute seRecipeSet defaultConfiguration spGGOO spEEGO
    (by decide) (by decide)).2 2 invGOTZ 1 (by decide)
  exact ⟨by decide, h.1, h.2.1, h.2.2.2.1⟩

--
--  Claim C2: multiset subtraction
--

/-- C2, counterexample.  The claim states that a multiset difference `a - b`
with `b` not a subset of `a` is "rejected loudly as a defect
(panic/abort-equivalent) rather than saturating or wrapping silently;
equivalently, whenever `a - b` returns normally, `(a - b) + b = a`."
`impl ops::SubAssign for Set` (src/model.rs) instead uses `saturating_sub`:
subtracting one `E` from the empty set returns the empty set normally, and
`(a - b) + b = a` fails. -/
theorem c2_counterexample :
    (SSet.empty - SSet.ofList [0] = SSet.empty) ∧
      (SSet.empty - SSet.ofList [0]) + SSet.ofList [0] ≠ SSet.empty := by
  constructor
  · decide
  · decide

/-- C2, amended: multiset subtraction saturates each per-token count at zero
(it silently discards the unmatched part of the subtrahend); `(a - b) + b = a`
holds exactly when `b` is a subset of `a`, and in that case no tokens are
lost. -/
theorem c2_theorem (a b : SSet) (h : SSet.Subset b a) : a - b + b = a :=
  sub_add_cancel_of_subset h

/-- C2, witness for the amended theorem: subtracting one `E` from two `E`s
and re-adding it restores the two `E`s. -/
theorem c2_theorem_witness :
    SSet.Subset (SSet.ofList [0]) (SSet.ofList [0, 0]) ∧
      SSet.ofList [0, 0] - SSet.ofList [0] + SSet.ofList [0] = SSet.ofList [0, 0] :=
  ⟨by decide, c2_theorem (SSet.ofList [0, 0]) (SSet.ofList [0]) (by decide)⟩

--
--  The newer model (`src/model.rs` / `src/space_exploration.rs`):
--  enumerated recipes, `Path`, `StagedPath::parallelize`, and the planner.
--

/-- `SeArcosphereRecipe`: the ten enumerated Space Exploration recipes, in
declaration (index) order. -/
inductive SeRecipe where
  | GOTZ
  | ELPX
  | EO
  | ET
  | LO
  | LT
  | PG
  | PZ
  | XG
  | XZ
deriving DecidableEq

/-- `SeArcosphereRecipe::into_index` (the `#[repr(u8)]` discriminant). -/
def SeRecipe.idx : SeRecipe → Nat
  | .GOTZ => 0
  | .ELPX => 1
  | .EO => 2
  | .ET => 3
  | .LO => 4
  | .LT => 5
  | .PG => 6
  | .PZ => 7
  | .XG => 8
  | .XZ => 9

/-- `SeArcosphereRecipe::input`. -/
def seInput : SeRecipe → SSet
  | .GOTZ => SSet.ofList [1, 3, 5, 7]
  | .ELPX => SSet.ofList [0, 2, 4, 6]
  | .EO => SSet.ofList [0, 3]
  | .ET => SSet.ofList [0, 5]
  | .LO => SSet.ofList [2, 3]
  | .LT => SSet.ofList [2, 5]
  | .PG => SSet.ofList [4, 1]
  | .PZ => SSet.ofList [4, 7]
  | .XG => SSet.ofList [6, 1]
  | .XZ => SSet.ofList [6, 7]

/-- `SeArcosphereRecipe::output`. -/
def seOutput : SeRecipe → SSet
  | .GOTZ => SSet.ofList [0, 2, 4, 6]
  | .ELPX => SSet.ofList [1, 3, 5, 7]
  | .EO => SSet.ofList [2, 1]
  | .ET => SSet.ofList [4, 3]
  | .LO => SSet.ofList [6, 5]
  | .LT => SSet.ofList [0, 7]
  | .PG => SSet.ofList [6, 3]
  | .PZ => SSet.ofList [0, 1]
  | .XG => SSet.ofList [2, 7]
  | .XZ => SSet.ofList [4, 5]

/-- `Path<SeArcosphereFamily>` of the newer model. -/
structure PathSE where
  source : SSet
  target : SSet
  count : Nat
  catalysts : SSet
  recipes : List SeRecipe
deriving DecidableEq

/-- `StagedPath<SeArcosphereFamily>`: a path plus the stage boundary
indices (`Vec<u8>`, the implicit leading 0 omitted). -/
structure StagedPathSE where
  path : PathSE
  stages : List Nat
deriving DecidableEq

/-- The combined input of a stage (`Stage::input`). -/
def stageIn (l : List SeRecipe) : SSet :=
  l.foldl (fun acc r => acc + seInput r) SSet.empty

/-- The combined output of a stage (`Stage::output`). -/
def stageOut (l : List SeRecipe) : SSet :=
  l.foldl (fun acc r => acc + seOutput r) SSet.empty

/-- The window walk of `StagedPath::stages()`: each pair of consecutive
boundaries delimits one slice `recipes[prev..b]`. -/
def stageSlicesRec (recipes : List SeRecipe) (prev : Nat) :
    List Nat → List (List SeRecipe)
  | [] => [(recipes.drop prev).take (recipes.length - prev)]
  | b :: bs => ((recipes.drop prev).take (b - prev)) :: stageSlicesRec recipes b bs

/-- `StagedPath::stages()`: the stage slices delimited by
`0, stages..., recipes.len()`. -/
def stageSlices (recipes : List SeRecipe) (stages : List Nat) : List (List SeRecipe) :=
  stageSlicesRec recipes 0 stages

/-- The state available on entry to stage `k` when the stages before it
execute in order: `state - input + output` per stage, from
`count * source + catalysts`. -/
def stateBeforeStage (start : SSet) (slices : List (List SeRecipe)) (k : Nat) : SSet :=
  (slices.take k).foldl (fun st sl => st - stageIn sl + stageOut sl) start

/-- A stage under construction in `StagedPath::parallelize` (the local
`Stage` struct: remaining spheres and assigned recipes). -/
structure PStage where
  remaining : SSet
  recipes : List SeRecipe
deriving DecidableEq

/-- `find_earliest` in `StagedPath::parallelize`: one past the last stage
whose remainder does not contain the recipe's input (0 when every stage's
remainder contains it). -/
def findEarliest (stages : List PStage) (r : SeRecipe) : Nat :=
  (((List.range stages.length).reverse.find? fun i =>
    match stages.get? i with
    | some st => !(seInput r).subsetOf st.remaining
    | none => false).map fun i => i + 1).getD 0

/-- The body of one iteration of the recipe loop in
`StagedPath::parallelize`, at placement index `e`: place the recipe in
stage `e`, subtract its input there, and either open a new trailing stage
(first recipe of the stage) or propagate `-input +output` to all later
stages.  The `&mut stages[earliest]` index panics when `e` is out of
bounds (`none`). -/
def applyBody (stages : List PStage) (e : Nat) (r : SeRecipe) : Option (List PStage) :=
  match stages.get? e with
  | none => none
  | some st =>
    let st2 : PStage := ⟨st.remaining - seInput r, st.recipes ++ [r]⟩
    let stages2 := stages.set e st2
    if st2.recipes.length = 1 then
      some (stages2 ++ [⟨st2.remaining + seOutput r, []⟩])
    else
      some (stages2.take (e + 1) ++ (stages2.drop (e + 1)).map fun s2 =>
        ⟨s2.remaining - seInput r + seOutput r, s2.recipes⟩)

/-- One iteration of the recipe loop in `StagedPath::parallelize`. -/
def applyOne (stages : List PStage) (r : SeRecipe) : Option (List PStage) :=
  applyBody stages (findEarliest stages r) r

/-- The recipe loop of `StagedPath::parallelize`. -/
def buildStages (start : SSet) (recipes : List SeRecipe) : Option (List PStage) :=
  recipes.foldlM applyOne [⟨start, []⟩]

/-- Recipe comparison used by the in-stage `sort` (`derive(Ord)` on the
field-less enum: discriminant order). -/
def seLe (a b : SeRecipe) : Bool := decide (a.idx ≤ b.idx)

/-- Insert into a sorted list (helper of `sortRecipes`). -/
def insertSorted (a : SeRecipe) : List SeRecipe → List SeRecipe
  | [] => [a]
  | b :: bs => if seLe a b then a :: b :: bs else b :: insertSorted a bs

/-- The in-stage `recipes.sort()`: the recipe order is total and
antisymmetric (the index is injective), so every correct sort produces the
same list; insertion sort keeps the embedding structurally recursive. -/
def sortRecipes : List SeRecipe → List SeRecipe
  | [] => []
  | a :: as2 => insertSorted a (sortRecipes as2)

/-- The flattening step of `StagedPath::parallelize`: concatenate the
(sorted) stage recipe lists, recording each stage's start index
(`path.recipes.len() as u8` — the truncating cast is `% 256`) except when
nothing has been emitted yet. -/
def flattenStages (stages : List (List SeRecipe)) : List SeRecipe × List Nat :=
  stages.foldl
    (fun acc st =>
      (acc.1 ++ st, if acc.1.isEmpty then acc.2 else acc.2 ++ [acc.1.length % 256]))
    ([], [])

/-- `StagedPath::parallelize` from `src/model.rs`. -/
def parallelize (p : PathSE) : Option StagedPathSE :=
  match buildStages (p.source.smul p.count + p.catalysts) p.recipes with
  | none => none
  | some stages0 =>
    let stages1 :=
      match stages0.getLast? with
      | some st => if st.recipes.isEmpty then stages0.dropLast else stages0
      | none => stages0
    let sorted := stages1.map fun st => sortRecipes st.recipes
    let fl := flattenStages sorted
    some ⟨⟨p.source, p.target, p.count, p.catalysts, fl.1⟩, fl.2⟩

--
--  Planner (`src/planner.rs`)
--

/-- `PlanningError` from `src/planner.rs`. -/
inductive PlanningErrorSE where
  | FailedApplication (index : Nat) (current input : SSet)
  | FailedTarget (result : SSet)
  | FailedCatalysts (remainder : SSet)
deriving DecidableEq

/-- `StageDescription`: remainder and extracted multisets of one stage. -/
structure StageDescSE where
  remainder : SSet
  extracted : SSet
deriving DecidableEq

/-- `Plan`: the staged path and one description per stage. -/
structure PlanSE where
  path : StagedPathSE
  stages : List StageDescSE
deriving DecidableEq

/-- The stage loop of `Planner::compute_remainders`. -/
def remaindersLoop (i : Nat) (state : SSet) :
    List (List SeRecipe) → Except PlanningErrorSE (List SSet × SSet)
  | [] => .ok ([], state)
  | sl :: rest =>
    let input := stageIn sl
    if input.subsetOf state then
      match remaindersLoop (i + 1) (state - input + stageOut sl) rest with
      | .error e => .error e
      | .ok (rems, fin) => .ok ((state - input) :: rems, fin)
    else .error (.FailedApplication i state input)

/-- `Planner::compute_remainders`. -/
def computeRemainders (sp : StagedPathSE) : Except PlanningErrorSE (List SSet) :=
  let start := sp.path.source.smul sp.path.count + sp.path.catalysts
  match remaindersLoop 0 start (stageSlices sp.path.recipes sp.stages) with
  | .error e => .error e
  | .ok (rems, fin) =>
    let target := sp.path.target.smul sp.path.count
    if target.subsetOf fin then
      if fin - target = sp.path.catalysts then .ok rems
      else .error (.FailedCatalysts (fin - target))
    else .error (.FailedTarget fin)

/-- `find_earliest_extraction_stage` in `Planner::compute_extracteds`:
one past the last stage whose remainder does not contain the sphere. -/
def findEarliestExtraction (remainders : List SSet) (e : Sph) : Nat :=
  (((List.range remainders.length).reverse.find? fun i =>
    match remainders.get? i with
    | some rem => !rem.contains e
    | none => false).map fun i => i + 1).getD 0

/-- One output sphere of `Planner::compute_extracteds`: mark it extracted
from its earliest extraction stage onward (`Set::remove` panics — `none` —
if a remainder does not contain it). -/
def extractOne (acc : List SSet × List SSet) (e : Sph) :
    Option (List SSet × List SSet) :=
  let earliest := findEarliestExtraction acc.1 e
  match (acc.1.drop earliest).mapM fun s => s.remove e with
  | none => none
  | some removed =>
    some (acc.1.take earliest ++ removed,
      acc.2.take earliest ++ (acc.2.drop earliest).map fun s => s.insert e)

/-- `Planner::compute_extracteds`. -/
def computeExtracteds (remainders : List SSet) (output : SSet) :
    Option (List SSet × List SSet) :=
  output.toList.foldlM extractOne
    (remainders, List.replicate remainders.length SSet.empty)

/-- `Planner::plan`. -/
def plan (sp : StagedPathSE) : Option (Except PlanningErrorSE PlanSE) :=
  match computeRemainders sp with
  | .error e => some (.error e)
  | .ok remainders =>
    let output := sp.path.target.smul sp.path.count + sp.path.catalysts
    match computeExtracteds remainders output with
    | none => none
    | some (rem2, ext) =>
      some (.ok ⟨sp, (rem2.zip ext).map fun rx => ⟨rx.1, rx.2⟩⟩)

--
--  Supporting lemmas for the parallelize/planner proofs
--

theorem sset_add_empty (a : SSet) : a + SSet.empty = a := by
  funext i; show a i + 0 = a i; omega

theorem sset_empty_subset (a : SSet) : SSet.Subset SSet.empty a := by
  intro i; show 0 ≤ a i; omega

theorem sset_subset_trans {a b c : SSet} (h1 : SSet.Subset a b) (h2 : SSet.Subset b c) :
    SSet.Subset a c := fun i => le_trans (h1 i) (h2 i)

/-- Folding a per-recipe sum from an accumulator adds the accumulator to
the sum from the empty set. -/
theorem foldl_sum_acc (g : SeRecipe → SSet) : ∀ (l : List SeRecipe) (acc : SSet),
    l.foldl (fun a r => a + g r) acc
      = acc + l.foldl (fun a r => a + g r) SSet.empty := by
  intro l
  induction l with
  | nil => intro acc; exact (sset_add_empty acc).symm
  | cons x rest ih =>
    intro acc
    simp only [List.foldl_cons]
    rw [ih (acc + g x), ih (SSet.empty + g x)]
    funext i
    show acc i + g x i + _ = acc i + (0 + g x i + _)
    omega

theorem sum_cons (g : SeRecipe → SSet) (x : SeRecipe) (l : List SeRecipe) :
    (x :: l).foldl (fun a r => a + g r) SSet.empty
      = g x + l.foldl (fun a r => a + g r) SSet.empty := by
  simp only [List.foldl_cons]
  rw [foldl_sum_acc]
  funext i
  show 0 + g x i + _ = g x i + _
  omega

theorem sum_perm (g : SeRecipe → SSet) {l1 l2 : List SeRecipe} (h : l1.Perm l2) :
    l1.foldl (fun a r => a + g r) SSet.empty
      = l2.foldl (fun a r => a + g r) SSet.empty := by
  induction h with
  | nil => rfl
  | cons x _ ih => rw [sum_cons, sum_cons, ih]
  | swap x y l =>
    rw [sum_cons, sum_cons, sum_cons, sum_cons]
    funext i
    show g y i + (g x i + _) = g x i + (g y i + _)
    omega
  | trans _ _ ih1 ih2 => rw [ih1, ih2]

theorem stageIn_cons (x : SeRecipe) (l : List SeRecipe) :
    stageIn (x :: l) = seInput x + stageIn l := sum_cons seInput x l

theorem stageOut_cons (x : SeRecipe) (l : List SeRecipe) :
    stageOut (x :: l) = seOutput x + stageOut l := sum_cons seOutput x l

theorem stageIn_perm {l1 l2 : List SeRecipe} (h : l1.Perm l2) :
    stageIn l1 = stageIn l2 := sum_perm seInput h

theorem stageOut_perm {l1 l2 : List SeRecipe} (h : l1.Perm l2) :
    stageOut l1 = stageOut l2 := sum_perm seOutput h

theorem stageIn_append_one (l : List SeRecipe) (r : SeRecipe) :
    stageIn (l ++ [r]) = stageIn l + seInput r := by
  unfold stageIn
  rw [List.foldl_append]
  rfl

theorem stageOut_append_one (l : List SeRecipe) (r : SeRecipe) :
    stageOut (l ++ [r]) = stageOut l + seOutput r := by
  unfold stageOut
  rw [List.foldl_append]
  rfl

/-- Each member's input is at most the stage's combined input. -/
theorem input_le_stageIn {r : SeRecipe} : ∀ {l : List SeRecipe}, r ∈ l →
    SSet.Subset (seInput r) (stageIn l) := by
  intro l
  induction l with
  | nil => intro h; cases h
  | cons x rest ih =>
    intro h
    rw [stageIn_cons]
    cases h with
    | head => exact fun i => by show seInput r i ≤ seInput r i + _; omega
    | tail _ hm =>
      intro i
      have := ih hm i
      show seInput r i ≤ seInput x i + stageIn rest i
      omega

theorem insertSorted_perm (a : SeRecipe) : ∀ (l : List SeRecipe),
    (insertSorted a l).Perm (a :: l) := by
  intro l
  induction l with
  | nil => exact List.Perm.refl _
  | cons b bs ih =>
    unfold insertSorted
    by_cases h : seLe a b
    · rw [if_pos h]
    · rw [if_neg h]
      exact (ih.cons b).trans (List.Perm.swap a b bs)

theorem sortRecipes_perm : ∀ (l : List SeRecipe), (sortRecipes l).Perm l := by
  intro l
  induction l with
  | nil => exact List.Perm.refl _
  | cons a rest ih =>
    unfold sortRecipes
    exact (insertSorted_perm a (sortRecipes rest)).trans (ih.cons a)

/-- `find?` over a reversed range, `none` case: no index satisfies the
predicate. -/
theorem find_rev_none (p : Nat → Bool) : ∀ (n : Nat),
    (List.range n).reverse.find? p = none → ∀ i, i < n → p i = false := by
  intro n
  induction n with
  | zero => intro _ i hi; omega
  | succ n ih =>
    intro h i hi
    rw [List.range_succ, List.reverse_append, List.reverse_singleton,
      List.singleton_append] at h
    by_cases hp : p n = true
    · rw [List.find?_cons_of_pos _ hp] at h
      exact Option.noConfusion h
    · rw [List.find?_cons_of_neg _ (by simpa using hp)] at h
      rcases Nat.lt_succ_iff_lt_or_eq.1 hi with hlt | rfl
      · exact ih h i hlt
      · simpa using hp

/-- `find?` over a reversed range, `some` case: every larger index fails
the predicate. -/
theorem find_rev_some (p : Nat → Bool) : ∀ (n j : Nat),
    (List.range n).reverse.find? p = some j → ∀ i, j < i → i < n → p i = false := by
  intro n
  induction n with
  | zero => intro j h; exact Option.noConfusion h
  | succ n ih =>
    intro j h i hji hi
    rw [List.range_succ, List.reverse_append, List.reverse_singleton,
      List.singleton_append] at h
    by_cases hp : p n = true
    · rw [List.find?_cons_of_pos _ hp] at h
      cases h
      omega
    · rw [List.find?_cons_of_neg _ (by simpa using hp)] at h
      rcases Nat.lt_succ_iff_lt_or_eq.1 hi with hlt | rfl
      · exact ih j h i hji hlt
      · simpa using hp

/-- Specification of `find_earliest`: every stage at the placement index or
later has the recipe's input inside its remainder. -/
theorem findEarliest_spec (stages : List PStage) (r : SeRecipe) :
    ∀ i st, findEarliest stages r ≤ i → stages.get? i = some st →
      SSet.Subset (seInput r) st.remaining := by
  intro i st hle hget
  have hlt : i < stages.length := by
    by_contra hc
    rw [List.get?_eq_none.2 (by omega)] at hget
    exact Option.noConfusion hget
  have hgoal : ∀ hp : (fun i => match stages.get? i with
      | some st => !(seInput r).subsetOf st.remaining
      | none => false) i = false, SSet.Subset (seInput r) st.remaining := by
    intro hp
    have hp2 : (match stages.get? i with
      | some st => !(seInput r).subsetOf st.remaining
      | none => false) = false := hp
    rw [hget] at hp2
    simp only [Bool.not_eq_false'] at hp2
    exact SSet.subsetOf_iff.1 hp2
  cases hf : (List.range stages.length).reverse.find? fun i =>
      match stages.get? i with
      | some st => !(seInput r).subsetOf st.remaining
      | none => false with
  | none => exact hgoal (find_rev_none _ stages.length hf i hlt)
  | some j =>
    have he : findEarliest stages r = j + 1 := by
      unfold findEarliest
      rw [hf]
      rfl
    rw [he] at hle
    exact hgoal (find_rev_some _ stages.length j hf i (by omega) hlt)

/-- Invariant of the stage list during `parallelize`: the state available
on entry to each stage equals the stage's remainder plus its combined
input (so every subtraction performed was exact), all stages except the
trailing one hold at least one recipe, and the trailing one is empty. -/
inductive StInv : SSet → List PStage → Prop where
  | last : ∀ (a : SSet) (st : PStage), st.remaining + stageIn st.recipes = a →
      st.recipes = [] → StInv a [st]
  | cons : ∀ (a : SSet) (st : PStage) (rest : List PStage),
      st.remaining + stageIn st.recipes = a → st.recipes ≠ [] →
      StInv (st.remaining + stageOut st.recipes) rest → StInv a (st :: rest)

/-- Subtracting a recipe's input and adding its output to every later
stage's remainder (the propagation loop) keeps the invariant, provided
every such remainder contains the input. -/
theorem shiftInv (r : SeRecipe) {l : List PStage} {a : SSet} (h : StInv a l) :
    (∀ st ∈ l, SSet.Subset (seInput r) st.remaining) →
    StInv (a - seInput r + seOutput r)
      (l.map fun s2 => ⟨s2.remaining - seInput r + seOutput r, s2.recipes⟩) := by
  induction h with
  | last a st hid hre =>
    intro hsub
    have hs := hsub st (by simp)
    refine StInv.last _ _ ?_ hre
    funext i
    have h1 := congrFun hid i
    have h2 := hs i
    show st.remaining i - seInput r i + seOutput r i + stageIn st.recipes i
      = a i - seInput r i + seOutput r i
    simp only [SSet.add_def] at h1
    omega
  | cons a st rest hid hne hrec ih =>
    intro hsub
    have hs := hsub st (by simp)
    refine StInv.cons _ _ _ ?_ hne ?_
    · funext i
      have h1 := congrFun hid i
      have h2 := hs i
      show st.remaining i - seInput r i + seOutput r i + stageIn st.recipes i
        = a i - seInput r i + seOutput r i
      simp only [SSet.add_def] at h1
      omega
    · have ih2 := ih fun st2 hm => hsub st2 (by simp [hm])
      have heq : st.remaining + stageOut st.recipes - seInput r + seOutput r
          = (⟨st.remaining - seInput r + seOutput r, st.recipes⟩ : PStage).remaining
            + stageOut st.recipes := by
        funext i
        have h2 := hs i
        show st.remaining i + stageOut st.recipes i - seInput r i + seOutput r i
          = st.remaining i - seInput r i + seOutput r i + stageOut st.recipes i
        omega
      rw [heq] at ih2
      exact ih2

/-- `applyBody` at a positive index leaves the head stage alone and acts
on the tail at the predecessor index. -/
theorem applyBody_cons_succ (st : PStage) (rest : List PStage) (e : Nat) (r : SeRecipe) :
    applyBody (st :: rest) (e + 1) r = (applyBody rest e r).map fun l2 => st :: l2 := by
  cases hg2 : rest.get? e with
  | none =>
    rw [List.get?_eq_getElem?] at hg2
    simp [applyBody, hg2]
  | some st0 =>
    rw [List.get?_eq_getElem?] at hg2
    by_cases hemp : st0.recipes = []
    · simp [applyBody, hg2, hemp]
    · simp [applyBody, hg2, hemp]

/-- `applyBody` at index 0 reduces to an explicit case split. -/
theorem applyBody_cons_zero (st : PStage) (rest : List PStage) (r : SeRecipe) :
    applyBody (st :: rest) 0 r =
      if (st.recipes ++ [r]).length = 1 then
        some ((⟨st.remaining - seInput r, st.recipes ++ [r]⟩ : PStage)
          :: (rest ++ [⟨st.remaining - seInput r + seOutput r, []⟩]))
      else
        some ((⟨st.remaining - seInput r, st.recipes ++ [r]⟩ : PStage)
          :: rest.map fun s2 => ⟨s2.remaining - seInput r + seOutput r, s2.recipes⟩) := by
  by_cases hemp : st.recipes = []
  · rw [if_pos (by simp [hemp])]
    simp [applyBody, hemp]
  · rw [if_neg (by simp [hemp])]
    simp [applyBody, hemp]

/-- `applyBody` preserves the stage invariant whenever every stage at or
after the placement index has the recipe's input inside its remainder. -/
theorem applyBody_inv (r : SeRecipe) {l : List PStage} {a : SSet} (h : StInv a l) :
    ∀ (e : Nat),
    (∀ i st, e ≤ i → l.get? i = some st → SSet.Subset (seInput r) st.remaining) →
    ∀ out, applyBody l e r = some out → StInv a out := by
  induction h with
  | last a st hid hre =>
    intro e hsub out hout
    match e with
    | 0 =>
      have hs : SSet.Subset (seInput r) st.remaining := hsub 0 st (Nat.le_refl 0) rfl
      rw [hre] at hid
      rw [applyBody_cons_zero, hre] at hout
      rw [if_pos (by rfl)] at hout
      cases hout
      refine StInv.cons _ _ _ ?_ (by simp) (StInv.last _ _ ?_ rfl)
      · funext i
        have h1 := congrFun hid i
        have h2 := hs i
        simp only [SSet.add_def] at h1
        show st.remaining i - seInput r i + stageIn ([] ++ [r]) i = a i
        have h3 : stageIn ([] ++ [r]) i = 0 + seInput r i := rfl
        have h4 : stageIn ([] : List SeRecipe) i = 0 := rfl
        omega
      · funext i
        have h2 := hs i
        show st.remaining i - seInput r i + seOutput r i + stageIn [] i
          = st.remaining i - seInput r i + stageOut ([] ++ [r]) i
        have h3 : stageOut ([] ++ [r]) i = 0 + seOutput r i := rfl
        have h4 : stageIn ([] : List SeRecipe) i = 0 := rfl
        omega
    | e + 1 =>
      unfold applyBody at hout
      have hg : ([st] : List PStage).get? (e + 1) = none := rfl
      rw [hg] at hout
      exact Option.noConfusion hout
  | cons a st rest hid hne hrec ih =>
    intro e hsub out hout
    match e with
    | 0 =>
      have hs : SSet.Subset (seInput r) st.remaining := hsub 0 st (Nat.le_refl 0) rfl
      rw [applyBody_cons_zero] at hout
      have hlen : ¬ ((st.recipes ++ [r]).length = 1) := by
        simp only [List.length_append, List.length_cons, List.length_nil]
        have : st.recipes.length ≠ 0 := fun hz => hne (List.eq_nil_of_length_eq_zero hz)
        omega
      rw [if_neg hlen] at hout
      cases hout
      refine StInv.cons _ _ _ ?_ (by simp) ?_
      · funext i
        have h1 := congrFun hid i
        have h2 := hs i
        have h3 := congrFun (stageIn_append_one st.recipes r) i
        simp only [SSet.add_def] at h1 h3
        show st.remaining i - seInput r i + stageIn (st.recipes ++ [r]) i = a i
        omega
      · have hsub2 : ∀ st2 ∈ rest, SSet.Subset (seInput r) st2.remaining := by
          intro st2 hm
          obtain ⟨i, hi⟩ := List.get?_of_mem hm
          exact hsub (i + 1) st2 (Nat.zero_le (i + 1)) hi
        have ih2 := shiftInv r hrec hsub2
        have heq : st.remaining + stageOut st.recipes - seInput r + seOutput r
            = (st.remaining - seInput r : SSet) + stageOut (st.recipes ++ [r]) := by
          funext i
          have h2 := hs i
          have h3 := congrFun (stageOut_append_one st.recipes r) i
          simp only [SSet.add_def] at h3
          show st.remaining i + stageOut st.recipes i - seInput r i + seOutput r i
            = st.remaining i - seInput r i + stageOut (st.recipes ++ [r]) i
          omega
        rw [heq] at ih2
        exact ih2
    | e + 1 =>
      rw [applyBody_cons_succ] at hout
      cases hb : applyBody rest e r with
      | none =>
        rw [hb] at hout
        exact Option.noConfusion hout
      | some out2 =>
        rw [hb] at hout
        cases hout
        refine StInv.cons _ _ _ hid hne ?_
        refine ih e ?_ out2 hb
        intro i st2 hle hget
        exact hsub (i + 1) st2 (Nat.succ_le_succ hle) hget

/-- The recipe loop of `parallelize` preserves the stage invariant. -/
theorem buildStages_fold_inv : ∀ (recipes : List SeRecipe) (init : List PStage)
    (start : SSet), StInv start init →
    ∀ out, List.foldlM applyOne init recipes = some out → StInv start out := by
  intro recipes
  induction recipes with
  | nil =>
    intro init start h out hout
    cases hout
    exact h
  | cons r rest ih =>
    intro init start h out hout
    rw [List.foldlM_cons] at hout
    cases happ : applyOne init r with
    | none => rw [happ] at hout; exact Option.noConfusion hout
    | some s2 =>
      rw [happ] at hout
      have h2 : StInv start s2 :=
        applyBody_inv r h (findEarliest init r)
          (fun i st hle hget => findEarliest_spec init r i st hle hget) s2 happ
      exact ih s2 start h2 out hout

/-- The invariant holds of `buildStages`' result. -/
theorem buildStages_inv (start : SSet) (recipes : List SeRecipe) (out : List PStage)
    (h : buildStages start recipes = some out) : StInv start out := by
  refine buildStages_fold_inv recipes [⟨start, []⟩] start ?_ out h
  refine StInv.last _ _ ?_ rfl
  exact sset_add_empty start

/-- Reading off the invariant per stage: the entry state of stage `k`
equals the stage's remainder plus its combined input. -/
theorem stInv_get {a : SSet} : ∀ {l : List PStage}, StInv a l →
    ∀ k (hk : k < l.length),
      (l.get ⟨k, hk⟩).remaining + stageIn (l.get ⟨k, hk⟩).recipes
        = stateBeforeStage a (l.map (·.recipes)) k := by
  intro l h
  induction h with
  | last a st hid _ =>
    intro k hk
    match k with
    | 0 => exact hid
    | k + 1 => simp at hk
  | cons a st rest hid hne hrec ih =>
    intro k hk
    match k with
    | 0 => exact hid
    | k + 1 =>
      have hk2 : k < rest.length := by simpa using Nat.lt_of_succ_lt_succ hk
      have := ih k hk2
      unfold stateBeforeStage at this ⊢
      rw [List.map_cons, List.take_succ_cons, List.foldl_cons]
      have heq : a - stageIn st.recipes + stageOut st.recipes
          = st.remaining + stageOut st.recipes := by
        funext i
        have h1 := congrFun hid i
        simp only [SSet.add_def] at h1
        show a i - stageIn st.recipes i + stageOut st.recipes i
          = st.remaining i + stageOut st.recipes i
        omega
      rw [heq]
      exact this

/-- The trailing stage of the invariant list is empty. -/
theorem stInv_getLast_empty {a : SSet} : ∀ {l : List PStage}, StInv a l →
    ∃ st, l.getLast? = some st ∧ st.recipes = [] := by
  intro l h
  induction h with
  | last a st _ hre => exact ⟨st, rfl, hre⟩
  | cons a st rest _ _ hrec ih =>
    obtain ⟨st2, hg, he⟩ := ih
    match rest, hg with
    | b :: l2, hg => exact ⟨st2, by rw [List.getLast?_cons_cons]; exact hg, he⟩

/-- Every stage before the trailing one holds at least one recipe. -/
theorem stInv_dropLast_nonempty {a : SSet} : ∀ {l : List PStage}, StInv a l →
    ∀ st ∈ l.dropLast, st.recipes ≠ [] := by
  intro l h
  induction h with
  | last a st _ _ => intro st2 hm; simp at hm
  | cons a st rest hid hne hrec ih =>
    intro st2 hm
    match rest, hrec, ih, hm with
    | b :: l2, _, ih, hm =>
      rw [List.dropLast_cons₂] at hm
      cases hm with
      | head => exact hne
      | tail _ hm2 => exact ih st2 hm2

/-- The boundary list recorded by the flattening loop: the running recipe
count (cast to `u8`, i.e. `% 256`) at the start of every stage after the
first. -/
def boundsFrom (n : Nat) : List (List SeRecipe) → List Nat
  | [] => []
  | st :: rest => n % 256 :: boundsFrom (n + st.length) rest

theorem flattenStages_go : ∀ (tl : List (List SeRecipe)) (acc : List SeRecipe)
    (bs : List Nat), acc ≠ [] →
    tl.foldl
      (fun acc2 st =>
        (acc2.1 ++ st, if acc2.1.isEmpty then acc2.2 else acc2.2 ++ [acc2.1.length % 256]))
      (acc, bs)
      = (acc ++ tl.join, bs ++ boundsFrom acc.length tl) := by
  intro tl
  induction tl with
  | nil => intro acc bs _; simp [boundsFrom]
  | cons st rest ih =>
    intro acc bs h
    rw [List.foldl_cons]
    have hne : acc.isEmpty = false := by simpa [List.isEmpty_iff] using h
    simp only [hne, Bool.false_eq_true, if_false]
    rw [ih (acc ++ st) (bs ++ [acc.length % 256]) (by simp [h])]
    simp [boundsFrom, List.append_assoc]

theorem flattenStages_eq (l0 : List SeRecipe) (tl : List (List SeRecipe)) (h : l0 ≠ []) :
    flattenStages (l0 :: tl) = (l0 ++ tl.join, boundsFrom l0.length tl) := by
  unfold flattenStages
  rw [List.foldl_cons]
  have h0 : ((([] : List SeRecipe) ++ l0,
      if ([] : List SeRecipe).isEmpty then ([] : List Nat)
      else [] ++ [([] : List SeRecipe).length % 256]))
      = ((l0, ([] : List Nat)) : List SeRecipe × List Nat) := by
    simp
  rw [h0, flattenStages_go tl l0 [] h]
  simp

theorem slicesRec_join : ∀ (tl : List (List SeRecipe)) (hd all : List SeRecipe) (n : Nat),
    all.drop n = hd ++ tl.join → n ≤ all.length → all.length ≤ 255 →
    stageSlicesRec all n (boundsFrom (n + hd.length) tl) = hd :: tl := by
  intro tl
  induction tl with
  | nil =>
    intro hd all n hdrop _ _
    have hlen : all.length - n = hd.length := by
      have := congrArg List.length hdrop
      simpa using this
    simp only [boundsFrom, stageSlicesRec, hlen, hdrop]
    simp
  | cons st rest ih =>
    intro hd all n hdrop hn h255
    have hlen : all.length - n = hd.length + (st :: rest).join.length := by
      have := congrArg List.length hdrop
      simpa using this
    have hb : n + hd.length ≤ all.length := by omega
    simp only [boundsFrom, stageSlicesRec]
    have hmod : (n + hd.length) % 256 = n + hd.length := Nat.mod_eq_of_lt (by omega)
    rw [hmod]
    have hfst : (all.drop n).take (n + hd.length - n) = hd := by
      rw [hdrop]
      have h2 : n + hd.length - n = hd.length := by omega
      rw [h2]
      exact List.take_left hd _
    rw [hfst]
    have hdrop2 : all.drop (n + hd.length) = st ++ rest.join := by
      rw [← List.drop_drop, hdrop, List.drop_left hd]
      simp
    have := ih st all (n + hd.length) hdrop2 hb h255
    rw [this]

theorem stateBefore_map_sort (start : SSet) (ll : List (List SeRecipe)) (k : Nat) :
    stateBeforeStage start (ll.map sortRecipes) k = stateBeforeStage start ll k := by
  unfold stateBeforeStage
  rw [← List.map_take, List.foldl_map]
  have hf : (fun (st : SSet) sl =>
        st - stageIn (sortRecipes sl) + stageOut (sortRecipes sl))
      = fun (st : SSet) sl => st - stageIn sl + stageOut sl := by
    funext st sl
    rw [stageIn_perm (sortRecipes_perm sl), stageOut_perm (sortRecipes_perm sl)]
  rw [hf]

theorem take_dropLast_eq {α : Type} (l : List α) (k : Nat) (hk : k ≤ l.length - 1) :
    l.dropLast.take k = l.take k := by
  rw [List.dropLast_eq_take, List.take_take]
  have hmin : k ⊓ (l.length - 1) = k := min_eq_left hk
  rw [hmin]

--
--  Claim C5: the staging of parallelize
--

/-- C5, amended, part of the machinery: the slices of the produced staged
path are exactly the sorted per-stage recipe lists. -/
theorem parallelize_eq (p : PathSE) (sp : StagedPathSE)
    (h : parallelize p = some sp) :
    ∃ stages0, buildStages (p.source.smul p.count + p.catalysts) p.recipes = some stages0
      ∧ sp = ⟨⟨p.source, p.target, p.count, p.catalysts,
          (flattenStages (stages0.dropLast.map fun st => sortRecipes st.recipes)).1⟩,
          (flattenStages (stages0.dropLast.map fun st => sortRecipes st.recipes)).2⟩ := by
  unfold parallelize at h
  cases hb : buildStages (p.source.smul p.count + p.catalysts) p.recipes with
  | none => rw [hb] at h; exact Option.noConfusion h
  | some stages0 =>
    rw [hb] at h
    have hinv := buildStages_inv _ _ _ hb
    obtain ⟨stL, hgl, hgle⟩ := stInv_getLast_empty hinv
    simp only [hgl, hgle, List.isEmpty_nil, if_true] at h
    exact ⟨stages0, rfl, (Option.some.inj h).symm⟩

/-- C5, amended: `parallelize` preserves the path head, and in the staged
path it produces, every stage's combined input — hence every single
recipe's input — is contained in the multiset state accumulated before
that stage begins, so no recipe in a stage depends on another same-stage
recipe's output (the bound on the recipe count keeps the `u8` stage
boundaries exact). -/
theorem c5_theorem (p : PathSE) (sp : StagedPathSE)
    (h : parallelize p = some sp) (hlen : sp.path.recipes.length ≤ 255) :
    sp.path.source = p.source ∧ sp.path.target = p.target ∧ sp.path.count = p.count ∧
    sp.path.catalysts = p.catalysts ∧
    ∀ k (hk : k < (stageSlices sp.path.recipes sp.stages).length),
      SSet.Subset (stageIn ((stageSlices sp.path.recipes sp.stages).get ⟨k, hk⟩))
        (stateBeforeStage (p.source.smul p.count + p.catalysts)
          (stageSlices sp.path.recipes sp.stages) k)
      ∧ ∀ r ∈ (stageSlices sp.path.recipes sp.stages).get ⟨k, hk⟩,
          SSet.Subset (seInput r)
            (stateBeforeStage (p.source.smul p.count + p.catalysts)
              (stageSlices sp.path.recipes sp.stages) k) := by
  obtain ⟨stages0, hb, hsp⟩ := parallelize_eq p sp h
  have hinv := buildStages_inv _ _ _ hb
  subst hsp
  refine ⟨rfl, rfl, rfl, rfl, ?_⟩
  simp only [] at hlen ⊢
  cases hdl : stages0.dropLast with
  | nil =>
    intro k hk
    simp only [List.map_nil] at hk ⊢
    match k, hk with
    | 0, _ =>
      refine ⟨sset_empty_subset _, ?_⟩
      intro r hr
      simp [stageSlices, stageSlicesRec, flattenStages] at hr
    | k + 1, hk => simp [stageSlices, stageSlicesRec, flattenStages] at hk
  | cons l0 tl =>
    have hnonempty := stInv_dropLast_nonempty hinv
    have hl0 : l0.recipes ≠ [] := by
      refine hnonempty l0 ?_
      rw [hdl]
      exact List.mem_cons_self l0 tl
    have hs0 : sortRecipes l0.recipes ≠ [] := by
      intro hz
      apply hl0
      have hlen0 := (sortRecipes_perm l0.recipes).length_eq
      rw [hz] at hlen0
      exact List.eq_nil_of_length_eq_zero hlen0.symm
    rw [hdl] at hlen
    rw [List.map_cons] at hlen ⊢
    rw [flattenStages_eq _ _ hs0] at hlen ⊢
    simp only [] at hlen ⊢
    have hslices : stageSlices
        (sortRecipes l0.recipes ++ (tl.map fun st => sortRecipes st.recipes).join)
        (boundsFrom (sortRecipes l0.recipes).length (tl.map fun st => sortRecipes st.recipes))
        = sortRecipes l0.recipes :: (tl.map fun st => sortRecipes st.recipes) := by
      unfold stageSlices
      have := slicesRec_join (tl.map fun st => sortRecipes st.recipes)
        (sortRecipes l0.recipes)
        (sortRecipes l0.recipes ++ (tl.map fun st => sortRecipes st.recipes).join)
        0 (by simp) (Nat.zero_le _) hlen
      simpa using this
    rw [hslices]
    intro k hk
    have hk1 : k < (l0 :: tl).length := by simpa using hk
    have hkd : k < stages0.dropLast.length := by rw [hdl]; exact hk1
    have hkfull : k < stages0.length := by
      rw [List.length_dropLast] at hkd
      omega
    have hid := stInv_get hinv k hkfull
    have hget : (sortRecipes l0.recipes :: (tl.map fun st => sortRecipes st.recipes)).get
        ⟨k, hk⟩ = sortRecipes ((stages0.get ⟨k, hkfull⟩).recipes) := by
      have h12 : (sortRecipes l0.recipes :: (tl.map fun st => sortRecipes st.recipes))
          = stages0.dropLast.map fun st => sortRecipes st.recipes := by
        rw [hdl, List.map_cons]
      rw [List.get_of_eq h12 ⟨k, hk⟩]
      simp only [List.get_eq_getElem, List.getElem_map]
      rw [List.getElem_dropLast stages0 k hkd]
    have hstate : stateBeforeStage (p.source.smul p.count + p.catalysts)
        (sortRecipes l0.recipes :: (tl.map fun st => sortRecipes st.recipes)) k
        = stateBeforeStage (p.source.smul p.count + p.catalysts)
          (stages0.map (·.recipes)) k := by
      have h1 : (sortRecipes l0.recipes :: (tl.map fun st => sortRecipes st.recipes))
          = ((l0 :: tl).map (·.recipes)).map sortRecipes := by
        rw [List.map_map, List.map_cons]
        rfl
      rw [h1, stateBefore_map_sort]
      unfold stateBeforeStage
      congr 1
      rw [show ((l0 :: tl).map (·.recipes)) = (stages0.map (·.recipes)).dropLast from by
        rw [← hdl, List.map_dropLast]]
      refine take_dropLast_eq _ k ?_
      rw [List.length_map]
      rw [List.length_dropLast] at hkd
      omega
    constructor
    · rw [hget, hstate, stageIn_perm (sortRecipes_perm _)]
      intro i
      have hpt := congrFun hid i
      simp only [SSet.add_def] at hpt
      omega
    · intro r hr
      rw [hget] at hr
      have hr2 : r ∈ (stages0.get ⟨k, hkfull⟩).recipes :=
        ((sortRecipes_perm _).mem_iff).1 hr
      have hle2 := input_le_stageIn hr2
      rw [hstate]
      refine sset_subset_trans hle2 ?_
      intro i
      have hpt := congrFun hid i
      simp only [SSet.add_def] at hpt
      omega

/-- The claim's "earliest feasible stage" criterion, checked on a staged
path: every recipe must sit in the earliest stage whose
accumulated-available multiset (the state accumulated before that stage
begins) already contains the recipe's input — so no earlier stage's
pre-stage state may already contain it. -/
def claimEarliest (sp : StagedPathSE) : Bool :=
  let slices := stageSlices sp.path.recipes sp.stages
  let start := sp.path.source.smul sp.path.count + sp.path.catalysts
  (List.range slices.length).all fun k =>
    (slices.getD k []).all fun r =>
      (List.range k).all fun j =>
        !(seInput r).subsetOf (stateBeforeStage start slices j)

/-- The path `EOOPZ -> GGGLL` by `EO -> LG`, `PZ -> EG`, `EO -> LG`: the
first two recipes are placed in stage 0 and consume the single `E`; the
third needs the `E` regenerated by `PZ -> EG` and lands in stage 1. -/
def pC5 : PathSE :=
  ⟨SSet.ofList [0, 3, 3, 4, 7], SSet.ofList [1, 1, 1, 2, 2], 1, SSet.empty,
    [.EO, .PZ, .EO]⟩

/-- The staged path `parallelize` produces for `pC5`. -/
def spC5 : StagedPathSE :=
  ⟨⟨SSet.ofList [0, 3, 3, 4, 7], SSet.ofList [1, 1, 1, 2, 2], 1, SSet.empty,
    [.EO, .PZ, .EO]⟩, [2]⟩

/-- C5, counterexample.  The claim says each recipe is assigned "to the
earliest stage whose accumulated-available multiset (the state accumulated
before that stage begins) already contains the recipe's input".  For `pC5`
the third recipe `EO -> LG` is placed in stage 1, although stage 0's
accumulated-available state (the full source `EOOPZ`) already contains its
input `EO`: `find_earliest` scans stage *remainders* (which account for
same-stage consumption — stage 0's other recipes already consume the only
`E`), not the accumulated-available states the claim names. -/
theorem c5_counterexample :
    parallelize pC5 = some spC5 ∧ claimEarliest spC5 = false := by
  exact ⟨by decide, by decide⟩

/-- C5, witness for the amended theorem: on the concrete path `pC5` the
staging invariant holds for the first stage. -/
theorem c5_theorem_witness :
    SSet.Subset (stageIn ((stageSlices spC5.path.recipes spC5.stages).get ⟨0, by decide⟩))
      (stateBeforeStage (pC5.source.smul pC5.count + pC5.catalysts)
        (stageSlices spC5.path.recipes spC5.stages) 0) := by
  have h := (c5_theorem pC5 spC5 (by decide) (by decide)).2.2.2.2 0 (by decide)
  exact h.1

--
--  Claim C6: the plan invariant
--

/-- A valid two-stage path `ELOO -> EGXZ` (stage 0: `EO -> LG` and
`LO -> XT`; stage 1: `LT -> EZ`) whose stages have different input sizes. -/
def spC6 : StagedPathSE :=
  ⟨⟨SSet.ofList [0, 2, 3, 3], SSet.ofList [0, 1, 6, 7], 1, SSet.empty,
    [.EO, .LO, .LT]⟩, [2]⟩

/-- C6, counterexample.  The claim says `remainder ∪ extracted` has the
same total cardinality for every stage of an accepted plan.  Planning the
valid staged path `spC6` succeeds and yields stage sizes
`|remainder| + |extracted| = 0` for stage 0 and `2` for stage 1: the
constant quantity is `|stage input| + |remainder| + |extracted|` (as the
`Plan` doc comment in `src/planner.rs` states), not
`|remainder| + |extracted|`. -/
theorem c6_counterexample :
    (match plan spC6 with
      | some (.ok pl) => some (pl.stages.map fun d => d.remainder.len + d.extracted.len)
      | _ => none) = some [0, 2] := by
  rfl

--
--  Cardinality bookkeeping for the amended C6 invariant
--

theorem len_expand (a : SSet) :
    a.len = 0 + a 0 + a 1 + a 2 + a 3 + a 4 + a 5 + a 6 + a 7 := rfl

theorem len_add (a b : SSet) : (a + b).len = a.len + b.len := by
  simp only [len_expand, SSet.add_def]
  omega

theorem len_sub_add_of_subset {a b : SSet} (h : SSet.Subset b a) :
    (a - b).len + b.len = a.len := by
  have h0 := h 0
  have h1 := h 1
  have h2 := h 2
  have h3 := h 3
  have h4 := h 4
  have h5 := h 5
  have h6 := h 6
  have h7 := h 7
  simp only [len_expand, SSet.sub_def]
  omega

/-- The multiset holding a single sphere. -/
def SSet.single (e : Sph) : SSet := fun j => if j = e then 1 else 0

theorem single_len (e : Sph) : (SSet.single e).len = 1 := by
  fin_cases e <;> rfl

theorem len_insert (a : SSet) (e : Sph) : (a.insert e).len = a.len + 1 := by
  have he : a.insert e = a + SSet.single e := by
    funext j
    show (if j = e then a j + 1 else a j) = a j + (if j = e then 1 else 0)
    by_cases hj : j = e <;> simp [hj]
  rw [he, len_add, single_len]

theorem len_remove {a r : SSet} {e : Sph} (h : a.remove e = some r) :
    r.len + 1 = a.len := by
  unfold SSet.remove at h
  by_cases hpos : 0 < a e
  · rw [if_pos hpos] at h
    have hr := (Option.some.inj h).symm
    have he : r + SSet.single e = a := by
      rw [hr]
      funext j
      show (if j = e then a j - 1 else a j) + (if j = e then 1 else 0) = a j
      by_cases hj : j = e
      · subst hj
        rw [if_pos rfl, if_pos rfl]
        omega
      · rw [if_neg hj, if_neg hj]
        omega
    calc r.len + 1 = r.len + (SSet.single e).len := by rw [single_len]
      _ = (r + SSet.single e).len := (len_add r (SSet.single e)).symm
      _ = a.len := by rw [he]
  · rw [if_neg hpos] at h
    exact Option.noConfusion h

/-- Every Space-Exploration recipe consumes exactly as many spheres as it
produces. -/
theorem seRecipe_len_eq (r : SeRecipe) : (seInput r).len = (seOutput r).len := by
  cases r <;> decide

theorem stage_len_eq (sl : List SeRecipe) : (stageIn sl).len = (stageOut sl).len := by
  induction sl with
  | nil => rfl
  | cons x l ih => rw [stageIn_cons, stageOut_cons, len_add, len_add, ih, seRecipe_len_eq]

/-- The stage loop of `compute_remainders` leaves, for every stage, a
remainder whose cardinality complements the stage input's: their sum is the
cardinality of the state the loop started from. -/
theorem remaindersLoop_spec :
    ∀ (slices : List (List SeRecipe)) (i : Nat) (state : SSet) (rems : List SSet)
      (last : SSet),
      remaindersLoop i state slices = .ok (rems, last) →
      rems.length = slices.length ∧
      ∀ k (hk : k < slices.length) (hk2 : k < rems.length),
        (stageIn (slices.get ⟨k, hk⟩)).len + (rems.get ⟨k, hk2⟩).len = state.len := by
  intro slices
  induction slices with
  | nil =>
    intro i state rems last h
    simp only [remaindersLoop] at h
    rw [Except.ok.injEq, Prod.mk.injEq] at h
    obtain ⟨h1, h2⟩ := h
    subst h1
    exact ⟨rfl, fun k hk _ => absurd hk (Nat.not_lt_zero k)⟩
  | cons sl rest ih =>
    intro i state rems last h
    simp only [remaindersLoop] at h
    by_cases hsub : (stageIn sl).subsetOf state = true
    · rw [if_pos hsub] at h
      cases hrec : remaindersLoop (i + 1) (state - stageIn sl + stageOut sl) rest with
      | error er => rw [hrec] at h; exact Except.noConfusion h
      | ok pr =>
        obtain ⟨rems1, last1⟩ := pr
        rw [hrec] at h
        rw [Except.ok.injEq, Prod.mk.injEq] at h
        obtain ⟨h1, h2⟩ := h
        subst h1
        obtain ⟨hlen1, hall⟩ := ih (i + 1) (state - stageIn sl + stageOut sl) rems1 last1 hrec
        have hpres : (state - stageIn sl + stageOut sl).len = state.len := by
          have hx1 := len_sub_add_of_subset (SSet.subsetOf_iff.1 hsub)
          have hx2 := stage_len_eq sl
          rw [len_add]
          omega
        refine ⟨by simp [hlen1], ?_⟩
        intro k hk hk2
        cases k with
        | zero =>
          have hx1 := len_sub_add_of_subset (SSet.subsetOf_iff.1 hsub)
          show (stageIn sl).len + (state - stageIn sl).len = state.len
          omega
        | succ k =>
          have hk' : k < rest.length := by simpa using hk
          have hk2' : k < rems1.length := by simpa using hk2
          have hx := hall k hk' hk2'
          show (stageIn (rest.get ⟨k, hk'⟩)).len + (rems1.get ⟨k, hk2'⟩).len = state.len
          omega
    · rw [if_neg hsub] at h
      exact Except.noConfusion h

/-- `compute_remainders` on success: as many remainders as stages, and for
every stage `|stage input| + |remainder| = |starting state|`. -/
theorem computeRemainders_spec (sp : StagedPathSE) (rems : List SSet)
    (h : computeRemainders sp = .ok rems) :
    rems.length = (stageSlices sp.path.recipes sp.stages).length ∧
    ∀ k (hk : k < (stageSlices sp.path.recipes sp.stages).length)
      (hk2 : k < rems.length),
      (stageIn ((stageSlices sp.path.recipes sp.stages).get ⟨k, hk⟩)).len
        + (rems.get ⟨k, hk2⟩).len
      = (sp.path.source.smul sp.path.count + sp.path.catalysts).len := by
  unfold computeRemainders at h
  cases hrl : remaindersLoop 0 (sp.path.source.smul sp.path.count + sp.path.catalysts)
      (stageSlices sp.path.recipes sp.stages) with
  | error er =>
    simp only [hrl] at h
    exact Except.noConfusion h
  | ok pr =>
    obtain ⟨rems1, last1⟩ := pr
    simp only [hrl] at h
    by_cases hta : (sp.path.target.smul sp.path.count).subsetOf last1 = true
    · rw [if_pos hta] at h
      by_cases hca : last1 - sp.path.target.smul sp.path.count = sp.path.catalysts
      · rw [if_pos hca] at h
        have h1 := Except.ok.inj h
        subst h1
        exact remaindersLoop_spec _ 0 _ rems1 last1 hrl
      · rw [if_neg hca] at h
        exact Except.noConfusion h
    · rw [if_neg hta] at h
      exact Except.noConfusion h

/-- `mapM remove`: each output multiset is the corresponding input with one
sphere fewer. -/
theorem mapM_remove_spec :
    ∀ (l : List SSet) (e : Sph) (l2 : List SSet),
      (l.mapM fun s => s.remove e) = some l2 →
      l2.length = l.length ∧
      ∀ k (hk : k < l.length) (hk2 : k < l2.length),
        (l2.get ⟨k, hk2⟩).len + 1 = (l.get ⟨k, hk⟩).len := by
  intro l e
  induction l with
  | nil =>
    intro l2 h
    rw [List.mapM_nil] at h
    have h1 := Option.some.inj h
    subst h1
    exact ⟨rfl, fun k hk _ => absurd hk (Nat.not_lt_zero k)⟩
  | cons x xs ih =>
    intro l2 h
    rw [List.mapM_cons] at h
    cases hx : x.remove e with
    | none =>
      rw [hx] at h
      simp only [Option.bind_eq_bind, Option.none_bind] at h
      exact Option.noConfusion h
    | some y =>
      rw [hx] at h
      simp only [Option.bind_eq_bind, Option.some_bind] at h
      cases hxs : xs.mapM (fun s => s.remove e) with
      | none =>
        rw [hxs] at h
        simp only [Option.none_bind] at h
        exact Option.noConfusion h
      | some ys =>
        rw [hxs] at h
        simp only [Option.some_bind, Option.pure_def, Option.some.injEq] at h
        subst h
        obtain ⟨hlen, hall⟩ := ih ys hxs
        refine ⟨by simp [hlen], ?_⟩
        intro k hk hk2
        cases k with
        | zero => exact len_remove hx
        | succ k => exact hall k (by simpa using hk) (by simpa using hk2)

/-- Splicing one extraction step: dropping one `e` from every remainder at
stage `E` onward and inserting one `e` into the matching extracted sets
preserves, stage by stage, the total `|remainder| + |extracted|`. -/
theorem splice_spec (rems exts removed : List SSet) (e : Sph) (E : Nat)
    (hlen : exts.length = rems.length)
    (hm : (rems.drop E).mapM (fun s => s.remove e) = some removed) :
    (rems.take E ++ removed).length = rems.length ∧
    (exts.take E ++ (exts.drop E).map fun s => s.insert e).length = exts.length ∧
    ∀ k (hk1 : k < rems.length) (hk2 : k < (rems.take E ++ removed).length)
      (hk3 : k < exts.length)
      (hk4 : k < (exts.take E ++ (exts.drop E).map fun s => s.insert e).length),
      ((rems.take E ++ removed).get ⟨k, hk2⟩).len
        + ((exts.take E ++ (exts.drop E).map fun s => s.insert e).get ⟨k, hk4⟩).len
      = (rems.get ⟨k, hk1⟩).len + (exts.get ⟨k, hk3⟩).len := by
  obtain ⟨hrlen, hrall⟩ := mapM_remove_spec (rems.drop E) e removed hm
  refine ⟨?_, ?_, ?_⟩
  · simp only [List.length_append, List.length_take, hrlen, List.length_drop]
    omega
  · simp only [List.length_append, List.length_take, List.length_map, List.length_drop]
    omega
  · intro k hk1 hk2 hk3 hk4
    by_cases hke : k < E
    · have hmin1 : k < (rems.take E).length := by
        simp only [List.length_take]
        omega
      have hg1 : (rems.take E ++ removed).get ⟨k, hk2⟩ = rems.get ⟨k, hk1⟩ := by
        rw [List.get_eq_getElem, List.getElem_append, dif_pos hmin1]
        simp [List.getElem_take, List.get_eq_getElem]
      have hmin2 : k < (exts.take E).length := by
        simp only [List.length_take]
        omega
      have hg2 : (exts.take E ++ (exts.drop E).map fun s => s.insert e).get ⟨k, hk4⟩
          = exts.get ⟨k, hk3⟩ := by
        rw [List.get_eq_getElem, List.getElem_append, dif_pos hmin2]
        simp [List.getElem_take, List.get_eq_getElem]
      rw [hg1, hg2]
    · have hE : E ≤ k := Nat.le_of_not_lt hke
      have hmin1 : ¬ k < (rems.take E).length := by
        simp only [List.length_take]
        omega
      have hlt1 : (rems.take E).length = E := by
        simp only [List.length_take]
        omega
      have hj : k - E < (rems.drop E).length := by
        simp only [List.length_drop]
        omega
      have hj2 : k - E < removed.length := by
        rw [hrlen]
        exact hj
      have hg1 : (rems.take E ++ removed).get ⟨k, hk2⟩ = removed.get ⟨k - E, hj2⟩ := by
        rw [List.get_eq_getElem, List.getElem_append, dif_neg hmin1]
        simp [List.get_eq_getElem, hlt1]
      have hrem := hrall (k - E) hj hj2
      have hidx : E + (k - E) = k := by omega
      have hdropget : (rems.drop E).get ⟨k - E, hj⟩ = rems.get ⟨k, hk1⟩ := by
        rw [List.get_eq_getElem, List.get_eq_getElem, List.getElem_drop]
        simp only [hidx]
      have hmin2 : ¬ k < (exts.take E).length := by
        simp only [List.length_take]
        omega
      have hlt2 : (exts.take E).length = E := by
        simp only [List.length_take]
        omega
      have hj3 : k - E < (exts.drop E).length := by
        simp only [List.length_drop]
        omega
      have hg2 : (exts.take E ++ (exts.drop E).map fun s => s.insert e).get ⟨k, hk4⟩
          = ((exts.drop E).get ⟨k - E, hj3⟩).insert e := by
        rw [List.get_eq_getElem, List.getElem_append, dif_neg hmin2]
        simp [List.get_eq_getElem, List.getElem_map, hlt2]
      have hdropget2 : (exts.drop E).get ⟨k - E, hj3⟩ = exts.get ⟨k, hk3⟩ := by
        rw [List.get_eq_getElem, List.get_eq_getElem, List.getElem_drop]
        simp only [hidx]
      rw [hg1, hg2, hdropget2, len_insert]
      have hmain : (removed.get ⟨k - E, hj2⟩).len + 1 = (rems.get ⟨k, hk1⟩).len := by
        rw [← hdropget]
        exact hrem
      omega

/-- A single `extractOne` step keeps every stage's `|remainder| + |extracted|`
unchanged. -/
theorem extractOne_spec (rems exts rems2 exts2 : List SSet) (e : Sph)
    (hlen : exts.length = rems.length)
    (h : extractOne (rems, exts) e = some (rems2, exts2)) :
    rems2.length = rems.length ∧ exts2.length = exts.length ∧
    ∀ k (hk1 : k < rems.length) (hk2 : k < rems2.length) (hk3 : k < exts.length)
      (hk4 : k < exts2.length),
      (rems2.get ⟨k, hk2⟩).len + (exts2.get ⟨k, hk4⟩).len
        = (rems.get ⟨k, hk1⟩).len + (exts.get ⟨k, hk3⟩).len := by
  simp only [extractOne] at h
  cases hm : (rems.drop (findEarliestExtraction rems e)).mapM (fun s => s.remove e) with
  | none => rw [hm] at h; exact Option.noConfusion h
  | some removed =>
    rw [hm] at h
    rw [Option.some.injEq, Prod.mk.injEq] at h
    obtain ⟨h1, h2⟩ := h
    subst h1
    subst h2
    exact splice_spec rems exts removed e (findEarliestExtraction rems e) hlen hm

/-- The `compute_extracteds` fold preserves, for every stage, the sum
`|remainder| + |extracted|` relative to the initial remainders. -/
theorem extracteds_fold_inv (rems0 : List SSet) :
    ∀ (l : List Sph) (accR accE outR outE : List SSet),
      accR.length = rems0.length →
      accE.length = rems0.length →
      (∀ k (hk1 : k < accR.length) (hk2 : k < accE.length) (hk0 : k < rems0.length),
        (accR.get ⟨k, hk1⟩).len + (accE.get ⟨k, hk2⟩).len = (rems0.get ⟨k, hk0⟩).len) →
      l.foldlM extractOne (accR, accE) = some (outR, outE) →
      outR.length = rems0.length ∧ outE.length = rems0.length ∧
      ∀ k (hk1 : k < outR.length) (hk2 : k < outE.length) (hk0 : k < rems0.length),
        (outR.get ⟨k, hk1⟩).len + (outE.get ⟨k, hk2⟩).len = (rems0.get ⟨k, hk0⟩).len := by
  intro l
  induction l with
  | nil =>
    intro accR accE outR outE h1 h2 h3 h
    rw [List.foldlM_nil] at h
    have h4 := Option.some.inj h
    rw [Prod.mk.injEq] at h4
    obtain ⟨h5, h6⟩ := h4
    subst h5
    subst h6
    exact ⟨h1, h2, h3⟩
  | cons e es ih =>
    intro accR accE outR outE h1 h2 h3 h
    rw [List.foldlM_cons] at h
    cases hx : extractOne (accR, accE) e with
    | none =>
      rw [hx] at h
      simp only [Option.bind_eq_bind, Option.none_bind] at h
      exact Option.noConfusion h
    | some acc1 =>
      obtain ⟨acc1R, acc1E⟩ := acc1
      rw [hx] at h
      simp only [Option.bind_eq_bind, Option.some_bind] at h
      obtain ⟨g1, g2, g3⟩ := extractOne_spec accR accE acc1R acc1E e (by omega) hx
      refine ih acc1R acc1E outR outE (by omega) (by omega) ?_ h
      intro k hk1 hk2 hk0
      have hx1 := g3 k (by omega) hk1 (by omega) hk2
      have hx2 := h3 k (by omega) (by omega) hk0
      omega

/-- C6, amended: for every staged path accepted by `Planner::plan`, the
plan has one stage description per stage, and for every stage the quantity
`|stage input| + |remainder| + |extracted|` equals the cardinality of the
starting state `count*source + catalysts` — the same constant for every
stage; tokens only move between stage input, remainder and extracted. -/
theorem c6_theorem (sp : StagedPathSE) (pl : PlanSE)
    (h : plan sp = some (.ok pl)) :
    pl.path = sp ∧
    pl.stages.length = (stageSlices sp.path.recipes sp.stages).length ∧
    ∀ k (hk : k < pl.stages.length)
      (hk2 : k < (stageSlices sp.path.recipes sp.stages).length),
      (stageIn ((stageSlices sp.path.recipes sp.stages).get ⟨k, hk2⟩)).len
        + (pl.stages.get ⟨k, hk⟩).remainder.len
        + (pl.stages.get ⟨k, hk⟩).extracted.len
      = (sp.path.source.smul sp.path.count + sp.path.catalysts).len := by
  unfold plan at h
  cases hcr : computeRemainders sp with
  | error er =>
    simp only [hcr] at h
    exact Except.noConfusion (Option.some.inj h)
  | ok rems =>
    simp only [hcr] at h
    cases hce : computeExtracteds rems
        (sp.path.target.smul sp.path.count + sp.path.catalysts) with
    | none => rw [hce] at h; exact Option.noConfusion h
    | some pr =>
      obtain ⟨rem2, ext⟩ := pr
      rw [hce] at h
      have hpl := Except.ok.inj (Option.some.inj h)
      obtain ⟨hcs, hall⟩ := computeRemainders_spec sp rems hcr
      have hfold : (sp.path.target.smul sp.path.count + sp.path.catalysts).toList.foldlM
          extractOne (rems, List.replicate rems.length SSet.empty) = some (rem2, ext) := hce
      have hinit : ∀ k (hk1 : k < rems.length)
          (hk2 : k < (List.replicate rems.length SSet.empty).length)
          (hk0 : k < rems.length),
          (rems.get ⟨k, hk1⟩).len
            + ((List.replicate rems.length SSet.empty).get ⟨k, hk2⟩).len
          = (rems.get ⟨k, hk0⟩).len := by
        intro k hk1 hk2 hk0
        have hrepl : (List.replicate rems.length SSet.empty).get ⟨k, hk2⟩ = SSet.empty := by
          simp [List.get_eq_getElem, List.getElem_replicate]
        rw [hrepl]
        show (rems.get ⟨k, hk0⟩).len + SSet.empty.len = (rems.get ⟨k, hk0⟩).len
        have hz : SSet.empty.len = 0 := rfl
        omega
      obtain ⟨e1, e2, e3⟩ := extracteds_fold_inv rems _ rems
        (List.replicate rems.length SSet.empty) rem2 ext rfl (by simp) hinit hfold
      subst hpl
      refine ⟨rfl, ?_, ?_⟩
      · simp only [List.length_map, List.length_zip, e1, e2, hcs, Nat.min_self]
      · intro k hk hk2
        have hkr : k < rem2.length := by
          simp only [List.length_map, List.length_zip] at hk
          omega
        have hke : k < ext.length := by
          simp only [List.length_map, List.length_zip] at hk
          omega
        have hkrems : k < rems.length := by omega
        have hgz : (((rem2.zip ext).map fun rx => (⟨rx.1, rx.2⟩ : StageDescSE)).get ⟨k, hk⟩)
            = ⟨rem2.get ⟨k, hkr⟩, ext.get ⟨k, hke⟩⟩ := by
          simp [List.get_eq_getElem, List.getElem_map, List.getElem_zip]
        rw [hgz]
        show (stageIn ((stageSlices sp.path.recipes sp.stages).get ⟨k, hk2⟩)).len
            + (rem2.get ⟨k, hkr⟩).len + (ext.get ⟨k, hke⟩).len
          = (sp.path.source.smul sp.path.count + sp.path.catalysts).len
        have hr := hall k hk2 hkrems
        have he := e3 k hkr hke hkrems
        omega

/-- The plan the planner produces for `spC6` (its stage descriptions are
`[(∅, ∅), (∅, GX)]`, as `c6_counterexample` records by cardinality). -/
def planC6 : PlanSE :=
  match plan spC6 with
  | some (.ok pl) => pl
  | _ => ⟨spC6, []⟩

/-- C6, witness for the amended theorem: planning `spC6` yields a plan
whose stages each satisfy `|stage input| + |remainder| + |extracted| = 4`. -/
theorem c6_theorem_witness :
    (stageIn ((stageSlices spC6.path.recipes spC6.stages).get ⟨0, by decide⟩)).len
      + (planC6.stages.get ⟨0, by decide⟩).remainder.len
      + (planC6.stages.get ⟨0, by decide⟩).extracted.len
    = (spC6.path.source.smul spC6.path.count + spC6.path.catalysts).len := by
  exact (c6_theorem spC6 planC6 (by rfl)).2.2 0 (by decide) (by decide)

--
--  Claim C3: the textual grammar (`fmt::Display` / `str::FromStr` for
--  `Path` and `StagedPath` in `src/model.rs`).  Strings are `List Char`;
--  the only whitespace either side ever emits is `' '`.
--

/-- `SeArcosphere::abbr`: the display character of each sphere. -/
def seAbbr (i : Sph) : Char := ['E', 'G', 'L', 'O', 'P', 'T', 'X', 'Z'].get ⟨i.val, i.isLt⟩

/-- `Set::is_empty` (`len() == 0`). -/
def SSet.isEmpty (s : SSet) : Bool := decide (s.len = 0)

/-- `fmt::Display for Set`: each sphere's abbreviation repeated by count, in
index order. -/
def dispSet (s : SSet) : List Char :=
  (List.finRange DIM).flatMap fun i => List.replicate (s i) (seAbbr i)

/-- Decimal rendering of a count, as `write!("{}")` does. -/
def natDigits (n : Nat) : List Char := Nat.toDigits 10 n

/-- `ArcosphereRecipe::display`: `input -> output`. -/
def dispRecipe (r : SeRecipe) : List Char :=
  dispSet (seInput r) ++ [' ', '-', '>', ' '] ++ dispSet (seOutput r)

/-- The head common to `Display for Path` and `Display for StagedPath`:
`source -> target [xcount] [+ catalysts]`. -/
def dispHead (p : PathSE) : List Char :=
  dispSet p.source ++ [' ', '-', '>', ' '] ++ dispSet p.target
    ++ (if 1 < p.count then [' ', 'x'] ++ natDigits p.count else [])
    ++ (if p.catalysts.isEmpty then [] else [' ', '+', ' '] ++ dispSet p.catalysts)

/-- The recipe tail of `Display for Path`: separator `"  =>  "` before the
first recipe, `" | "` before the others. -/
def dispRecipes : Nat → List SeRecipe → List Char
  | _, [] => []
  | i, r :: rest =>
    (if 0 < i then [' ', '|', ' '] else [' ', ' ', '=', '>', ' ', ' ']) ++ dispRecipe r
      ++ dispRecipes (i + 1) rest

/-- `fmt::Display for Path`. -/
def dispPath (p : PathSE) : List Char := dispHead p ++ dispRecipes 0 p.recipes

/-- `fmt::Display for Stage`: recipes joined by `" // "`. -/
def dispStage : Nat → List SeRecipe → List Char
  | _, [] => []
  | i, r :: rest =>
    (if 0 < i then [' ', '/', '/', ' '] else []) ++ dispRecipe r ++ dispStage (i + 1) rest

/-- The stage tail of `Display for StagedPath`: separator `"  =>  "` before
the first stage, `" |  "` before the others. -/
def dispStages : Nat → List (List SeRecipe) → List Char
  | _, [] => []
  | i, st :: rest =>
    (if 0 < i then [' ', '|', ' ', ' '] else [' ', ' ', '=', '>', ' ', ' ']) ++ dispStage 0 st
      ++ dispStages (i + 1) rest

/-- `fmt::Display for StagedPath`. -/
def dispStagedPath (sp : StagedPathSE) : List Char :=
  dispHead sp.path ++ dispStages 0 (stageSlices sp.path.recipes sp.stages)

/-- `str::split_whitespace`, accumulator form (the displayed strings only
ever contain `' '` as whitespace). -/
def splitWsAux : List Char → List Char → List (List Char)
  | [], acc => if acc = [] then [] else [acc.reverse]
  | c :: rest, acc =>
    if c = ' ' then
      if acc = [] then splitWsAux rest [] else acc.reverse :: splitWsAux rest []
    else splitWsAux rest (c :: acc)

def splitWs (s : List Char) : List (List Char) := splitWsAux s []

/-- `SetParseError` from `src/model.rs`. -/
inductive SetParseError where
  | UnknownArcosphere (c : Char)
deriving DecidableEq

/-- The position of a character in the abbreviation mapping. -/
def charIdx (c : Char) : Option Sph := (List.finRange DIM).find? fun i => seAbbr i = c

/-- One character step of `str::FromStr for Set`. -/
def psStep (acc : Except SetParseError SSet) (c : Char) : Except SetParseError SSet :=
  match acc with
  | .error e => .error e
  | .ok st =>
    match charIdx c with
    | none => .error (.UnknownArcosphere c)
    | some i => .ok (st.insert i)

/-- `str::FromStr for Set`: insert one sphere per character. -/
def parseSet (t : List Char) : Except SetParseError SSet :=
  t.foldl psStep (.ok SSet.empty)

/-- `u8::from_str`: optional `+` sign, then decimal digits, value at most
255. -/
def parseU8 (t : List Char) : Option Nat :=
  let ds := match t with
    | '+' :: rest => rest
    | _ => t
  if ds = [] then none
  else if ds.all fun c => c.isDigit then
    if (ds.foldl (fun acc c => acc * 10 + (c.toNat - 48)) 0) ≤ 255 then
      some (ds.foldl (fun acc c => acc * 10 + (c.toNat - 48)) 0)
    else none
  else none

/-- `PathHeadParseError` from `src/model.rs`. -/
inductive PathHeadParseError where
  | MissingSource
  | InvalidSource (e : SetParseError)
  | MissingArrow
  | InvalidArrow
  | MissingTarget
  | InvalidTarget (e : SetParseError)
  | InvalidCount
  | MissingCatalysts
  | InvalidCatalysts (e : SetParseError)
  | MissingEnd
deriving DecidableEq

/-- `RecipeParseError` from `src/model.rs` (including the variants other
code paths produce). -/
inductive RecipeParseError where
  | Incomplete
  | MissingInput
  | InvalidInput (e : SetParseError)
  | MissingArrow
  | InvalidArrow
  | MissingOutput
  | InvalidOutput (e : SetParseError)
  | PreservationError
  | UnknownRecipe
deriving DecidableEq

/-- `PathParseError` from `src/model.rs`. -/
inductive PathParseError where
  | InvalidHead (e : PathHeadParseError)
  | InvalidRecipe (index : Nat) (e : RecipeParseError)
  | InvalidSeparator (index : Nat)
  | MissingSeparator (index : Nat)
  | UnexpectedSeparator (index : Nat)
deriving DecidableEq

/-- `StagedPathParseError` from `src/model.rs`. -/
inductive StagedPathParseError where
  | InvalidHead (e : PathHeadParseError)
  | InvalidRecipe (index : Nat) (e : RecipeParseError)
  | InvalidSeparator (index : Nat)
  | MissingSeparator (index : Nat)
  | UnexpectedSeparator (index : Nat)
  | TooManyRecipes
deriving DecidableEq

/-- The count step of `parse_path_head`: `next_if(starts_with('x'))`,
stripped and parsed as `NonZeroU8`, defaulting to one. -/
def parseCountStep (tokens : List (List Char)) :
    Except PathHeadParseError (Nat × List (List Char)) :=
  match tokens with
  | tc :: rest =>
    if tc.head? = some 'x' then
      match parseU8 tc.tail with
      | some 0 => .error .InvalidCount
      | some n => .ok (n, rest)
      | none => .error .InvalidCount
    else .ok (1, tc :: rest)
  | [] => .ok (1, [])

/-- The catalysts step of `parse_path_head`: `next_if_eq("+")` then a set
(rejecting a bare `"=>"`), defaulting to the empty set. -/
def parseCatalystsStep (tokens : List (List Char)) :
    Except PathHeadParseError (SSet × List (List Char)) :=
  match tokens with
  | tp :: rest =>
    if tp = ['+'] then
      match rest with
      | [] => .error .MissingCatalysts
      | tcat :: rest2 =>
        if tcat = ['=', '>'] then .error .MissingCatalysts
        else
          match parseSet tcat with
          | .error e => .error (.InvalidCatalysts e)
          | .ok cats => .ok (cats, rest2)
    else .ok (SSet.empty, tp :: rest)
  | [] => .ok (SSet.empty, [])

/-- `parse::parse_path_head`: `SOURCE -> TARGET [xCOUNT] [+ CATALYSTS] =>`,
returning the parsed head and the remaining tokens. -/
def parsePathHead (tokens : List (List Char)) :
    Except PathHeadParseError (PathSE × List (List Char)) :=
  match tokens with
  | [] => .error .MissingSource
  | tsrc :: rest1 =>
    match parseSet tsrc with
    | .error e => .error (.InvalidSource e)
    | .ok source =>
      match rest1 with
      | [] => .error .MissingArrow
      | tarr :: rest2 =>
        if tarr = ['-', '>'] then
          match rest2 with
          | [] => .error .MissingTarget
          | ttgt :: rest3 =>
            match parseSet ttgt with
            | .error e => .error (.InvalidTarget e)
            | .ok target =>
              match parseCountStep rest3 with
              | .error e => .error e
              | .ok (count, rest4) =>
                match parseCatalystsStep rest4 with
                | .error e => .error e
                | .ok (catalysts, rest6) =>
                  match rest6 with
                  | [] => .error .MissingEnd
                  | tend :: rest7 =>
                    if tend = ['=', '>'] then
                      .ok (⟨source, target, count, catalysts, []⟩, rest7)
                    else .error .MissingEnd
        else
          match parseSet tarr with
          | .ok _ => .error .MissingArrow
          | .error _ => .error .InvalidArrow

/-- The recipes of the family in `from_index` order
(`SeArcosphereRecipe::DIMENSION = 10`). -/
def seRecipeList : List SeRecipe :=
  [.GOTZ, .ELPX, .EO, .ET, .LO, .LT, .PG, .PZ, .XG, .XZ]

/-- `ArcosphereRecipe::find`: the first enumerated recipe with the given
input and output (`RecipeIdentifyError` mapped into `RecipeParseError`). -/
def seFind (input output : SSet) : Except RecipeParseError SeRecipe :=
  match seRecipeList.find? fun r =>
      decide (seInput r = input) && decide (seOutput r = output) with
  | some r => .ok r
  | none => .error .UnknownRecipe

/-- `parse::parse_recipe`: `INPUT -> OUTPUT`, identified against the
family's enumerated recipes. -/
def parseRecipe (tokens : List (List Char)) :
    Except RecipeParseError (SeRecipe × List (List Char)) :=
  match tokens with
  | [] => .error .MissingInput
  | tin :: rest1 =>
    match parseSet tin with
    | .error e => .error (.InvalidInput e)
    | .ok input =>
      match rest1 with
      | [] => .error .MissingArrow
      | tarr :: rest2 =>
        if tarr = ['-', '>'] then
          match rest2 with
          | [] => .error .MissingOutput
          | tout :: rest3 =>
            match parseSet tout with
            | .error e => .error (.InvalidOutput e)
            | .ok output =>
              match seFind input output with
              | .error e => .error e
              | .ok r => .ok (r, rest3)
        else
          match parseSet tarr with
          | .ok _ => .error .MissingArrow
          | .error _ => .error .InvalidArrow

/-- The recipe loop of `str::FromStr for Path`.  The fuel only bounds the
iteration count (each pass consumes at least one token); with fuel above
the token count the `none` branch is unreachable. -/
def pathLoop : Nat → PathSE → List (List Char) → Option (Except PathParseError PathSE)
  | 0, _, _ => none
  | fuel + 1, p, tokens =>
    let index := p.recipes.length
    if tokens.head? = some ['|'] then some (.error (.UnexpectedSeparator index))
    else
      match parseRecipe tokens with
      | .error e => some (.error (.InvalidRecipe index e))
      | .ok (r, rest) =>
        let p2 : PathSE := ⟨p.source, p.target, p.count, p.catalysts, p.recipes ++ [r]⟩
        match rest with
        | [] => some (.ok p2)
        | sep :: rest2 =>
          if sep = ['|'] then pathLoop fuel p2 rest2
          else
            match parseSet sep with
            | .ok _ => some (.error (.MissingSeparator index))
            | .error _ => some (.error (.InvalidSeparator index))

/-- `str::FromStr for Path`. -/
def parsePath (s : List Char) : Option (Except PathParseError PathSE) :=
  match parsePathHead (splitWs s) with
  | .error e => some (.error (.InvalidHead e))
  | .ok (p, rest) => pathLoop (rest.length + 1) p rest

/-- The recipe loop of `str::FromStr for StagedPath`: `"//"` separates
recipes inside one stage, `"|"` closes a stage (pushing the boundary, a
`u8`). -/
def stagedLoop : Nat → PathSE → List Nat → List (List Char) →
    Option (Except StagedPathParseError StagedPathSE)
  | 0, _, _, _ => none
  | fuel + 1, p, stages, tokens =>
    let index := p.recipes.length
    if tokens.head? = some ['/', '/'] ∨ tokens.head? = some ['|'] then
      some (.error (.UnexpectedSeparator index))
    else
      match parseRecipe tokens with
      | .error e => some (.error (.InvalidRecipe index e))
      | .ok (r, rest) =>
        let p2 : PathSE := ⟨p.source, p.target, p.count, p.catalysts, p.recipes ++ [r]⟩
        match rest with
        | [] => some (.ok ⟨p2, stages⟩)
        | sep :: rest2 =>
          if sep = ['/', '/'] then stagedLoop fuel p2 stages rest2
          else if sep = ['|'] then
            if p2.recipes.length ≤ 255 then
              stagedLoop fuel p2 (stages ++ [p2.recipes.length]) rest2
            else some (.error .TooManyRecipes)
          else
            match parseSet sep with
            | .ok _ => some (.error (.MissingSeparator index))
            | .error _ => some (.error (.InvalidSeparator index))

/-- `str::FromStr for StagedPath`. -/
def parseStagedPath (s : List Char) : Option (Except StagedPathParseError StagedPathSE) :=
  match parsePathHead (splitWs s) with
  | .error e => some (.error (.InvalidHead e))
  | .ok (p, rest) => stagedLoop (rest.length + 1) p [] rest

--
--  Tokenisation lemmas: a display string is a first token followed by
--  space-prefixed tokens, and `split_whitespace` recovers exactly them.
--

/-- A token stream rendered with its leading space counts. -/
def render (l : List (Nat × List Char)) : List Char :=
  (l.map fun kt => List.replicate kt.1 ' ' ++ kt.2).join

theorem splitWsAux_nospace :
    ∀ (t : List Char), (∀ c ∈ t, c ≠ ' ') →
      ∀ cs acc, splitWsAux (t ++ cs) acc = splitWsAux cs (t.reverse ++ acc) := by
  intro t
  induction t with
  | nil => intro _ cs acc; simp
  | cons c t ih =>
    intro ht cs acc
    have hc : ¬ c = ' ' := ht c (List.mem_cons_self c t)
    show splitWsAux (c :: (t ++ cs)) acc = _
    rw [show splitWsAux (c :: (t ++ cs)) acc = splitWsAux (t ++ cs) (c :: acc) from by
      simp [splitWsAux, hc]]
    rw [ih (fun x hx => ht x (List.mem_cons_of_mem c hx)) cs (c :: acc)]
    simp

theorem splitWsAux_spaces (k : Nat) :
    ∀ cs acc, splitWsAux (List.replicate (k + 1) ' ' ++ cs) acc
      = (if acc = [] then [] else [acc.reverse]) ++ splitWsAux cs [] := by
  induction k with
  | zero =>
    intro cs acc
    show splitWsAux (' ' :: cs) acc = _
    by_cases ha : acc = [] <;> simp [splitWsAux, ha]
  | succ k ih =>
    intro cs acc
    have hst : splitWsAux (List.replicate (k + 1 + 1) ' ' ++ cs) acc
        = if acc = [] then splitWsAux (List.replicate (k + 1) ' ' ++ cs) []
          else acc.reverse :: splitWsAux (List.replicate (k + 1) ' ' ++ cs) [] := rfl
    rw [hst]
    by_cases ha : acc = [] <;> simp [ha, ih cs []]

theorem splitWsAux_render :
    ∀ (l : List (Nat × List Char)),
      (∀ kt ∈ l, 1 ≤ kt.1 ∧ kt.2 ≠ [] ∧ ∀ c ∈ kt.2, c ≠ ' ') →
      ∀ acc, splitWsAux (render l) acc
        = (if acc = [] then [] else [acc.reverse]) ++ l.map (fun kt => kt.2) := by
  intro l
  induction l with
  | nil =>
    intro _ acc
    show splitWsAux [] acc = _
    by_cases ha : acc = [] <;> simp [splitWsAux, ha]
  | cons kt rest ih =>
    intro hl acc
    obtain ⟨k, t⟩ := kt
    obtain ⟨hk, htne, hts⟩ := hl (k, t) (List.mem_cons_self _ _)
    have hrest := fun x hx => hl x (List.mem_cons_of_mem _ hx)
    rw [show render ((k, t) :: rest) = List.replicate k ' ' ++ (t ++ render rest) from by
      simp [render]]
    obtain ⟨k', rfl⟩ : ∃ k', k = k' + 1 := ⟨k - 1, by omega⟩
    rw [splitWsAux_spaces k' (t ++ render rest) acc]
    rw [splitWsAux_nospace t hts (render rest) []]
    rw [ih hrest (t.reverse ++ [])]
    have htr : ¬ (t.reverse ++ [] : List Char) = [] := by simp [htne]
    rw [if_neg htr]
    simp

theorem splitWs_render (t0 : List Char) (ht0 : t0 ≠ []) (hns : ∀ c ∈ t0, c ≠ ' ')
    (l : List (Nat × List Char))
    (hl : ∀ kt ∈ l, 1 ≤ kt.1 ∧ kt.2 ≠ [] ∧ ∀ c ∈ kt.2, c ≠ ' ') :
    splitWs (t0 ++ render l) = t0 :: l.map (fun kt => kt.2) := by
  unfold splitWs
  rw [splitWsAux_nospace t0 hns (render l) []]
  rw [splitWsAux_render l hl (t0.reverse ++ [])]
  have htr : ¬ (t0.reverse ++ [] : List Char) = [] := by simp [ht0]
  rw [if_neg htr]
  simp

--
--  Set parsing round-trip.
--

theorem charIdx_abbr : ∀ i : Sph, charIdx (seAbbr i) = some i := by decide

theorem psStep_abbr (i : Sph) (st : SSet) : psStep (.ok st) (seAbbr i) = .ok (st.insert i) := by
  simp [psStep, charIdx_abbr i]

theorem psFold_replicate (i : Sph) :
    ∀ (n : Nat) (st : SSet),
      (List.replicate n (seAbbr i)).foldl psStep (.ok st)
        = .ok (fun j => if j = i then st j + n else st j) := by
  intro n
  induction n with
  | zero =>
    intro st
    show Except.ok st = _
    congr 1
    funext j
    by_cases hj : j = i <;> simp [hj]
  | succ n ih =>
    intro st
    rw [List.replicate_succ, List.foldl_cons, psStep_abbr, ih]
    congr 1
    funext j
    by_cases hj : j = i <;> simp [SSet.insert, hj] <;> omega

theorem psFold_flatMap (s : SSet) :
    ∀ (idxs : List Sph) (st : SSet),
      (idxs.flatMap fun i => List.replicate (s i) (seAbbr i)).foldl psStep (.ok st)
        = .ok (fun j => st j + idxs.count j * s j) := by
  intro idxs
  induction idxs with
  | nil =>
    intro st
    show Except.ok st = _
    congr 1
    funext j
    simp
  | cons i rest ih =>
    intro st
    rw [List.flatMap_cons, List.foldl_append, psFold_replicate, ih]
    congr 1
    funext j
    by_cases hj : j = i
    · subst hj
      simp [List.count_cons]
      ring
    · simp [List.count_cons, hj]

/-- Parsing the display of any multiset restores it exactly. -/
theorem parseSet_dispSet (s : SSet) : parseSet (dispSet s) = .ok s := by
  unfold parseSet dispSet
  rw [psFold_flatMap]
  congr 1
  funext j
  have hcount : (List.finRange DIM).count j = 1 :=
    List.count_eq_one_of_mem (List.nodup_finRange DIM) (List.mem_finRange j)
  simp [hcount, SSet.empty]

/-- Every character of a displayed multiset is an abbreviation character. -/
theorem dispSet_chars {c : Char} {s : SSet} (h : c ∈ dispSet s) :
    c ∈ ['E', 'G', 'L', 'O', 'P', 'T', 'X', 'Z'] := by
  unfold dispSet at h
  rw [List.mem_flatMap] at h
  obtain ⟨i, _, hc⟩ := h
  rw [List.eq_of_mem_replicate hc]
  fin_cases i <;> decide

theorem dispSet_length (s : SSet) : (dispSet s).length = s.len := by
  have hexp : dispSet s
      = List.replicate (s 0) 'E' ++ (List.replicate (s 1) 'G' ++ (List.replicate (s 2) 'L'
        ++ (List.replicate (s 3) 'O' ++ (List.replicate (s 4) 'P' ++ (List.replicate (s 5) 'T'
        ++ (List.replicate (s 6) 'X' ++ (List.replicate (s 7) 'Z' ++ []))))))) := rfl
  rw [hexp, len_expand]
  simp [List.length_append, List.length_replicate]
  omega

theorem dispSet_ne_nil {s : SSet} (h : s.len ≠ 0) : dispSet s ≠ [] := by
  intro hz
  apply h
  rw [← dispSet_length, hz]
  rfl

theorem dispSet_no_space {s : SSet} : ∀ c ∈ dispSet s, c ≠ ' ' := by
  intro c hc
  have := dispSet_chars hc
  fin_cases this <;> decide

theorem dispSet_ne_arrow (s : SSet) : dispSet s ≠ ['=', '>'] := by
  intro h
  have hm : '=' ∈ dispSet s := by rw [h]; exact List.mem_cons_self _ _
  exact absurd (dispSet_chars hm) (by decide)

theorem dispSet_ne_bar (s : SSet) : dispSet s ≠ ['|'] := by
  intro h
  have hm : '|' ∈ dispSet s := by rw [h]; exact List.mem_cons_self _ _
  exact absurd (dispSet_chars hm) (by decide)

theorem dispSet_ne_parsep (s : SSet) : dispSet s ≠ ['/', '/'] := by
  intro h
  have hm : '/' ∈ dispSet s := by rw [h]; exact List.mem_cons_self _ _
  exact absurd (dispSet_chars hm) (by decide)

theorem dispSet_head_not {s : SSet} {c : Char}
    (hc : c ∉ (['E', 'G', 'L', 'O', 'P', 'T', 'X', 'Z'] : List Char)) :
    (dispSet s).head? ≠ some c := by
  intro h
  cases hd : dispSet s with
  | nil => rw [hd] at h; exact Option.noConfusion h
  | cons x xs =>
    rw [hd] at h
    have hx : x = c := by simpa using h
    apply hc
    rw [← hx]
    exact dispSet_chars (by rw [hd]; exact List.mem_cons_self x xs)

/-- Every Space-Exploration recipe has nonempty input and output. -/
theorem seRecipe_io_pos : ∀ r : SeRecipe, (seInput r).len ≠ 0 ∧ (seOutput r).len ≠ 0 := by
  intro r
  cases r <;> exact ⟨by decide, by decide⟩

set_option maxRecDepth 8192 in
/-- Decimal facts for `u8` counts: nonempty, spaceless, and re-parsed to
the same value. -/
theorem natDigits_facts : ∀ n, n < 256 →
    (natDigits n ≠ [] ∧ (∀ c ∈ natDigits n, c ≠ ' ') ∧ parseU8 (natDigits n) = some n) := by
  decide

/-- `find` restores each enumerated recipe from its input and output. -/
theorem seFind_self : ∀ r : SeRecipe, seFind (seInput r) (seOutput r) = .ok r := by
  intro r
  cases r <;> rfl

--
--  Token streams of the display functions.
--

/-- The head's tokens after the source: arrow, target, optional count,
optional catalysts. -/
def headToks (p : PathSE) : List (Nat × List Char) :=
  [(1, ['-', '>']), (1, dispSet p.target)]
    ++ (if 1 < p.count then [(1, 'x' :: natDigits p.count)] else [])
    ++ (if p.catalysts.isEmpty then [] else [(1, ['+']), (1, dispSet p.catalysts)])

/-- The recipe tokens of a path tail, separators included. -/
def recipesToks : Nat → List SeRecipe → List (Nat × List Char)
  | _, [] => []
  | i, r :: rest =>
    (if 0 < i then [(1, ['|']), (1, dispSet (seInput r))]
     else [(2, ['=', '>']), (2, dispSet (seInput r))])
      ++ [(1, ['-', '>']), (1, dispSet (seOutput r))] ++ recipesToks (i + 1) rest

/-- The token texts the path loop consumes: `IN -> OUT` triples separated
by `|`. -/
def loopToks : List SeRecipe → List (List Char)
  | [] => []
  | r :: rest => dispSet (seInput r) :: ['-', '>'] :: dispSet (seOutput r) ::
      (match rest with
       | [] => []
       | _ :: _ => ['|'] :: loopToks rest)

theorem render_append (a b : List (Nat × List Char)) :
    render (a ++ b) = render a ++ render b := by
  simp [render]

theorem dispHead_render (p : PathSE) :
    dispHead p = dispSet p.source ++ render (headToks p) := by
  unfold dispHead headToks
  by_cases hc : 1 < p.count <;> by_cases hcat : p.catalysts.isEmpty = true <;>
    simp [hc, hcat, render, List.append_assoc]

theorem dispRecipes_render : ∀ (rs : List SeRecipe) (i : Nat),
    dispRecipes i rs = render (recipesToks i rs) := by
  intro rs
  induction rs with
  | nil => intro i; rfl
  | cons r rest ih =>
    intro i
    show (if 0 < i then [' ', '|', ' '] else [' ', ' ', '=', '>', ' ', ' ']) ++ dispRecipe r
        ++ dispRecipes (i + 1) rest = _
    rw [ih (i + 1)]
    by_cases hi : 0 < i <;>
      simp [recipesToks, render, hi, dispRecipe, List.append_assoc]

theorem dispPath_render (p : PathSE) :
    dispPath p = dispSet p.source ++ render (headToks p ++ recipesToks 0 p.recipes) := by
  unfold dispPath
  rw [dispHead_render, dispRecipes_render, render_append, List.append_assoc]

theorem recipesToks_map2_pos : ∀ (rs : List SeRecipe) (i : Nat), 0 < i →
    (recipesToks i rs).map (fun kt => kt.2)
      = (match rs with | [] => [] | _ :: _ => ['|'] :: loopToks rs) := by
  intro rs
  induction rs with
  | nil => intro i _; rfl
  | cons r rest ih =>
    intro i hi
    show ((if 0 < i then _ else _) ++ _ ++ recipesToks (i + 1) rest).map _ = _
    rw [if_pos hi]
    simp only [List.map_append, List.map_cons, List.map_nil, ih (i + 1) (by omega)]
    cases rest with
    | nil => rfl
    | cons r2 rest2 => rfl

theorem recipesToks_map2_zero (rs : List SeRecipe) (h : rs ≠ []) :
    (recipesToks 0 rs).map (fun kt => kt.2) = ['=', '>'] :: loopToks rs := by
  cases rs with
  | nil => exact absurd rfl h
  | cons r rest =>
    show ((if 0 < 0 then _ else _) ++ _ ++ recipesToks 1 rest).map _ = _
    rw [if_neg (by omega)]
    simp only [List.map_append, List.map_cons, List.map_nil,
      recipesToks_map2_pos rest 1 (by omega)]
    cases rest with
    | nil => rfl
    | cons r2 rest2 => rfl

theorem recipesToks_cond : ∀ (rs : List SeRecipe) (i : Nat),
    ∀ kt ∈ recipesToks i rs, 1 ≤ kt.1 ∧ kt.2 ≠ [] ∧ ∀ c ∈ kt.2, c ≠ ' ' := by
  intro rs
  induction rs with
  | nil => intro i kt hkt; simp [recipesToks] at hkt
  | cons r rest ih =>
    intro i kt hkt
    rw [show recipesToks i (r :: rest)
        = (if 0 < i then [(1, ['|']), (1, dispSet (seInput r))]
           else [(2, ['=', '>']), (2, dispSet (seInput r))])
          ++ [(1, ['-', '>']), (1, dispSet (seOutput r))] ++ recipesToks (i + 1) rest
      from rfl] at hkt
    by_cases hi : 0 < i
    · rw [if_pos hi] at hkt
      simp only [List.mem_append, List.mem_cons, List.not_mem_nil, or_false] at hkt
      rcases hkt with ((h | h) | (h | h)) | h
      · subst h; exact ⟨by decide, by decide, by decide⟩
      · subst h; exact ⟨Nat.le_refl 1, dispSet_ne_nil (seRecipe_io_pos r).1, dispSet_no_space⟩
      · subst h; exact ⟨by decide, by decide, by decide⟩
      · subst h; exact ⟨Nat.le_refl 1, dispSet_ne_nil (seRecipe_io_pos r).2, dispSet_no_space⟩
      · exact ih (i + 1) kt h
    · rw [if_neg hi] at hkt
      simp only [List.mem_append, List.mem_cons, List.not_mem_nil, or_false] at hkt
      rcases hkt with ((h | h) | (h | h)) | h
      · subst h; exact ⟨by decide, by decide, by decide⟩
      · subst h; exact ⟨one_le_two, dispSet_ne_nil (seRecipe_io_pos r).1, dispSet_no_space⟩
      · subst h; exact ⟨by decide, by decide, by decide⟩
      · subst h; exact ⟨Nat.le_refl 1, dispSet_ne_nil (seRecipe_io_pos r).2, dispSet_no_space⟩
      · exact ih (i + 1) kt h

theorem headToks_cond (p : PathSE) (ht : p.target.len ≠ 0)
    (hcat : p.catalysts.isEmpty = false → p.catalysts.len ≠ 0) (hc2 : p.count ≤ 255) :
    ∀ kt ∈ headToks p, 1 ≤ kt.1 ∧ kt.2 ≠ [] ∧ ∀ c ∈ kt.2, c ≠ ' ' := by
  intro kt hkt
  unfold headToks at hkt
  obtain ⟨hd1, hd2, hd3⟩ := natDigits_facts p.count (by omega)
  have hxtok : 1 ≤ (1, 'x' :: natDigits p.count).1
      ∧ (1, 'x' :: natDigits p.count).2 ≠ []
      ∧ ∀ c ∈ (1, 'x' :: natDigits p.count).2, c ≠ ' ' := by
    refine ⟨Nat.le_refl 1, by simp, ?_⟩
    intro c hc
    rcases List.mem_cons.1 hc with h | h
    · subst h; decide
    · exact hd2 c h
  have hcattok : p.catalysts.isEmpty = false →
      (1, dispSet p.catalysts).2 ≠ [] := fun hf => dispSet_ne_nil (hcat hf)
  simp only [List.mem_append, List.mem_cons, List.not_mem_nil, or_false] at hkt
  rcases hkt with ((h | h) | h) | h
  · subst h; exact ⟨by decide, by decide, by decide⟩
  · subst h; exact ⟨Nat.le_refl 1, dispSet_ne_nil ht, dispSet_no_space⟩
  · by_cases hcnt : 1 < p.count
    · rw [if_pos hcnt] at h
      rcases List.mem_singleton.1 h with rfl
      exact hxtok
    · rw [if_neg hcnt] at h
      exact absurd h (List.not_mem_nil kt)
  · by_cases hce : p.catalysts.isEmpty = true
    · rw [if_pos hce] at h
      exact absurd h (List.not_mem_nil kt)
    · rw [if_neg hce] at h
      simp only [List.mem_cons, List.not_mem_nil, or_false] at h
      rcases h with h | h
      · subst h; exact ⟨by decide, by decide, by decide⟩
      · subst h
        refine ⟨Nat.le_refl 1, hcattok ?_, dispSet_no_space⟩
        cases hb : p.catalysts.isEmpty
        · rfl
        · exact absurd hb hce

--
--  Evaluating the parser on a displayed path.
--

theorem isEmpty_true_eq {s : SSet} (h : SSet.isEmpty s = true) : s = SSet.empty := by
  have hlen : s.len = 0 := by simpa [SSet.isEmpty] using h
  rw [len_expand] at hlen
  have h0 : s 0 = 0 := by omega
  have h1 : s 1 = 0 := by omega
  have h2 : s 2 = 0 := by omega
  have h3 : s 3 = 0 := by omega
  have h4 : s 4 = 0 := by omega
  have h5 : s 5 = 0 := by omega
  have h6 : s 6 = 0 := by omega
  have h7 : s 7 = 0 := by omega
  funext j
  fin_cases j
  · exact h0
  · exact h1
  · exact h2
  · exact h3
  · exact h4
  · exact h5
  · exact h6
  · exact h7

theorem isEmpty_false_len {s : SSet} (h : SSet.isEmpty s = false) : s.len ≠ 0 := by
  simpa [SSet.isEmpty] using h

theorem parseCountStep_x (n : Nat) (h1 : 1 ≤ n) (h2 : n ≤ 255) (rest : List (List Char)) :
    parseCountStep (('x' :: natDigits n) :: rest) = .ok (n, rest) := by
  obtain ⟨hd1, hd2, hd3⟩ := natDigits_facts n (by omega)
  obtain ⟨m, rfl⟩ : ∃ m, n = m + 1 := ⟨n - 1, by omega⟩
  simp [parseCountStep, hd3]

theorem parseCountStep_not_x (t : List Char) (h : ¬ t.head? = some 'x')
    (rest : List (List Char)) :
    parseCountStep (t :: rest) = .ok (1, t :: rest) := by
  simp [parseCountStep, h]

theorem parseCatalystsStep_plus (s : SSet) (rest : List (List Char)) :
    parseCatalystsStep (['+'] :: dispSet s :: rest) = .ok (s, rest) := by
  simp [parseCatalystsStep, dispSet_ne_arrow s, parseSet_dispSet]

theorem parseCatalystsStep_not_plus (t : List Char) (h : ¬ t = ['+'])
    (rest : List (List Char)) :
    parseCatalystsStep (t :: rest) = .ok (SSet.empty, t :: rest) := by
  simp [parseCatalystsStep, h]

/-- `parse_path_head` consumes the displayed head and the `"=>"` marker,
restoring source, target, count and catalysts. -/
theorem parsePathHead_disp (p : PathSE) (hc1 : 1 ≤ p.count) (hc2 : p.count ≤ 255)
    (rest2 : List (List Char)) :
    parsePathHead (dispSet p.source :: ((headToks p).map (fun kt => kt.2)
        ++ (['=', '>'] :: rest2)))
      = .ok (⟨p.source, p.target, p.count, p.catalysts, []⟩, rest2) := by
  by_cases hcnt : 1 < p.count <;> by_cases hce : p.catalysts.isEmpty = true
  · have hmap : (headToks p).map (fun kt => kt.2)
        = [['-', '>'], dispSet p.target, 'x' :: natDigits p.count] := by
      simp [headToks, hcnt, hce]
    rw [hmap]
    have hcats := isEmpty_true_eq hce
    have hcs := parseCountStep_x p.count hc1 hc2
    have hct := parseCatalystsStep_not_plus ['=', '>'] (by decide)
    simp only [List.cons_append, List.nil_append]
    simp [parsePathHead, parseSet_dispSet, hcs, hct, hcats]
  · have hmap : (headToks p).map (fun kt => kt.2)
        = [['-', '>'], dispSet p.target, 'x' :: natDigits p.count, ['+'],
            dispSet p.catalysts] := by
      simp [headToks, hcnt, hce]
    rw [hmap]
    have hcs := parseCountStep_x p.count hc1 hc2
    have hct := parseCatalystsStep_plus p.catalysts
    simp only [List.cons_append, List.nil_append]
    simp [parsePathHead, parseSet_dispSet, hcs, hct]
  · have hmap : (headToks p).map (fun kt => kt.2) = [['-', '>'], dispSet p.target] := by
      simp [headToks, hcnt, hce]
    rw [hmap]
    have hcats := isEmpty_true_eq hce
    have hone : p.count = 1 := by omega
    have hcs := parseCountStep_not_x ['=', '>'] (by decide)
    have hct := parseCatalystsStep_not_plus ['=', '>'] (by decide)
    simp only [List.cons_append, List.nil_append]
    simp [parsePathHead, parseSet_dispSet, hcs, hct, hcats, hone]
  · have hmap : (headToks p).map (fun kt => kt.2)
        = [['-', '>'], dispSet p.target, ['+'], dispSet p.catalysts] := by
      simp [headToks, hcnt, hce]
    rw [hmap]
    have hone : p.count = 1 := by omega
    have hcs := parseCountStep_not_x ['+'] (by decide)
    have hct := parseCatalystsStep_plus p.catalysts
    simp only [List.cons_append, List.nil_append]
    simp [parsePathHead, parseSet_dispSet, hcs, hct, hone]

/-- The path loop parses the displayed recipe tokens back, appending the
recipes in order. -/
theorem pathLoop_ok : ∀ (rs : List SeRecipe) (p : PathSE) (fuel : Nat),
    rs ≠ [] → rs.length ≤ fuel →
    pathLoop fuel p (loopToks rs)
      = some (.ok ⟨p.source, p.target, p.count, p.catalysts, p.recipes ++ rs⟩) := by
  intro rs
  induction rs with
  | nil => intro p fuel h _; exact absurd rfl h
  | cons r rest ih =>
    intro p fuel _ hfuel
    cases fuel with
    | zero => simp at hfuel
    | succ f =>
      have hpr : ∀ rtoks, parseRecipe
          (dispSet (seInput r) :: ['-', '>'] :: dispSet (seOutput r) :: rtoks)
          = .ok (r, rtoks) := by
        intro rtoks
        simp [parseRecipe, parseSet_dispSet, seFind_self r]
      cases rest with
      | nil =>
        rw [show loopToks [r]
            = [dispSet (seInput r), ['-', '>'], dispSet (seOutput r)] from rfl]
        have hpeek : ¬ (([dispSet (seInput r), ['-', '>'],
            dispSet (seOutput r)] : List (List Char)).head? = some ['|']) := by
          simp only [List.head?_cons, Option.some.injEq]
          exact dispSet_ne_bar (seInput r)
        simp only [pathLoop]
        rw [if_neg hpeek, hpr []]
      | cons r2 rest2 =>
        rw [show loopToks (r :: r2 :: rest2)
            = dispSet (seInput r) :: ['-', '>'] :: dispSet (seOutput r) ::
              ['|'] :: loopToks (r2 :: rest2) from rfl]
        have hpeek : ¬ ((dispSet (seInput r) :: ['-', '>'] :: dispSet (seOutput r) ::
            (['|'] :: loopToks (r2 :: rest2))).head? = some ['|']) := by
          simp only [List.head?_cons, Option.some.injEq]
          exact dispSet_ne_bar (seInput r)
        simp only [pathLoop]
        rw [if_neg hpeek, hpr (['|'] :: loopToks (r2 :: rest2))]
        show pathLoop f ⟨p.source, p.target, p.count, p.catalysts, p.recipes ++ [r]⟩
            (loopToks (r2 :: rest2)) = _
        rw [ih ⟨p.source, p.target, p.count, p.catalysts, p.recipes ++ [r]⟩ f
          (by simp) (by simp at hfuel ⊢; omega)]
        simp

theorem loopToks_len : ∀ rs : List SeRecipe, rs.length ≤ (loopToks rs).length := by
  intro rs
  induction rs with
  | nil => simp [loopToks]
  | cons r rest ih =>
    cases rest with
    | nil => simp [loopToks]
    | cons r2 rest2 =>
      rw [show loopToks (r :: r2 :: rest2)
          = dispSet (seInput r) :: ['-', '>'] :: dispSet (seOutput r) ::
            ['|'] :: loopToks (r2 :: rest2) from rfl]
      simp only [List.length_cons] at ih ⊢
      omega

/-- C3, amended, the `Path` half: parsing the display of a path with
nonempty source, nonempty target, a `u8`-ranged nonzero count and at least
one recipe restores the path exactly. -/
theorem parsePath_roundtrip (p : PathSE) (hs : p.source.len ≠ 0) (ht : p.target.len ≠ 0)
    (hc1 : 1 ≤ p.count) (hc2 : p.count ≤ 255) (hr : p.recipes ≠ []) :
    parsePath (dispPath p) = some (.ok p) := by
  have htoks : splitWs (dispPath p)
      = dispSet p.source :: ((headToks p).map (fun kt => kt.2)
        ++ (['=', '>'] :: loopToks p.recipes)) := by
    rw [dispPath_render]
    rw [splitWs_render _ (dispSet_ne_nil hs) dispSet_no_space _ ?side]
    · rw [List.map_append, recipesToks_map2_zero _ hr]
    case side =>
      intro kt hkt
      rcases List.mem_append.1 hkt with h | h
      · exact headToks_cond p ht (fun hf => isEmpty_false_len hf) hc2 kt h
      · exact recipesToks_cond p.recipes 0 kt h
  unfold parsePath
  rw [htoks, parsePathHead_disp p hc1 hc2]
  show pathLoop ((loopToks p.recipes).length + 1)
      ⟨p.source, p.target, p.count, p.catalysts, []⟩ (loopToks p.recipes)
    = some (.ok p)
  rw [pathLoop_ok p.recipes ⟨p.source, p.target, p.count, p.catalysts, []⟩ _ hr
    (le_trans (loopToks_len p.recipes) (by omega))]
  simp

--
--  The staged display's token stream.
--

/-- The tokens of one stage, `" // "` between recipes, with their leading
space counts (the first input token carries the separator's trailing
spaces). -/
def stageInnerToks : Nat → List SeRecipe → List (Nat × List Char)
  | _, [] => []
  | i, r :: rest =>
    (if 0 < i then [(1, ['/', '/']), (1, dispSet (seInput r))]
     else [(2, dispSet (seInput r))])
      ++ [(1, ['-', '>']), (1, dispSet (seOutput r))] ++ stageInnerToks (i + 1) rest

/-- The stage tokens of a staged path tail, separators included. -/
def stagesToks : Nat → List (List SeRecipe) → List (Nat × List Char)
  | _, [] => []
  | j, st :: rest =>
    (if 0 < j then [(1, ['|'])] else [(2, ['=', '>'])]) ++ stageInnerToks 0 st
      ++ stagesToks (j + 1) rest

/-- The token texts of one stage as the staged loop sees them. -/
def stageInnerTexts : List SeRecipe → List (List Char)
  | [] => []
  | r :: rest => dispSet (seInput r) :: ['-', '>'] :: dispSet (seOutput r) ::
      (match rest with
       | [] => []
       | _ :: _ => ['/', '/'] :: stageInnerTexts rest)

/-- The token texts of the staged tail: stages separated by `"|"`. -/
def stagedTexts : List (List SeRecipe) → List (List Char)
  | [] => []
  | st :: rest => stageInnerTexts st ++
      (match rest with
       | [] => []
       | _ :: _ => ['|'] :: stagedTexts rest)

/-- The boundary values the staged loop pushes: the recipe count at each
stage transition. -/
def pushedBounds (base : Nat) : List (List SeRecipe) → List Nat
  | [] => []
  | st :: rest => base :: pushedBounds (base + st.length) rest

theorem stageInner_render_pos : ∀ (st : List SeRecipe) (i : Nat), 0 < i →
    render (stageInnerToks i st) = dispStage i st := by
  intro st
  induction st with
  | nil => intro i _; rfl
  | cons r rest ih =>
    intro i hi
    show _ = (if 0 < i then [' ', '/', '/', ' '] else []) ++ dispRecipe r
        ++ dispStage (i + 1) rest
    rw [← ih (i + 1) (by omega)]
    rw [show stageInnerToks i (r :: rest)
        = (if 0 < i then [(1, ['/', '/']), (1, dispSet (seInput r))]
           else [(2, dispSet (seInput r))])
          ++ [(1, ['-', '>']), (1, dispSet (seOutput r))] ++ stageInnerToks (i + 1) rest
      from rfl]
    rw [if_pos hi, if_pos hi]
    simp [render, dispRecipe, List.append_assoc]

theorem stageInner_render_zero (r : SeRecipe) (rest : List SeRecipe) :
    render (stageInnerToks 0 (r :: rest)) = [' ', ' '] ++ dispStage 0 (r :: rest) := by
  show render ((if 0 < 0 then [(1, ['/', '/']), (1, dispSet (seInput r))]
      else [(2, dispSet (seInput r))])
    ++ [(1, ['-', '>']), (1, dispSet (seOutput r))] ++ stageInnerToks 1 rest)
    = [' ', ' '] ++ ((if 0 < 0 then [' ', '/', '/', ' '] else []) ++ dispRecipe r
        ++ dispStage 1 rest)
  rw [if_neg (by omega), if_neg (by omega), ← stageInner_render_pos rest 1 (by omega)]
  simp [render, dispRecipe, List.append_assoc]

theorem dispStages_render : ∀ (sls : List (List SeRecipe)) (j : Nat),
    (∀ st ∈ sls, st ≠ []) →
    dispStages j sls = render (stagesToks j sls) := by
  intro sls
  induction sls with
  | nil => intro j _; rfl
  | cons st rest ih =>
    intro j hne
    obtain ⟨r, rest0, rfl⟩ : ∃ r rest0, st = r :: rest0 := by
      cases hst : st with
      | nil => exact absurd hst (hne st (List.mem_cons_self _ _) ∘ Eq.symm ∘ Eq.symm)
      | cons a b => exact ⟨a, b, rfl⟩
    show (if 0 < j then [' ', '|', ' ', ' '] else [' ', ' ', '=', '>', ' ', ' '])
        ++ dispStage 0 (r :: rest0) ++ dispStages (j + 1) rest = _
    rw [ih (j + 1) (fun x hx => hne x (List.mem_cons_of_mem _ hx))]
    rw [show stagesToks j ((r :: rest0) :: rest)
        = (if 0 < j then [(1, ['|'])] else [(2, ['=', '>'])])
          ++ stageInnerToks 0 (r :: rest0) ++ stagesToks (j + 1) rest from rfl]
    rw [render_append, render_append, stageInner_render_zero r rest0]
    by_cases hj : 0 < j <;> simp [hj, render, List.append_assoc]

/-- `fmt::Display for StagedPath` in rendered-token form. -/
theorem dispStagedPath_render (sp : StagedPathSE)
    (hne : ∀ st ∈ stageSlices sp.path.recipes sp.stages, st ≠ []) :
    dispStagedPath sp = dispSet sp.path.source
      ++ render (headToks sp.path ++ stagesToks 0 (stageSlices sp.path.recipes sp.stages)) := by
  unfold dispStagedPath
  rw [dispHead_render, dispStages_render _ 0 hne, render_append, List.append_assoc]

theorem stageInnerToks_map2_pos : ∀ (st : List SeRecipe) (i : Nat), 0 < i →
    (stageInnerToks i st).map (fun kt => kt.2)
      = (match st with | [] => [] | _ :: _ => ['/', '/'] :: stageInnerTexts st) := by
  intro st
  induction st with
  | nil => intro i _; rfl
  | cons r rest ih =>
    intro i hi
    rw [show stageInnerToks i (r :: rest)
        = (if 0 < i then [(1, ['/', '/']), (1, dispSet (seInput r))]
           else [(2, dispSet (seInput r))])
          ++ [(1, ['-', '>']), (1, dispSet (seOutput r))] ++ stageInnerToks (i + 1) rest
      from rfl]
    rw [if_pos hi]
    simp only [List.map_append, List.map_cons, List.map_nil, ih (i + 1) (by omega)]
    cases rest with
    | nil => rfl
    | cons r2 rest2 => rfl

theorem stageInnerToks_map2_zero (r : SeRecipe) (rest : List SeRecipe) :
    (stageInnerToks 0 (r :: rest)).map (fun kt => kt.2) = stageInnerTexts (r :: rest) := by
  rw [show stageInnerToks 0 (r :: rest)
      = (if 0 < 0 then [(1, ['/', '/']), (1, dispSet (seInput r))]
         else [(2, dispSet (seInput r))])
        ++ [(1, ['-', '>']), (1, dispSet (seOutput r))] ++ stageInnerToks 1 rest
    from rfl]
  rw [if_neg (by omega)]
  simp only [List.map_append, List.map_cons, List.map_nil,
    stageInnerToks_map2_pos rest 1 (by omega)]
  cases rest with
  | nil => rfl
  | cons r2 rest2 => rfl

theorem stagesToks_map2_pos : ∀ (sls : List (List SeRecipe)) (j : Nat), 0 < j →
    (∀ st ∈ sls, st ≠ []) →
    (stagesToks j sls).map (fun kt => kt.2)
      = (match sls with | [] => [] | _ :: _ => ['|'] :: stagedTexts sls) := by
  intro sls
  induction sls with
  | nil => intro j _ _; rfl
  | cons st rest ih =>
    intro j hj hne
    obtain ⟨r, rest0, rfl⟩ : ∃ r rest0, st = r :: rest0 := by
      cases hst : st with
      | nil => exact absurd rfl (hst ▸ hne st (List.mem_cons_self _ _))
      | cons a b => exact ⟨a, b, rfl⟩
    rw [show stagesToks j ((r :: rest0) :: rest)
        = (if 0 < j then [(1, ['|'])] else [(2, ['=', '>'])])
          ++ stageInnerToks 0 (r :: rest0) ++ stagesToks (j + 1) rest from rfl]
    rw [if_pos hj]
    simp only [List.map_append, List.map_cons, List.map_nil,
      stageInnerToks_map2_zero r rest0,
      ih (j + 1) (by omega) (fun x hx => hne x (List.mem_cons_of_mem _ hx))]
    cases rest with
    | nil => simp [stagedTexts]
    | cons st2 rest2 => simp [stagedTexts]

theorem stagesToks_map2_zero (sls : List (List SeRecipe)) (h : sls ≠ [])
    (hne : ∀ st ∈ sls, st ≠ []) :
    (stagesToks 0 sls).map (fun kt => kt.2) = ['=', '>'] :: stagedTexts sls := by
  cases sls with
  | nil => exact absurd rfl h
  | cons st rest =>
    obtain ⟨r, rest0, rfl⟩ : ∃ r rest0, st = r :: rest0 := by
      cases hst : st with
      | nil => exact absurd rfl (hst ▸ hne st (List.mem_cons_self _ _))
      | cons a b => exact ⟨a, b, rfl⟩
    rw [show stagesToks 0 ((r :: rest0) :: rest)
        = (if 0 < 0 then [(1, ['|'])] else [(2, ['=', '>'])])
          ++ stageInnerToks 0 (r :: rest0) ++ stagesToks 1 rest from rfl]
    rw [if_neg (by omega)]
    simp only [List.map_append, List.map_cons, List.map_nil,
      stageInnerToks_map2_zero r rest0,
      stagesToks_map2_pos rest 1 (by omega) (fun x hx => hne x (List.mem_cons_of_mem _ hx))]
    cases rest with
    | nil => simp [stagedTexts]
    | cons st2 rest2 => simp [stagedTexts]

theorem stageInnerToks_cond : ∀ (st : List SeRecipe) (i : Nat),
    ∀ kt ∈ stageInnerToks i st, 1 ≤ kt.1 ∧ kt.2 ≠ [] ∧ ∀ c ∈ kt.2, c ≠ ' ' := by
  intro st
  induction st with
  | nil => intro i kt hkt; simp [stageInnerToks] at hkt
  | cons r rest ih =>
    intro i kt hkt
    rw [show stageInnerToks i (r :: rest)
        = (if 0 < i then [(1, ['/', '/']), (1, dispSet (seInput r))]
           else [(2, dispSet (seInput r))])
          ++ [(1, ['-', '>']), (1, dispSet (seOutput r))] ++ stageInnerToks (i + 1) rest
      from rfl] at hkt
    by_cases hi : 0 < i
    · rw [if_pos hi] at hkt
      simp only [List.mem_append, List.mem_cons, List.not_mem_nil, or_false] at hkt
      rcases hkt with ((h | h) | (h | h)) | h
      · subst h; exact ⟨by decide, by decide, by decide⟩
      · subst h; exact ⟨Nat.le_refl 1, dispSet_ne_nil (seRecipe_io_pos r).1, dispSet_no_space⟩
      · subst h; exact ⟨by decide, by decide, by decide⟩
      · subst h; exact ⟨Nat.le_refl 1, dispSet_ne_nil (seRecipe_io_pos r).2, dispSet_no_space⟩
      · exact ih (i + 1) kt h
    · rw [if_neg hi] at hkt
      simp only [List.mem_append, List.mem_cons, List.not_mem_nil, or_false] at hkt
      rcases hkt with (h | (h | h)) | h
      · subst h; exact ⟨one_le_two, dispSet_ne_nil (seRecipe_io_pos r).1, dispSet_no_space⟩
      · subst h; exact ⟨by decide, by decide, by decide⟩
      · subst h; exact ⟨Nat.le_refl 1, dispSet_ne_nil (seRecipe_io_pos r).2, dispSet_no_space⟩
      · exact ih (i + 1) kt h

theorem stagesToks_cond : ∀ (sls : List (List SeRecipe)) (j : Nat),
    ∀ kt ∈ stagesToks j sls, 1 ≤ kt.1 ∧ kt.2 ≠ [] ∧ ∀ c ∈ kt.2, c ≠ ' ' := by
  intro sls
  induction sls with
  | nil => intro j kt hkt; simp [stagesToks] at hkt
  | cons st rest ih =>
    intro j kt hkt
    rw [show stagesToks j (st :: rest)
        = (if 0 < j then [(1, ['|'])] else [(2, ['=', '>'])])
          ++ stageInnerToks 0 st ++ stagesToks (j + 1) rest from rfl] at hkt
    simp only [List.mem_append] at hkt
    rcases hkt with (h | h) | h
    · by_cases hj : 0 < j
      · rw [if_pos hj] at h
        rcases List.mem_singleton.1 h with rfl
        exact ⟨by decide, by decide, by decide⟩
      · rw [if_neg hj] at h
        rcases List.mem_singleton.1 h with rfl
        exact ⟨by decide, by decide, by decide⟩
    · exact stageInnerToks_cond st 0 kt h
    · exact ih (j + 1) kt h

--
--  Valid stage boundaries produce nonempty slices that rejoin and whose
--  accumulated lengths are the original boundaries.
--

theorem stageSlicesRec_ne_nil (l : List SeRecipe) (prev : Nat) (bs : List Nat) :
    stageSlicesRec l prev bs ≠ [] := by
  cases bs <;> simp [stageSlicesRec]

theorem stageSlices_valid (l : List SeRecipe) : ∀ (bs : List Nat) (prev : Nat),
    List.Chain' (· < ·) (prev :: bs) → (∀ b ∈ bs, b < l.length) → prev < l.length →
    (∀ sl ∈ stageSlicesRec l prev bs, sl ≠ []) ∧
    (stageSlicesRec l prev bs).join = l.drop prev ∧
    (∀ s0 rest, stageSlicesRec l prev bs = s0 :: rest →
      pushedBounds (prev + s0.length) rest = bs) := by
  intro bs
  induction bs with
  | nil =>
    intro prev _ _ hprev
    refine ⟨?_, ?_, ?_⟩
    · intro sl hsl
      rw [show stageSlicesRec l prev [] = [(l.drop prev).take (l.length - prev)] from rfl]
        at hsl
      rcases List.mem_singleton.1 hsl with rfl
      intro hz
      have := congrArg List.length hz
      simp only [List.length_take, List.length_drop, List.length_nil] at this
      omega
    · show ((l.drop prev).take (l.length - prev)) ++ List.join [] = l.drop prev
      rw [show List.join ([] : List (List SeRecipe)) = [] from rfl, List.append_nil]
      have : l.length - prev = (l.drop prev).length := by simp
      rw [this, List.take_length]
    · intro s0 rest h
      rw [show stageSlicesRec l prev [] = [(l.drop prev).take (l.length - prev)] from rfl]
        at h
      cases h
      rfl
  | cons b bs ih =>
    intro prev hchain hblt hprev
    have hpb : prev < b := (List.chain'_cons.1 hchain).1
    have hbl : b < l.length := hblt b (List.mem_cons_self _ _)
    have hchain2 : List.Chain' (· < ·) (b :: bs) := (List.chain'_cons.1 hchain).2
    have hblt2 : ∀ x ∈ bs, x < l.length := fun x hx => hblt x (List.mem_cons_of_mem _ hx)
    obtain ⟨ihne, ihjoin, ihbounds⟩ := ih b hchain2 hblt2 hbl
    have hslice0 : ((l.drop prev).take (b - prev)).length = b - prev := by
      simp only [List.length_take, List.length_drop]
      omega
    refine ⟨?_, ?_, ?_⟩
    · intro sl hsl
      rw [show stageSlicesRec l prev (b :: bs)
          = ((l.drop prev).take (b - prev)) :: stageSlicesRec l b bs from rfl] at hsl
      rcases List.mem_cons.1 hsl with rfl | h
      · intro hz
        rw [hz] at hslice0
        simp at hslice0
        omega
      · exact ihne sl h
    · rw [show stageSlicesRec l prev (b :: bs)
          = ((l.drop prev).take (b - prev)) :: stageSlicesRec l b bs from rfl]
      rw [show (((l.drop prev).take (b - prev)) :: stageSlicesRec l b bs).join
          = ((l.drop prev).take (b - prev)) ++ (stageSlicesRec l b bs).join from rfl]
      rw [ihjoin]
      have hdrop : l.drop b = (l.drop prev).drop (b - prev) := by
        rw [List.drop_drop]
        congr 1
        omega
      rw [hdrop, List.take_append_drop]
    · intro s0 rest h
      rw [show stageSlicesRec l prev (b :: bs)
          = ((l.drop prev).take (b - prev)) :: stageSlicesRec l b bs from rfl] at h
      injection h with h1 h2
      subst h1
      cases hrec : stageSlicesRec l b bs with
      | nil => exact absurd hrec (stageSlicesRec_ne_nil l b bs)
      | cons s1 rest1 =>
        rw [hrec] at h2
        subst h2
        rw [show pushedBounds (prev + ((l.drop prev).take (b - prev)).length) (s1 :: rest1)
            = (prev + ((l.drop prev).take (b - prev)).length)
              :: pushedBounds ((prev + ((l.drop prev).take (b - prev)).length) + s1.length)
                rest1 from rfl]
        rw [hslice0]
        have hpb2 : prev + (b - prev) = b := by omega
        rw [hpb2]
        rw [ihbounds s1 rest1 hrec]

--
--  The staged loop parses the displayed stage tokens back.
--

theorem stagedLoop_last : ∀ (st : List SeRecipe) (p : PathSE) (stages : List Nat)
    (fuel : Nat), st ≠ [] → st.length ≤ fuel →
    stagedLoop fuel p stages (stageInnerTexts st)
      = some (.ok ⟨⟨p.source, p.target, p.count, p.catalysts, p.recipes ++ st⟩, stages⟩) := by
  intro st
  induction st with
  | nil => intro p stages fuel h _; exact absurd rfl h
  | cons r rest ih =>
    intro p stages fuel _ hfuel
    cases fuel with
    | zero => simp at hfuel
    | succ f =>
      have hpr : ∀ rtoks, parseRecipe
          (dispSet (seInput r) :: ['-', '>'] :: dispSet (seOutput r) :: rtoks)
          = .ok (r, rtoks) := by
        intro rtoks
        simp [parseRecipe, parseSet_dispSet, seFind_self r]
      cases rest with
      | nil =>
        rw [show stageInnerTexts [r]
            = [dispSet (seInput r), ['-', '>'], dispSet (seOutput r)] from rfl]
        have hpeek : ¬ (([dispSet (seInput r), ['-', '>'],
            dispSet (seOutput r)] : List (List Char)).head? = some ['/', '/']
            ∨ ([dispSet (seInput r), ['-', '>'],
            dispSet (seOutput r)] : List (List Char)).head? = some ['|']) := by
          simp only [List.head?_cons, Option.some.injEq]
          rintro (h | h)
          · exact dispSet_ne_parsep (seInput r) h
          · exact dispSet_ne_bar (seInput r) h
        simp only [stagedLoop]
        rw [if_neg hpeek, hpr []]
      | cons r2 rest2 =>
        rw [show stageInnerTexts (r :: r2 :: rest2)
            = dispSet (seInput r) :: ['-', '>'] :: dispSet (seOutput r) ::
              ['/', '/'] :: stageInnerTexts (r2 :: rest2) from rfl]
        have hpeek : ¬ ((dispSet (seInput r) :: ['-', '>'] :: dispSet (seOutput r) ::
            ['/', '/'] :: stageInnerTexts (r2 :: rest2)).head? = some ['/', '/']
            ∨ (dispSet (seInput r) :: ['-', '>'] :: dispSet (seOutput r) ::
            ['/', '/'] :: stageInnerTexts (r2 :: rest2)).head? = some ['|']) := by
          simp only [List.head?_cons, Option.some.injEq]
          rintro (h | h)
          · exact dispSet_ne_parsep (seInput r) h
          · exact dispSet_ne_bar (seInput r) h
        simp only [stagedLoop]
        rw [if_neg hpeek, hpr (['/', '/'] :: stageInnerTexts (r2 :: rest2))]
        show stagedLoop f ⟨p.source, p.target, p.count, p.catalysts, p.recipes ++ [r]⟩
            stages (stageInnerTexts (r2 :: rest2)) = _
        rw [ih ⟨p.source, p.target, p.count, p.catalysts, p.recipes ++ [r]⟩ stages f
          (by simp) (by simp at hfuel ⊢; omega)]
        simp

theorem stagedLoop_go : ∀ (sls : List (List SeRecipe)) (st : List SeRecipe) (p : PathSE)
    (stages : List Nat) (fuel : Nat),
    st ≠ [] → (∀ x ∈ sls, x ≠ []) →
    st.length + (sls.map List.length).sum ≤ fuel →
    (∀ b ∈ pushedBounds (p.recipes.length + st.length) sls, b ≤ 255) →
    stagedLoop fuel p stages (stagedTexts (st :: sls))
      = some (.ok ⟨⟨p.source, p.target, p.count, p.catalysts,
          p.recipes ++ st ++ sls.join⟩,
          stages ++ pushedBounds (p.recipes.length + st.length) sls⟩) := by
  intro sls
  induction sls with
  | nil =>
    intro st p stages fuel hst _ hfuel _
    show stagedLoop fuel p stages (stageInnerTexts st ++ ([] : List (List Char))) = _
    rw [List.append_nil]
    rw [stagedLoop_last st p stages fuel hst (by simpa using hfuel)]
    simp [pushedBounds]
  | cons s2 rest ihout =>
    intro st0 p0 stages0 fuel0 hst0 hsls hfuel0 hbnd0
    have inner : ∀ (st : List SeRecipe), st ≠ [] →
        ∀ (p : PathSE) (stages : List Nat) (fuel : Nat),
        st.length + ((s2 :: rest).map List.length).sum ≤ fuel →
        (∀ b ∈ pushedBounds (p.recipes.length + st.length) (s2 :: rest), b ≤ 255) →
        stagedLoop fuel p stages (stagedTexts (st :: s2 :: rest))
          = some (.ok ⟨⟨p.source, p.target, p.count, p.catalysts,
              p.recipes ++ st ++ (s2 :: rest).join⟩,
              stages ++ pushedBounds (p.recipes.length + st.length) (s2 :: rest)⟩) := by
      intro st
      induction st with
      | nil => intro h; exact absurd rfl h
      | cons r st' ihst =>
        intro _ p stages fuel hfuel hbnd
        cases fuel with
        | zero => simp only [List.length_cons] at hfuel; omega
        | succ f =>
          have hpr : ∀ rtoks, parseRecipe
              (dispSet (seInput r) :: ['-', '>'] :: dispSet (seOutput r) :: rtoks)
              = .ok (r, rtoks) := by
            intro rtoks
            simp [parseRecipe, parseSet_dispSet, seFind_self r]
          cases st' with
          | nil =>
            show stagedLoop (f + 1) p stages
                (dispSet (seInput r) :: ['-', '>'] :: dispSet (seOutput r) ::
                  ['|'] :: stagedTexts (s2 :: rest)) = _
            have hpeek : ¬ ((dispSet (seInput r) :: ['-', '>'] :: dispSet (seOutput r) ::
                ['|'] :: stagedTexts (s2 :: rest)).head? = some ['/', '/']
                ∨ (dispSet (seInput r) :: ['-', '>'] :: dispSet (seOutput r) ::
                ['|'] :: stagedTexts (s2 :: rest)).head? = some ['|']) := by
              simp only [List.head?_cons, Option.some.injEq]
              rintro (h | h)
              · exact dispSet_ne_parsep (seInput r) h
              · exact dispSet_ne_bar (seInput r) h
            simp only [stagedLoop]
            rw [if_neg hpeek, hpr (['|'] :: stagedTexts (s2 :: rest))]
            have hb : (p.recipes ++ [r]).length ≤ 255 := by
              have hmem : p.recipes.length + 1 ∈
                  pushedBounds (p.recipes.length + ([r] : List SeRecipe).length)
                    (s2 :: rest) := by
                rw [show pushedBounds (p.recipes.length + ([r] : List SeRecipe).length)
                    (s2 :: rest)
                    = (p.recipes.length + 1)
                      :: pushedBounds (p.recipes.length + 1 + s2.length) rest from rfl]
                exact List.mem_cons_self _ _
              have := hbnd _ hmem
              simpa using this
            show (if (p.recipes ++ [r]).length ≤ 255 then
                stagedLoop f ⟨p.source, p.target, p.count, p.catalysts, p.recipes ++ [r]⟩
                  (stages ++ [(p.recipes ++ [r]).length]) (stagedTexts (s2 :: rest))
              else some (.error .TooManyRecipes)) = _
            rw [if_pos hb]
            rw [ihout s2 ⟨p.source, p.target, p.count, p.catalysts, p.recipes ++ [r]⟩
              (stages ++ [(p.recipes ++ [r]).length]) f
              (hsls s2 (List.mem_cons_self _ _))
              (fun x hx => hsls x (List.mem_cons_of_mem _ hx))
              (by simp at hfuel ⊢; omega)
              ?bnd2]
            case bnd2 =>
              intro b hb2
              apply hbnd
              rw [show pushedBounds (p.recipes.length + ([r] : List SeRecipe).length)
                  (s2 :: rest)
                  = (p.recipes.length + 1)
                    :: pushedBounds (p.recipes.length + 1 + s2.length) rest from rfl]
              refine List.mem_cons_of_mem _ ?_
              have hlen1 : (p.recipes ++ [r]).length + s2.length
                  = p.recipes.length + 1 + s2.length := by simp
              rw [hlen1] at hb2
              exact hb2
            rw [show pushedBounds (p.recipes.length + ([r] : List SeRecipe).length)
                (s2 :: rest)
                = (p.recipes.length + 1)
                  :: pushedBounds (p.recipes.length + 1 + s2.length) rest from rfl]
            rw [show ((s2 :: rest).join : List SeRecipe) = s2 ++ rest.join from rfl]
            have hlen2 : (p.recipes ++ [r]).length + s2.length
                = p.recipes.length + 1 + s2.length := by simp
            rw [hlen2]
            simp [List.append_assoc]
          | cons r2 st'' =>
            show stagedLoop (f + 1) p stages
                (dispSet (seInput r) :: ['-', '>'] :: dispSet (seOutput r) ::
                  ['/', '/'] :: stagedTexts ((r2 :: st'') :: s2 :: rest)) = _
            have hpeek : ¬ ((dispSet (seInput r) :: ['-', '>'] :: dispSet (seOutput r) ::
                ['/', '/'] :: stagedTexts ((r2 :: st'') :: s2 :: rest)).head?
                  = some ['/', '/']
                ∨ (dispSet (seInput r) :: ['-', '>'] :: dispSet (seOutput r) ::
                ['/', '/'] :: stagedTexts ((r2 :: st'') :: s2 :: rest)).head?
                  = some ['|']) := by
              simp only [List.head?_cons, Option.some.injEq]
              rintro (h | h)
              · exact dispSet_ne_parsep (seInput r) h
              · exact dispSet_ne_bar (seInput r) h
            simp only [stagedLoop]
            rw [if_neg hpeek, hpr (['/', '/'] :: stagedTexts ((r2 :: st'') :: s2 :: rest))]
            show stagedLoop f ⟨p.source, p.target, p.count, p.catalysts, p.recipes ++ [r]⟩
                stages (stagedTexts ((r2 :: st'') :: s2 :: rest)) = _
            rw [ihst (by simp) ⟨p.source, p.target, p.count, p.catalysts, p.recipes ++ [r]⟩
              stages f (by simp at hfuel ⊢; omega) ?bnd3]
            case bnd3 =>
              intro b hb2
              apply hbnd
              have hlen1 : (p.recipes ++ [r]).length + (r2 :: st'').length
                  = p.recipes.length + (r :: r2 :: st'').length := by simp; omega
              rw [hlen1] at hb2
              exact hb2
            have hlen2 : (p.recipes ++ [r]).length + (r2 :: st'').length
                = p.recipes.length + (r :: r2 :: st'').length := by simp; omega
            rw [hlen2]
            simp [List.append_assoc]
    exact inner st0 hst0 p0 stages0 fuel0 hfuel0 hbnd0

theorem stageInnerTexts_len : ∀ st : List SeRecipe, st.length ≤ (stageInnerTexts st).length := by
  intro st
  induction st with
  | nil => simp [stageInnerTexts]
  | cons r rest ih =>
    cases rest with
    | nil => simp [stageInnerTexts]
    | cons r2 rest2 =>
      rw [show stageInnerTexts (r :: r2 :: rest2)
          = dispSet (seInput r) :: ['-', '>'] :: dispSet (seOutput r) ::
            ['/', '/'] :: stageInnerTexts (r2 :: rest2) from rfl]
      simp only [List.length_cons] at ih ⊢
      omega

theorem stagedTexts_len : ∀ sls : List (List SeRecipe),
    (sls.map List.length).sum ≤ (stagedTexts sls).length := by
  intro sls
  induction sls with
  | nil => simp [stagedTexts]
  | cons st rest ih =>
    have h1 := stageInnerTexts_len st
    cases rest with
    | nil =>
      rw [show stagedTexts [st] = stageInnerTexts st ++ [] from rfl]
      simp only [List.map_cons, List.map_nil, List.sum_cons, List.sum_nil,
        List.length_append, List.length_nil]
      omega
    | cons s2 rest2 =>
      rw [show stagedTexts (st :: s2 :: rest2)
          = stageInnerTexts st ++ (['|'] :: stagedTexts (s2 :: rest2)) from rfl]
      simp only [List.map_cons, List.sum_cons, List.length_append, List.length_cons]
      simp only [List.map_cons, List.sum_cons] at ih
      omega

/-- C3, amended, the `StagedPath` half: parsing the display of a staged
path with a well-formed head, at least one recipe and strictly increasing
`u8` stage boundaries strictly inside the recipe range restores it
exactly. -/
theorem parseStagedPath_roundtrip (sp : StagedPathSE)
    (hs : sp.path.source.len ≠ 0) (ht : sp.path.target.len ≠ 0)
    (hc1 : 1 ≤ sp.path.count) (hc2 : sp.path.count ≤ 255)
    (hrec : sp.path.recipes ≠ [])
    (hchain : List.Chain' (· < ·) (0 :: sp.stages))
    (hblt : ∀ b ∈ sp.stages, b < sp.path.recipes.length)
    (hb255 : ∀ b ∈ sp.stages, b ≤ 255) :
    parseStagedPath (dispStagedPath sp) = some (.ok sp) := by
  have hlpos : 0 < sp.path.recipes.length := List.length_pos.2 hrec
  obtain ⟨hne, hjoin, hbounds⟩ :=
    stageSlices_valid sp.path.recipes sp.stages 0 hchain hblt hlpos
  have hne2 : ∀ st ∈ stageSlices sp.path.recipes sp.stages, st ≠ [] := hne
  cases hsl : stageSlices sp.path.recipes sp.stages with
  | nil => exact absurd hsl (stageSlicesRec_ne_nil _ 0 _)
  | cons s0 rest =>
    have hne3 : ∀ st ∈ s0 :: rest, st ≠ [] := by rw [← hsl]; exact hne2
    have hjoin2 : (s0 :: rest).join = sp.path.recipes := by
      rw [← hsl]
      show (stageSlicesRec sp.path.recipes 0 sp.stages).join = _
      rw [hjoin, List.drop_zero]
    have hbounds2 : pushedBounds (0 + s0.length) rest = sp.stages := hbounds s0 rest hsl
    have htoks : splitWs (dispStagedPath sp)
        = dispSet sp.path.source :: ((headToks sp.path).map (fun kt => kt.2)
          ++ (['=', '>'] :: stagedTexts (s0 :: rest))) := by
      rw [dispStagedPath_render sp hne2, hsl]
      rw [splitWs_render _ (dispSet_ne_nil hs) dispSet_no_space _ ?side]
      · rw [List.map_append, stagesToks_map2_zero (s0 :: rest) (by simp) hne3]
      case side =>
        intro kt hkt
        rcases List.mem_append.1 hkt with h | h
        · exact headToks_cond sp.path ht (fun hf => isEmpty_false_len hf) hc2 kt h
        · exact stagesToks_cond (s0 :: rest) 0 kt h
    unfold parseStagedPath
    rw [htoks, parsePathHead_disp sp.path hc1 hc2]
    show stagedLoop ((stagedTexts (s0 :: rest)).length + 1)
        ⟨sp.path.source, sp.path.target, sp.path.count, sp.path.catalysts, []⟩ []
        (stagedTexts (s0 :: rest)) = some (.ok sp)
    rw [stagedLoop_go rest s0
      ⟨sp.path.source, sp.path.target, sp.path.count, sp.path.catalysts, []⟩ [] _
      (hne3 s0 (List.mem_cons_self _ _))
      (fun x hx => hne3 x (List.mem_cons_of_mem _ hx))
      ?fuel ?bnd]
    case fuel =>
      have hlen := stagedTexts_len (s0 :: rest)
      simp only [List.map_cons, List.sum_cons] at hlen
      omega
    case bnd =>
      intro b hb
      apply hb255
      rw [← hbounds2]
      exact hb
    have h1 : ([] : List SeRecipe) ++ s0 ++ rest.join = sp.path.recipes := by
      rw [List.nil_append, ← hjoin2]
      rfl
    have h2 : ([] : List Nat)
        ++ pushedBounds (([] : List SeRecipe).length + s0.length) rest = sp.stages := by
      rw [List.nil_append, ← hbounds2]
      rfl
    rw [h1, h2]

--
--  Claim C3.
--

/-- The zero-recipe path `EL -> EL` — exactly the shape `solve` returns
when source equals target. -/
def pC3 : PathSE := ⟨SSet.ofList [0, 2], SSet.ofList [0, 2], 1, SSet.empty, []⟩

/-- C3, counterexample.  The trivial zero-recipe path displays as
`"EL -> EL"` (no `"  =>  "` marker, since the marker is emitted as the
first recipe's separator), and parsing that string fails with
`InvalidHead MissingEnd` instead of returning the path: the round-trip
`parse(display(x)) == x` does not hold for zero-recipe paths, which the
claim explicitly includes. -/
theorem c3_counterexample :
    dispPath pC3 = ['E', 'L', ' ', '-', '>', ' ', 'E', 'L'] ∧
    parsePath (dispPath pC3) = some (.error (.InvalidHead .MissingEnd)) :=
  ⟨rfl, rfl⟩

/-- A path exercising the count and catalysts clauses: `EO -> GL x3 + P`
with three recipes. -/
def pC3W : PathSE :=
  ⟨SSet.ofList [0, 3], SSet.ofList [1, 2], 3, SSet.ofList [4], [.EO, .LO, .EO]⟩

/-- C3, amended: `parse(display(x)) == x` holds for every `Path` whose
source and target are nonempty, whose count is a nonzero `u8`, and which
has at least one recipe; and for every `StagedPath` whose path
additionally satisfies those conditions and whose stage boundaries are
strictly increasing `u8` values strictly between zero and the recipe
count.  (The zero-recipe case of the claim is refuted by
`c3_counterexample`.) -/
theorem c3_theorem (p : PathSE) (sp : StagedPathSE)
    (hps : p.source.len ≠ 0) (hpt : p.target.len ≠ 0) (hpc1 : 1 ≤ p.count)
    (hpc2 : p.count ≤ 255) (hpr : p.recipes ≠ [])
    (hss : sp.path.source.len ≠ 0) (hst : sp.path.target.len ≠ 0)
    (hsc1 : 1 ≤ sp.path.count) (hsc2 : sp.path.count ≤ 255)
    (hsr : sp.path.recipes ≠ [])
    (hchain : List.Chain' (· < ·) (0 :: sp.stages))
    (hblt : ∀ b ∈ sp.stages, b < sp.path.recipes.length)
    (hb255 : ∀ b ∈ sp.stages, b ≤ 255) :
    parsePath (dispPath p) = some (.ok p)
      ∧ parseStagedPath (dispStagedPath sp) = some (.ok sp) :=
  ⟨parsePath_roundtrip p hps hpt hpc1 hpc2 hpr,
   parseStagedPath_roundtrip sp hss hst hsc1 hsc2 hsr hchain hblt hb255⟩

/-- C3, witness for the amended theorem: the round-trip holds for the
concrete path `pC3W` (count 3, catalysts `P`) and the concrete two-stage
staged path `spC6`. -/
theorem c3_theorem_witness :
    parsePath (dispPath pC3W) = some (.ok pC3W)
      ∧ parseStagedPath (dispStagedPath spC6) = some (.ok spC6) :=
  c3_theorem pC3W spC6 (by decide) (by decide) (by decide) (by decide) (by decide)
    (by decide) (by decide) (by decide) (by decide) (by decide)
    (by rw [show (0 :: spC6.stages) = [0, 2] from rfl]
        exact List.chain'_pair.2 (by decide))
    (by decide) (by decide)

--
--  Claim C1: solver soundness against the verifier.
--

theorem smul_one (s : SSet) : s.smul 1 = s := by
  funext i
  show s i * 1 = s i
  omega

theorem knownRecipe_folding {rs : RecipeSet} {g : Folding} (h : g ∈ rs.foldings) :
    knownRecipe rs (.folding g) = true := by
  simp only [knownRecipe, List.any_eq_true, decide_eq_true_eq]
  exact ⟨g, h, rfl⟩

theorem knownRecipe_inversion {rs : RecipeSet} {v : Inversion} (h : v ∈ rs.inversions) :
    knownRecipe rs (.inversion v) = true := by
  simp only [knownRecipe, List.any_eq_true, decide_eq_true_eq]
  exact ⟨v, h, rfl⟩

/-- Replaying a successful prefix continues into the suffix. -/
theorem replayFrom_append_ok : ∀ (l1 : List Recipe) (i : Nat) (s m : SSet),
    replayFrom i s l1 = .ok m →
    ∀ l2, replayFrom i s (l1 ++ l2) = replayFrom (i + l1.length) m l2 := by
  intro l1
  induction l1 with
  | nil =>
    intro i s m h l2
    have hm := Except.ok.inj h
    subst hm
    simp [replayFrom]
  | cons r rest ih =>
    intro i s m h l2
    by_cases hb : r.input.subsetOf s = true
    · simp only [replayFrom, hb, if_true] at h
      show replayFrom i s (r :: (rest ++ l2)) = _
      simp only [replayFrom, hb, if_true]
      rw [ih (i + 1) (s - r.input + r.output) m h l2]
      have hidx : i + 1 + rest.length = i + (r :: rest).length := by
        simp only [List.length_cons]
        omega
      rw [hidx]
    · have hb2 : r.input.subsetOf s = false := by
        cases hx : r.input.subsetOf s
        · rfl
        · exact absurd hx hb
      simp only [replayFrom, hb2, if_false] at h
      exact Except.noConfusion h

theorem containsM_iff {m : FMap} {k : SSet} : containsM m k = true ↔ ∃ f, (k, f) ∈ m := by
  simp only [containsM, List.any_eq_true, decide_eq_true_eq]
  constructor
  · rintro ⟨e, hm, he⟩
    refine ⟨e.2, ?_⟩
    rw [show (k, e.2) = e from by rw [← he]]
    exact hm
  · rintro ⟨f, hm⟩
    exact ⟨(k, f), hm, rfl⟩

theorem lookupM_mem {m : FMap} {k : SSet} {f : Folding} (h : lookupM m k = some f) :
    (k, f) ∈ m := by
  unfold lookupM at h
  cases hf : m.find? fun e => decide (e.1 = k) with
  | none => rw [hf] at h; exact Option.noConfusion h
  | some e =>
    rw [hf] at h
    have he := Option.some.inj h
    have hmem := List.mem_of_find?_eq_some hf
    have hpred := List.find?_some hf
    have hk : e.1 = k := of_decide_eq_true hpred
    rw [← he, ← hk]
    simpa using hmem

/-- Every entry the forward round produces records a frontier input, an
enumerated folding applicable to it, and the resulting state. -/
theorem foldStepF_mem {rs : RecipeSet} {known : FMap} {inputs : List SSet} :
    ∀ e ∈ foldStepF rs known inputs, ∃ input ∈ inputs, ∃ g ∈ rs.foldings,
      SSet.Subset g.inp input ∧ e = (input - g.inp + g.out, g) := by
  have hinner : ∀ (input : SSet), input ∈ inputs →
      ∀ (fl : List Folding), (∀ g ∈ fl, g ∈ rs.foldings) → ∀ (acc : FMap),
      (∀ e ∈ acc, ∃ x ∈ inputs, ∃ g ∈ rs.foldings,
        SSet.Subset g.inp x ∧ e = (x - g.inp + g.out, g)) →
      ∀ e ∈ fl.foldl
        (fun outputs folding =>
          if folding.inp.subsetOf input then
            let output := input - folding.inp + folding.out
            if memB inputs output || containsM outputs output
                || containsM known output then
              outputs
            else outputs ++ [(output, folding)]
          else outputs)
        acc,
      ∃ x ∈ inputs, ∃ g ∈ rs.foldings, SSet.Subset g.inp x ∧ e = (x - g.inp + g.out, g) := by
    intro input hin fl
    induction fl with
    | nil => intro _ acc hacc e he; exact hacc e he
    | cons g gs ih =>
      intro hfl acc hacc e he
      rw [List.foldl_cons] at he
      refine ih (fun y hy => hfl y (List.mem_cons_of_mem _ hy)) _ ?_ e he
      intro e2 he2
      by_cases hsub : g.inp.subsetOf input = true
      · rw [if_pos hsub] at he2
        by_cases hskip : (memB inputs (input - g.inp + g.out)
            || containsM acc (input - g.inp + g.out)
            || containsM known (input - g.inp + g.out)) = true
        · rw [show (let output := input - g.inp + g.out
              if memB inputs output || containsM acc output
                  || containsM known output then acc
              else acc ++ [(output, g)]) = acc from by rw [if_pos hskip]] at he2
          exact hacc e2 he2
        · rw [show (let output := input - g.inp + g.out
              if memB inputs output || containsM acc output
                  || containsM known output then acc
              else acc ++ [(output, g)])
              = acc ++ [(input - g.inp + g.out, g)] from by
            rw [if_neg hskip]] at he2
          rcases List.mem_append.1 he2 with h | h
          · exact hacc e2 h
          · rcases List.mem_singleton.1 h with rfl
            exact ⟨input, hin, g, hfl g (List.mem_cons_self _ _),
              SSet.subsetOf_iff.1 hsub, rfl⟩
      · rw [if_neg hsub] at he2
        exact hacc e2 he2
  have houter : ∀ (l : List SSet), (∀ x ∈ l, x ∈ inputs) → ∀ (acc : FMap),
      (∀ e ∈ acc, ∃ x ∈ inputs, ∃ g ∈ rs.foldings,
        SSet.Subset g.inp x ∧ e = (x - g.inp + g.out, g)) →
      ∀ e ∈ l.foldl
        (fun outputs input =>
          rs.foldings.foldl
            (fun outputs folding =>
              if folding.inp.subsetOf input then
                let output := input - folding.inp + folding.out
                if memB inputs output || containsM outputs output
                    || containsM known output then
                  outputs
                else outputs ++ [(output, folding)]
              else outputs)
            outputs)
        acc,
      ∃ x ∈ inputs, ∃ g ∈ rs.foldings, SSet.Subset g.inp x ∧ e = (x - g.inp + g.out, g) := by
    intro l
    induction l with
    | nil => intro _ acc hacc e he; exact hacc e he
    | cons x xs ih =>
      intro hl acc hacc e he
      rw [List.foldl_cons] at he
      refine ih (fun y hy => hl y (List.mem_cons_of_mem _ hy)) _ ?_ e he
      exact hinner x (hl x (List.mem_cons_self _ _)) rs.foldings (fun g hg => hg) acc hacc
  exact houter inputs (fun x hx => hx) [] (by simp)

/-- Every entry the backward round produces records a frontier input, an
enumerated folding whose output it contains, and the resulting state. -/
theorem foldStepB_mem {rs : RecipeSet} {known : FMap} {inputs : List SSet} :
    ∀ e ∈ foldStepB rs known inputs, ∃ input ∈ inputs, ∃ g ∈ rs.foldings,
      SSet.Subset g.out input ∧ e = (input - g.out + g.inp, g) := by
  have hinner : ∀ (input : SSet), input ∈ inputs →
      ∀ (fl : List Folding), (∀ g ∈ fl, g ∈ rs.foldings) → ∀ (acc : FMap),
      (∀ e ∈ acc, ∃ x ∈ inputs, ∃ g ∈ rs.foldings,
        SSet.Subset g.out x ∧ e = (x - g.out + g.inp, g)) →
      ∀ e ∈ fl.foldl
        (fun outputs folding =>
          if folding.out.subsetOf input then
            let output := input - folding.out + folding.inp
            if memB inputs output || containsM outputs output
                || containsM known output then
              outputs
            else outputs ++ [(output, folding)]
          else outputs)
        acc,
      ∃ x ∈ inputs, ∃ g ∈ rs.foldings, SSet.Subset g.out x ∧ e = (x - g.out + g.inp, g) := by
    intro input hin fl
    induction fl with
    | nil => intro _ acc hacc e he; exact hacc e he
    | cons g gs ih =>
      intro hfl acc hacc e he
      rw [List.foldl_cons] at he
      refine ih (fun y hy => hfl y (List.mem_cons_of_mem _ hy)) _ ?_ e he
      intro e2 he2
      by_cases hsub : g.out.subsetOf input = true
      · rw [if_pos hsub] at he2
        by_cases hskip : (memB inputs (input - g.out + g.inp)
            || containsM acc (input - g.out + g.inp)
            || containsM known (input - g.out + g.inp)) = true
        · rw [show (let output := input - g.out + g.inp
              if memB inputs output || containsM acc output
                  || containsM known output then acc
              else acc ++ [(output, g)]) = acc from by rw [if_pos hskip]] at he2
          exact hacc e2 he2
        · rw [show (let output := input - g.out + g.inp
              if memB inputs output || containsM acc output
                  || containsM known output then acc
              else acc ++ [(output, g)])
              = acc ++ [(input - g.out + g.inp, g)] from by
            rw [if_neg hskip]] at he2
          rcases List.mem_append.1 he2 with h | h
          · exact hacc e2 h
          · rcases List.mem_singleton.1 h with rfl
            exact ⟨input, hin, g, hfl g (List.mem_cons_self _ _),
              SSet.subsetOf_iff.1 hsub, rfl⟩
      · rw [if_neg hsub] at he2
        exact hacc e2 he2
  have houter : ∀ (l : List SSet), (∀ x ∈ l, x ∈ inputs) → ∀ (acc : FMap),
      (∀ e ∈ acc, ∃ x ∈ inputs, ∃ g ∈ rs.foldings,
        SSet.Subset g.out x ∧ e = (x - g.out + g.inp, g)) →
      ∀ e ∈ l.foldl
        (fun outputs input =>
          rs.foldings.foldl
            (fun outputs folding =>
              if folding.out.subsetOf input then
                let output := input - folding.out + folding.inp
                if memB inputs output || containsM outputs output
                    || containsM known output then
                  outputs
                else outputs ++ [(output, folding)]
              else outputs)
            outputs)
        acc,
      ∃ x ∈ inputs, ∃ g ∈ rs.foldings, SSet.Subset g.out x ∧ e = (x - g.out + g.inp, g) := by
    intro l
    induction l with
    | nil => intro _ acc hacc e he; exact hacc e he
    | cons x xs ih =>
      intro hl acc hacc e he
      rw [List.foldl_cons] at he
      refine ih (fun y hy => hl y (List.mem_cons_of_mem _ hy)) _ ?_ e he
      exact hinner x (hl x (List.mem_cons_self _ _)) rs.foldings (fun g hg => hg) acc hacc
  exact houter inputs (fun x hx => hx) [] (by simp)

theorem sub_add_sub_cancel {x a : SSet} (b : SSet) (h : SSet.Subset a x) :
    x - a + b - b + a = x := by
  funext i
  have := h i
  show x i - a i + b i - b i + a i = x i
  omega

theorem subset_sub_add (a x b : SSet) : SSet.Subset a (x - b + a) := by
  intro i
  show a i ≤ x i - b i + a i
  omega

/-- Invariant of the forward frontier map: every recorded state was reached
from the origin or from another recorded state by one applicable enumerated
folding, and the stitch walk's computed predecessor recovers that source
state. -/
def MapInvF (rs : RecipeSet) (start : SSet) (m : FMap) : Prop :=
  ∀ e ∈ m, e.2 ∈ rs.foldings ∧
    SSet.Subset e.2.inp (e.1 - e.2.out + e.2.inp) ∧
    (e.1 - e.2.out + e.2.inp) - e.2.inp + e.2.out = e.1 ∧
    (e.1 - e.2.out + e.2.inp = start ∨ ∃ f2, (e.1 - e.2.out + e.2.inp, f2) ∈ m)

/-- Invariant of the backward frontier map: every recorded state leads, by
one applicable enumerated folding, to the target origin or to another
recorded state. -/
def MapInvB (rs : RecipeSet) (tstart : SSet) (m : FMap) : Prop :=
  ∀ e ∈ m, e.2 ∈ rs.foldings ∧
    SSet.Subset e.2.inp e.1 ∧
    (e.1 - e.2.inp + e.2.out = tstart ∨ ∃ f2, (e.1 - e.2.inp + e.2.out, f2) ∈ m)

theorem lookupM_none {m : FMap} {k : SSet} (h : lookupM m k = none) :
    ∀ f, (k, f) ∉ m := by
  intro f hf
  unfold lookupM at h
  cases hfind : m.find? fun e => decide (e.1 = k) with
  | some e => rw [hfind] at h; exact Option.noConfusion h
  | none =>
    have := List.find?_eq_none.1 hfind (k, f) hf
    simp at this

theorem mapInvF_extend (rs : RecipeSet) (start : SSet) (m : FMap) (inputs : List SSet)
    (hinv : MapInvF rs start m)
    (hfront : ∀ x ∈ inputs, x = start ∨ ∃ f, (x, f) ∈ m) :
    MapInvF rs start (m ++ foldStepF rs m inputs) := by
  intro e he
  rcases List.mem_append.1 he with h | h
  · obtain ⟨h1, h2, h3, h4⟩ := hinv e h
    refine ⟨h1, h2, h3, ?_⟩
    rcases h4 with h4 | ⟨f2, hf2⟩
    · exact Or.inl h4
    · exact Or.inr ⟨f2, List.mem_append_left _ hf2⟩
  · obtain ⟨input, hin, g, hg, hsub, he2⟩ := foldStepF_mem e h
    subst he2
    have hprev : (input - g.inp + g.out) - g.out + g.inp = input :=
      sub_add_sub_cancel g.out hsub
    refine ⟨hg, ?_, ?_, ?_⟩
    · show SSet.Subset g.inp (input - g.inp + g.out - g.out + g.inp)
      rw [hprev]
      exact hsub
    · show input - g.inp + g.out - g.out + g.inp - g.inp + g.out = input - g.inp + g.out
      rw [hprev]
    · rcases hfront input hin with h1 | ⟨f2, hf2⟩
      · left
        show input - g.inp + g.out - g.out + g.inp = start
        rw [hprev, h1]
      · right
        refine ⟨f2, ?_⟩
        show (input - g.inp + g.out - g.out + g.inp, f2) ∈ m ++ _
        rw [hprev]
        exact List.mem_append_left _ hf2

theorem mapInvB_extend (rs : RecipeSet) (tstart : SSet) (m : FMap) (inputs : List SSet)
    (hinv : MapInvB rs tstart m)
    (hfront : ∀ x ∈ inputs, x = tstart ∨ ∃ f, (x, f) ∈ m) :
    MapInvB rs tstart (m ++ foldStepB rs m inputs) := by
  intro e he
  rcases List.mem_append.1 he with h | h
  · obtain ⟨h1, h2, h3⟩ := hinv e h
    refine ⟨h1, h2, ?_⟩
    rcases h3 with h3 | ⟨f2, hf2⟩
    · exact Or.inl h3
    · exact Or.inr ⟨f2, List.mem_append_left _ hf2⟩
  · obtain ⟨input, hin, g, hg, hsub, he2⟩ := foldStepB_mem e h
    subst he2
    have hnext : (input - g.out + g.inp) - g.inp + g.out = input :=
      sub_add_sub_cancel g.inp hsub
    refine ⟨hg, subset_sub_add _ _ _, ?_⟩
    rcases hfront input hin with h1 | ⟨f2, hf2⟩
    · left
      show input - g.out + g.inp - g.inp + g.out = tstart
      rw [hnext, h1]
    · right
      refine ⟨f2, ?_⟩
      show (input - g.out + g.inp - g.inp + g.out, f2) ∈ m ++ _
      rw [hnext]
      exact List.mem_append_left _ hf2

theorem frontier_next_F (rs : RecipeSet) (m : FMap) (inputs : List SSet) :
    ∀ x ∈ (foldStepF rs m inputs).map (fun e => e.1),
      ∃ f, (x, f) ∈ m ++ foldStepF rs m inputs := by
  intro x hx
  rcases List.mem_map.1 hx with ⟨e, he, rfl⟩
  exact ⟨e.2, List.mem_append_right _ (by simpa using he)⟩

theorem frontier_next_B (rs : RecipeSet) (m : FMap) (inputs : List SSet) :
    ∀ x ∈ (foldStepB rs m inputs).map (fun e => e.1),
      ∃ f, (x, f) ∈ m ++ foldStepB rs m inputs := by
  intro x hx
  rcases List.mem_map.1 hx with ⟨e, he, rfl⟩
  exact ⟨e.2, List.mem_append_right _ (by simpa using he)⟩

/-- The forward stitch walk: whenever it returns a chain, replaying the
reversed chain from the search origin reaches the visited state. -/
theorem stitchF_spec (rs : RecipeSet) (start : SSet) :
    ∀ (fuel : Nat) (m : FMap), MapInvF rs start m →
    ∀ (step : SSet), (step = start ∨ ∃ f, (step, f) ∈ m) →
    ∀ L, stitchForwardAux fuel m step = some L →
    (∀ g ∈ L, g ∈ rs.foldings) ∧
    ∀ i, replayFrom i start (L.reverse.map .folding) = .ok step := by
  intro fuel
  induction fuel with
  | zero => intro m _ step _ L h; exact Option.noConfusion h
  | succ fuel ih =>
    intro m hinv step hstep L h
    rw [show stitchForwardAux (fuel + 1) m step
        = (match lookupM m step with
           | none => some []
           | some f => (stitchForwardAux fuel m (step - f.out + f.inp)).map
               fun l => f :: l) from rfl] at h
    cases hl : lookupM m step with
    | none =>
      rw [hl] at h
      have hL := Option.some.inj h
      subst hL
      have hstart : step = start := by
        rcases hstep with h1 | ⟨f, hf⟩
        · exact h1
        · exact absurd hf (lookupM_none hl f)
      subst hstart
      exact ⟨by simp, fun i => rfl⟩
    | some f =>
      rw [hl] at h
      have h2 : (stitchForwardAux fuel m (step - f.out + f.inp)).map
          (fun l => f :: l) = some L := h
      cases hrec : stitchForwardAux fuel m (step - f.out + f.inp) with
      | none => rw [hrec] at h2; exact Option.noConfusion h2
      | some L2 =>
        rw [hrec] at h2
        have hL : f :: L2 = L := by simpa using h2
        subst hL
        have hment := lookupM_mem hl
        obtain ⟨hgm, hsub, hstepEq, hprev⟩ := hinv (step, f) hment
        obtain ⟨hLg, hrep⟩ := ih m hinv (step - f.out + f.inp) hprev L2 hrec
        constructor
        · intro g hg
          rcases List.mem_cons.1 hg with rfl | hg2
          · exact hgm
          · exact hLg g hg2
        · intro i
          rw [List.reverse_cons, List.map_append]
          rw [replayFrom_append_ok _ i start _ (hrep i) _]
          have hb : (Recipe.folding f).input.subsetOf (step - f.out + f.inp) = true :=
            SSet.subsetOf_iff.2 hsub
          simp only [List.map_cons, List.map_nil, replayFrom, hb, if_true]
          show Except.ok ((step - f.out + f.inp) - f.inp + f.out) = Except.ok step
          rw [hstepEq]

/-- The backward stitch walk: whenever it returns a chain, replaying the
chain from the visited state reaches the target origin. -/
theorem stitchB_spec (rs : RecipeSet) (tstart : SSet) :
    ∀ (fuel : Nat) (m : FMap), MapInvB rs tstart m →
    ∀ (step : SSet), (step = tstart ∨ ∃ f, (step, f) ∈ m) →
    ∀ L, stitchBackwardAux fuel m step = some L →
    (∀ g ∈ L, g ∈ rs.foldings) ∧
    ∀ i, replayFrom i step (L.map .folding) = .ok tstart := by
  intro fuel
  induction fuel with
  | zero => intro m _ step _ L h; exact Option.noConfusion h
  | succ fuel ih =>
    intro m hinv step hstep L h
    rw [show stitchBackwardAux (fuel + 1) m step
        = (match lookupM m step with
           | none => some []
           | some f => (stitchBackwardAux fuel m (step - f.inp + f.out)).map
               fun l => f :: l) from rfl] at h
    cases hl : lookupM m step with
    | none =>
      rw [hl] at h
      have hL := Option.some.inj h
      subst hL
      have hstart : step = tstart := by
        rcases hstep with h1 | ⟨f, hf⟩
        · exact h1
        · exact absurd hf (lookupM_none hl f)
      subst hstart
      exact ⟨by simp, fun i => rfl⟩
    | some f =>
      rw [hl] at h
      have h2 : (stitchBackwardAux fuel m (step - f.inp + f.out)).map
          (fun l => f :: l) = some L := h
      cases hrec : stitchBackwardAux fuel m (step - f.inp + f.out) with
      | none => rw [hrec] at h2; exact Option.noConfusion h2
      | some L2 =>
        rw [hrec] at h2
        have hL : f :: L2 = L := by simpa using h2
        subst hL
        have hment := lookupM_mem hl
        obtain ⟨hgm, hsub, hnext⟩ := hinv (step, f) hment
        obtain ⟨hLg, hrep⟩ := ih m hinv (step - f.inp + f.out) hnext L2 hrec
        constructor
        · intro g hg
          rcases List.mem_cons.1 hg with rfl | hg2
          · exact hgm
          · exact hLg g hg2
        · intro i
          have hb : (Recipe.folding f).input.subsetOf step = true :=
            SSet.subsetOf_iff.2 hsub
          simp only [List.map_cons, replayFrom, hb, if_true]
          exact hrep (i + 1)

/-- What holds of every path a fold searcher emits: head fields fixed by
the searcher, only enumerated foldings, and a replay from
`source + sourceCatalysts` ending exactly at `target + targetCatalysts`. -/
def FoldPathOk (fs : FoldSearcher) (p : PathO) : Prop :=
  p.source = fs.source ∧ p.target = fs.target ∧ p.count = 1 ∧
  p.catalysts = fs.sourceCatalysts ∧
  (∀ r ∈ p.recipes, ∃ g ∈ fs.recipes.foldings, r = .folding g) ∧
  ∀ i, replayFrom i (fs.source + fs.sourceCatalysts) p.recipes
    = .ok (fs.target + fs.targetCatalysts)

theorem stitchOne_spec (fs : FoldSearcher) (forward backward : FMap) (c : SSet) (p : PathO)
    (hF : MapInvF fs.recipes (fs.source + fs.sourceCatalysts) forward)
    (hB : MapInvB fs.recipes (fs.target + fs.targetCatalysts) backward)
    (hcF : ∃ f, (c, f) ∈ forward) (hcB : ∃ f, (c, f) ∈ backward)
    (h : stitchOne fs forward backward c = some p) :
    FoldPathOk fs p := by
  unfold stitchOne at h
  cases hfw : stitchForwardAux (forward.length + 1) forward c with
  | none =>
    simp only [hfw, Option.bind_eq_bind, Option.none_bind] at h
    exact Option.noConfusion h
  | some fw =>
    simp only [hfw, Option.bind_eq_bind, Option.some_bind] at h
    cases hbw : stitchBackwardAux (backward.length + 1) backward c with
    | none =>
      simp only [hbw, Option.none_bind] at h
      exact Option.noConfusion h
    | some bw =>
      simp only [hbw, Option.some_bind, Option.pure_def, Option.some.injEq] at h
      subst h
      obtain ⟨hfg, hfrep⟩ :=
        stitchF_spec fs.recipes (fs.source + fs.sourceCatalysts)
          (forward.length + 1) forward hF c (Or.inr hcF) fw hfw
      obtain ⟨hbg, hbrep⟩ :=
        stitchB_spec fs.recipes (fs.target + fs.targetCatalysts)
          (backward.length + 1) backward hB c (Or.inr hcB) bw hbw
      refine ⟨rfl, rfl, rfl, rfl, ?_, ?_⟩
      · intro r hr
        rcases List.mem_append.1 hr with h1 | h1
        · rcases List.mem_map.1 h1 with ⟨g, hg, rfl⟩
          exact ⟨g, hfg g (List.mem_reverse.1 hg), rfl⟩
        · rcases List.mem_map.1 h1 with ⟨g, hg, rfl⟩
          exact ⟨g, hbg g hg, rfl⟩
      · intro i
        show replayFrom i (fs.source + fs.sourceCatalysts)
          ((fw.reverse.map .folding) ++ (bw.map .folding)) = _
        rw [replayFrom_append_ok _ i _ _ (hfrep i) _]
        exact hbrep _

theorem stitch_spec (fs : FoldSearcher) (forward backward : FMap)
    (hF : MapInvF fs.recipes (fs.source + fs.sourceCatalysts) forward)
    (hB : MapInvB fs.recipes (fs.target + fs.targetCatalysts) backward) :
    ∀ (cands : List SSet) (ps : List PathO),
    stitch fs forward backward cands = some ps →
    ∀ p ∈ ps, FoldPathOk fs p := by
  intro cands
  induction cands with
  | nil =>
    intro ps h p hp
    have := Option.some.inj h
    subst this
    exact absurd hp (List.not_mem_nil p)
  | cons c rest ih =>
    intro ps h p hp
    by_cases hc : (containsM forward c && containsM backward c) = true
    · rw [show stitch fs forward backward (c :: rest)
          = (if containsM forward c && containsM backward c then
              match stitchOne fs forward backward c with
              | none => none
              | some p =>
                match stitch fs forward backward rest with
                | none => none
                | some ps => some (p :: ps)
            else stitch fs forward backward rest) from rfl] at h
      rw [if_pos hc] at h
      cases hone : stitchOne fs forward backward c with
      | none => rw [hone] at h; exact Option.noConfusion h
      | some p1 =>
        rw [hone] at h
        have h2 : (match stitch fs forward backward rest with
          | none => none
          | some ps2 => some (p1 :: ps2)) = some ps := h
        cases hrest : stitch fs forward backward rest with
        | none => rw [hrest] at h2; exact Option.noConfusion h2
        | some ps2 =>
          rw [hrest] at h2
          have h3 : p1 :: ps2 = ps := Option.some.inj h2
          subst h3
          rcases List.mem_cons.1 hp with rfl | hp2
          · have hcc : containsM forward c = true ∧ containsM backward c = true := by
              simpa using hc
            exact stitchOne_spec fs forward backward c p hF hB
              (containsM_iff.1 hcc.1) (containsM_iff.1 hcc.2) hone
          · exact ih ps2 hrest p hp2
    · rw [show stitch fs forward backward (c :: rest)
          = (if containsM forward c && containsM backward c then
              match stitchOne fs forward backward c with
              | none => none
              | some p =>
                match stitch fs forward backward rest with
                | none => none
                | some ps => some (p :: ps)
            else stitch fs forward backward rest) from rfl] at h
      rw [if_neg hc] at h
      exact ih ps h p hp

theorem searchLoop_spec (fs : FoldSearcher) :
    ∀ (n : Nat) (forward backward : FMap) (inF inB : List SSet) (paths : List PathO),
    MapInvF fs.recipes (fs.source + fs.sourceCatalysts) forward →
    MapInvB fs.recipes (fs.target + fs.targetCatalysts) backward →
    (∀ x ∈ inF, x = fs.source + fs.sourceCatalysts ∨ ∃ f, (x, f) ∈ forward) →
    (∀ x ∈ inB, x = fs.target + fs.targetCatalysts ∨ ∃ f, (x, f) ∈ backward) →
    searchLoop fs n forward backward inF inB = some (.ok paths) →
    ∀ p ∈ paths, FoldPathOk fs p := by
  intro n
  induction n with
  | zero =>
    intro forward backward inF inB paths _ _ _ _ h
    simp only [searchLoop] at h
    by_cases hc : (inF.isEmpty && inB.isEmpty) = true
    · rw [if_pos hc] at h
      exact absurd (Option.some.inj h) (by simp)
    · rw [if_neg hc] at h
      exact absurd (Option.some.inj h) (by simp)
  | succ n ih =>
    intro forward backward inF inB paths hF hB hfF hfB h
    simp only [searchLoop] at h
    by_cases hc : (inF.isEmpty && inB.isEmpty) = true
    · rw [if_pos hc] at h
      exact absurd (Option.some.inj h) (by simp)
    · rw [if_neg hc] at h
      have hF2 := mapInvF_extend fs.recipes _ forward inF hF hfF
      by_cases hany1 : ((foldStepF fs.recipes forward inF).any
          fun e => containsM backward e.1) = true
      · rw [if_pos hany1] at h
        cases hst : stitch fs (forward ++ foldStepF fs.recipes forward inF) backward
            ((foldStepF fs.recipes forward inF).map (fun e => e.1)) with
        | none => rw [hst] at h; exact Option.noConfusion h
        | some ps =>
          rw [hst] at h
          have hps : ps = paths := by
            have := Option.some.inj h
            exact Except.ok.inj this
          subst hps
          exact stitch_spec fs _ backward hF2 hB _ ps hst
      · rw [if_neg hany1] at h
        have hB2 := mapInvB_extend fs.recipes _ backward inB hB hfB
        by_cases hany2 : ((foldStepB fs.recipes backward inB).any
            fun e => containsM (forward ++ foldStepF fs.recipes forward inF) e.1) = true
        · rw [if_pos hany2] at h
          cases hst : stitch fs (forward ++ foldStepF fs.recipes forward inF)
              (backward ++ foldStepB fs.recipes backward inB)
              ((foldStepB fs.recipes backward inB).map (fun e => e.1)) with
          | none => rw [hst] at h; exact Option.noConfusion h
          | some ps =>
            rw [hst] at h
            have hps : ps = paths := by
              have := Option.some.inj h
              exact Except.ok.inj this
            subst hps
            exact stitch_spec fs _ _ hF2 hB2 _ ps hst
        · rw [if_neg hany2] at h
          exact ih (forward ++ foldStepF fs.recipes forward inF)
            (backward ++ foldStepB fs.recipes backward inB)
            ((foldStepF fs.recipes forward inF).map (fun e => e.1))
            ((foldStepB fs.recipes backward inB).map (fun e => e.1))
            paths hF2 hB2
            (fun x hx => Or.inr (frontier_next_F fs.recipes forward inF x hx))
            (fun x hx => Or.inr (frontier_next_B fs.recipes backward inB x hx))
            h

theorem foldSearcher_spec (fs : FoldSearcher) (paths : List PathO)
    (h : fs.solve = some (.ok paths)) :
    ∀ p ∈ paths, FoldPathOk fs p := by
  unfold FoldSearcher.solve at h
  by_cases hbal : (fs.source.countNegatives = fs.target.countNegatives
      ∧ fs.source.countPositives = fs.target.countPositives)
  · rw [if_pos hbal] at h
    refine searchLoop_spec fs _ [] [] _ _ paths
      (fun e he => absurd he (List.not_mem_nil e))
      (fun e he => absurd he (List.not_mem_nil e)) ?_ ?_ h
    · intro x hx
      exact Or.inl (List.mem_singleton.1 hx)
    · intro x hx
      exact Or.inl (List.mem_singleton.1 hx)
  · rw [if_neg hbal] at h
    exact Option.noConfusion h

/-- What `verify` needs of a path: every recipe enumerated, and a replay
from `count*source + catalysts` ending exactly at `count*target +
catalysts`. -/
def PathVerifies (rs : RecipeSet) (p : PathO) : Prop :=
  (∀ r ∈ p.recipes, knownRecipe rs r = true) ∧
  ∀ i, replayFrom i (p.source.smul p.count + p.catalysts) p.recipes
    = .ok (p.target.smul p.count + p.catalysts)

theorem sset_add_sub_cancel_left (a b : SSet) : (a + b) - a = b := by
  funext i
  show a i + b i - a i = b i
  omega

theorem verify_ok_of {rs : RecipeSet} {p : PathO} (h : PathVerifies rs p) :
    verify rs p = .ok () := by
  obtain ⟨hk, hr⟩ := h
  have hfind : findUnknown rs 0 p.recipes = none :=
    (findUnknown_eq_none_iff rs p.recipes 0).2 hk
  have hsub : (p.target.smul p.count).subsetOf
      (p.target.smul p.count + p.catalysts) = true :=
    SSet.subsetOf_iff.2 (subset_add_right _ _)
  simp [verify, hfind, hr 0, hsub, sset_add_sub_cancel_left]

theorem collectResults_mem :
    ∀ (rsl : List TaskResult) (le : Option ResolutionError) (paths : List PathO)
      (le2 : Option ResolutionError),
    collectResults rsl le = some (paths, le2) →
    ∀ p ∈ paths, ∃ ps, some (.ok ps) ∈ rsl ∧ p ∈ ps := by
  intro rsl
  induction rsl with
  | nil =>
    intro le paths le2 h p hp
    have h2 : ([], le) = ((paths, le2) : List PathO × Option ResolutionError) :=
      Option.some.inj h
    have h3 : ([] : List PathO) = paths := congrArg Prod.fst h2
    subst h3
    exact absurd hp (List.not_mem_nil p)
  | cons r rest ih =>
    intro le paths le2 h p hp
    cases r with
    | none => exact Option.noConfusion h
    | some v =>
      cases v with
      | ok ps =>
        have h2 : (match collectResults rest le with
          | none => none
          | some (acc, le3) => some (ps ++ acc, le3)) = some (paths, le2) := h
        cases hrec : collectResults rest le with
        | none => rw [hrec] at h2; exact Option.noConfusion h2
        | some pr =>
          obtain ⟨acc, le3⟩ := pr
          rw [hrec] at h2
          have h3 : (ps ++ acc, le3) = ((paths, le2) : List PathO × Option ResolutionError) :=
            Option.some.inj h2
          have hps : ps ++ acc = paths := congrArg Prod.fst h3
          subst hps
          rcases List.mem_append.1 hp with h4 | h4
          · exact ⟨ps, List.mem_cons_self _ _, h4⟩
          · obtain ⟨qs, hqs, hmem⟩ := ih le acc le3 hrec p h4
            exact ⟨qs, List.mem_cons_of_mem _ hqs, hmem⟩
      | error e =>
        have h2 : collectResults rest
            (if e.isDefinitive || e = .OutsideRecipes then some e else le)
            = some (paths, le2) := h
        obtain ⟨qs, hqs, hmem⟩ := ih _ paths le2 h2 p hp
        exact ⟨qs, List.mem_cons_of_mem _ hqs, hmem⟩

theorem sizesLoop_mem (genTasks : Nat → List (Unit → TaskResult)) :
    ∀ (sizes : List Nat) (le : Option ResolutionError) (paths : List PathO),
    sizesLoop seqExecute genTasks sizes le = some (.ok paths) →
    ∀ p ∈ paths, ∃ i ∈ sizes, ∃ task ∈ genTasks i, ∃ ps,
      task () = some (.ok ps) ∧ p ∈ ps := by
  intro sizes
  induction sizes with
  | nil =>
    intro le paths h p hp
    exact Except.noConfusion (Option.some.inj h)
  | cons i rest ih =>
    intro le paths h p hp
    have h2 : (match collectResults (seqExecute (genTasks i)) le with
      | none => none
      | some (results, le2) =>
        if results.isEmpty then sizesLoop seqExecute genTasks rest le2
        else some (.ok results)) = some (.ok paths) := h
    cases hc : collectResults (seqExecute (genTasks i)) le with
    | none => rw [hc] at h2; exact Option.noConfusion h2
    | some pr =>
      obtain ⟨results, le2⟩ := pr
      rw [hc] at h2
      have h3 : (if results.isEmpty then sizesLoop seqExecute genTasks rest le2
          else some (.ok results)) = some (.ok paths) := h2
      by_cases hres : results.isEmpty = true
      · rw [if_pos hres] at h3
        obtain ⟨j, hj, task, htask, ps, hps, hmem⟩ := ih le2 paths h3 p hp
        exact ⟨j, List.mem_cons_of_mem _ hj, task, htask, ps, hps, hmem⟩
      · rw [if_neg hres] at h3
        have h4 : results = paths := Except.ok.inj (Option.some.inj h3)
        subst h4
        obtain ⟨ps, hin, hmem⟩ := collectResults_mem _ le results le2 hc p hp
        obtain ⟨task, htask, heq⟩ := List.mem_map.1 hin
        exact ⟨i, List.mem_cons_self _ _, task, htask, ps, heq, hmem⟩

/-- What holds of every path `solve_by_fold` emits: head fields fixed,
only enumerated foldings, and a replay from `source + catalysts` ending
exactly at `target + catalysts` (`count` is always 1 here). -/
def FoldResultOk (rs : RecipeSet) (source target : SSet) (p : PathO) : Prop :=
  p.source = source ∧ p.target = target ∧ p.count = 1 ∧
  (∀ r ∈ p.recipes, ∃ g ∈ rs.foldings, r = .folding g) ∧
  ∀ i, replayFrom i (source + p.catalysts) p.recipes = .ok (target + p.catalysts)

theorem solveByFold_spec (rs : RecipeSet) (cfg : SolverConfiguration)
    (source target : SSet) (paths : List PathO)
    (h : solveByFold seqExecute rs cfg source target = some (.ok paths)) :
    ∀ p ∈ paths, FoldResultOk rs source target p := by
  intro p hp
  unfold solveByFold at h
  cases hfind : rs.foldings.find?
      (fun f => decide (source = f.inp) && decide (target = f.out)) with
  | some folding =>
    rw [hfind] at h
    have h2 : [(⟨source, target, 1, SSet.empty, [.folding folding]⟩ : PathO)] = paths :=
      Except.ok.inj (Option.some.inj h)
    subst h2
    have hp1 : p = ⟨source, target, 1, SSet.empty, [.folding folding]⟩ :=
      List.mem_singleton.1 hp
    subst hp1
    have hmem := List.mem_of_find?_eq_some hfind
    have hprop := List.find?_some hfind
    have hsi : source = folding.inp ∧ target = folding.out := by simpa using hprop
    refine ⟨rfl, rfl, rfl, ?_, ?_⟩
    · intro r hr
      exact ⟨folding, hmem, List.mem_singleton.1 hr⟩
    · intro i
      show replayFrom i (source + SSet.empty) [.folding folding]
        = .ok (target + SSet.empty)
      obtain ⟨h1, h2⟩ := hsi
      subst h1
      subst h2
      have hsub : (Recipe.folding folding).input.subsetOf
          (folding.inp + SSet.empty) = true :=
        SSet.subsetOf_iff.2 (by
          intro j
          show folding.inp j ≤ folding.inp j + 0
          omega)
      simp only [replayFrom, hsub, if_true]
      congr 1
      funext j
      show folding.inp j + 0 - folding.inp j + folding.out j = folding.out j + 0
      omega
  | none =>
    rw [hfind] at h
    obtain ⟨i, _, task, htask, ps, hps, hmem⟩ := sizesLoop_mem _ _ _ _ h p hp
    obtain ⟨searcher, hsearch, htaskeq⟩ := List.mem_map.1 htask
    have hsolve : searcher.solve = some (.ok ps) := by
      rw [← htaskeq] at hps
      exact hps
    obtain ⟨c, _, hsrch⟩ := List.mem_map.1 hsearch
    have hfold := foldSearcher_spec searcher ps hsolve p hmem
    subst hsrch
    obtain ⟨hs, ht, hcnt, hcat, hrec, hrep⟩ := hfold
    refine ⟨hs, ht, hcnt, fun r hr => hrec r hr, ?_⟩
    intro i2
    rw [hcat]
    exact hrep i2

theorem subset_trans {a b c : SSet} (h1 : SSet.Subset a b) (h2 : SSet.Subset b c) :
    SSet.Subset a c := fun i => le_trans (h1 i) (h2 i)

theorem subset_insert (a : SSet) (i : Sph) : SSet.Subset a (a.insert i) := by
  intro j
  show a j ≤ if j = i then a j + 1 else a j
  split <;> omega

/-- Every candidate the recursive pre-inversion generator produces extends
the state it grew from. -/
theorem genPreInvRec_subset (seeds : SSet) :
    ∀ (n : Nat) (current x : SSet), x ∈ genPreInvRec seeds current n →
    SSet.Subset current x := by
  intro n
  induction n with
  | zero =>
    intro current x hx
    exact absurd hx (List.not_mem_nil x)
  | succ n ih =>
    intro current x hx
    cases n with
    | zero =>
      obtain ⟨i, _, rfl⟩ := List.mem_map.1 hx
      exact subset_insert current i
    | succ m =>
      obtain ⟨c, hc, hx2⟩ := List.mem_flatMap.1 hx
      obtain ⟨i, _, rfl⟩ := List.mem_map.1 hc
      exact subset_trans (subset_insert current i) (ih (current.insert i) x hx2)

/-- Every candidate middle state contains the inversion's input. -/
theorem genPreInversions_subset (source : SSet) (count : Nat)
    (inversion : Inversion) (x : SSet)
    (hx : x ∈ genPreInversions source count inversion) :
    SSet.Subset inversion.inp x := by
  have hx2 : x ∈ (match (source.smul count - inversion.inp).countNegatives,
      (source.smul count - inversion.inp).countPositives with
    | 0, 0 => [inversion.inp]
    | _ + 1, 0 => genPreInvRec SSet.full.negatives inversion.inp
        (source.smul count - inversion.inp).countNegatives
    | 0, _ + 1 => genPreInvRec SSet.full.positives inversion.inp
        (source.smul count - inversion.inp).countPositives
    | _ + 1, _ + 1 =>
      (genPreInvRec SSet.full.negatives inversion.inp
          (source.smul count - inversion.inp).countNegatives).flatMap fun t =>
        genPreInvRec SSet.full.positives t
          (source.smul count - inversion.inp).countPositives) := hx
  clear hx
  rename' hx2 => hx
  cases hn : (source.smul count - inversion.inp).countNegatives with
  | zero =>
    cases hp : (source.smul count - inversion.inp).countPositives with
    | zero =>
      rw [hn, hp] at hx
      have := List.mem_singleton.1 hx
      subst this
      exact subset_refl _
    | succ k =>
      rw [hn, hp] at hx
      exact genPreInvRec_subset _ _ _ x hx
  | succ k =>
    cases hp : (source.smul count - inversion.inp).countPositives with
    | zero =>
      rw [hn, hp] at hx
      exact genPreInvRec_subset _ _ _ x hx
    | succ m =>
      rw [hn, hp] at hx
      obtain ⟨t, ht, hx2⟩ := List.mem_flatMap.1 hx
      exact subset_trans (genPreInvRec_subset _ _ _ t ht)
        (genPreInvRec_subset _ _ _ x hx2)

/-- What holds of every path the inversion branch emits: head fields fixed
(for the given repetition `count`), recipes drawn from the enumerated
foldings plus the selected inversion, and a replay from
`count*source + catalysts` ending exactly at `count*target + catalysts`. -/
def InvResultOk (rs : RecipeSet) (source target : SSet) (inversion : Inversion)
    (count : Nat) (p : PathO) : Prop :=
  p.source = source ∧ p.target = target ∧ p.count = count ∧
  (∀ r ∈ p.recipes, (∃ g ∈ rs.foldings, r = .folding g) ∨ r = .inversion inversion) ∧
  ∀ i, replayFrom i (source.smul count + p.catalysts) p.recipes
    = .ok (target.smul count + p.catalysts)

theorem invSolve_spec (rs : RecipeSet) (source target : SSet) (count mr : Nat)
    (inversion : Inversion) (preInv c1 c2 : SSet)
    (hseed : SSet.Subset inversion.inp preInv)
    (paths : List PathO)
    (h : InversionSearcher.solve
      { source := source, target := target, count := count,
        pre := ⟨rs, source.smul count, preInv, c1, c2, mr⟩,
        inversion := inversion,
        post := ⟨rs, preInv - inversion.inp + inversion.out,
          target.smul count, c2, c1, mr⟩ }
      = some (.ok paths)) :
    ∀ p ∈ paths, InvResultOk rs source target inversion count p := by
  intro p hp
  have h2 : (match FoldSearcher.solve ⟨rs, source.smul count, preInv, c1, c2, mr⟩ with
    | none => (none : Option (Except ResolutionError (List PathO)))
    | some (Except.error e) => some (Except.error e)
    | some (Except.ok preP) =>
      match FoldSearcher.solve ⟨rs, preInv - inversion.inp + inversion.out,
          target.smul count, c2, c1, mr⟩ with
      | none => none
      | some (Except.error e) => some (Except.error e)
      | some (Except.ok postP) =>
        some (Except.ok (preP.flatMap fun pre => postP.map fun post =>
          (⟨source, target, count, pre.catalysts,
            pre.recipes ++ [.inversion inversion] ++ post.recipes⟩ : PathO))))
      = some (.ok paths) := h
  clear h
  cases hpre : FoldSearcher.solve ⟨rs, source.smul count, preInv, c1, c2, mr⟩ with
  | none =>
    rw [hpre] at h2
    exact Option.noConfusion h2
  | some vpre =>
    rw [hpre] at h2
    cases vpre with
    | error e =>
      have h4 : (some (Except.error e) : Option (Except ResolutionError (List PathO)))
        = some (Except.ok paths) := h2
      exact Except.noConfusion (Option.some.inj h4)
    | ok preP =>
      have h3 : (match FoldSearcher.solve ⟨rs, preInv - inversion.inp + inversion.out,
          target.smul count, c2, c1, mr⟩ with
        | none => (none : Option (Except ResolutionError (List PathO)))
        | some (Except.error e) => some (Except.error e)
        | some (Except.ok postP) =>
          some (Except.ok (preP.flatMap fun pre => postP.map fun post =>
            (⟨source, target, count, pre.catalysts,
              pre.recipes ++ [.inversion inversion] ++ post.recipes⟩ : PathO))))
          = some (.ok paths) := h2
      clear h2
      cases hpost : FoldSearcher.solve ⟨rs, preInv - inversion.inp + inversion.out,
          target.smul count, c2, c1, mr⟩ with
      | none =>
        rw [hpost] at h3
        exact Option.noConfusion h3
      | some vpost =>
        rw [hpost] at h3
        cases vpost with
        | error e =>
          have h4 : (some (Except.error e) : Option (Except ResolutionError (List PathO)))
            = some (Except.ok paths) := h3
          exact Except.noConfusion (Option.some.inj h4)
        | ok postP =>
          have hpaths : (preP.flatMap fun pre => postP.map fun post =>
              (⟨source, target, count, pre.catalysts,
                pre.recipes ++ [.inversion inversion] ++ post.recipes⟩ : PathO))
              = paths := Except.ok.inj (Option.some.inj h3)
          subst hpaths
          obtain ⟨pre, hpreMem, hp2⟩ := List.mem_flatMap.1 hp
          obtain ⟨post, hpostMem, hpeq⟩ := List.mem_map.1 hp2
          subst hpeq
          obtain ⟨hps, hpt, _, hpcat, hprec, hprep⟩ :=
            foldSearcher_spec _ preP hpre pre hpreMem
          obtain ⟨hqs, hqt, _, hqcat, hqrec, hqrep⟩ :=
            foldSearcher_spec _ postP hpost post hpostMem
          refine ⟨rfl, rfl, rfl, ?_, ?_⟩
          · intro r hr
            rcases List.mem_append.1 hr with hr1 | hr1
            · rcases List.mem_append.1 hr1 with hr2 | hr2
              · obtain ⟨g, hg, rfl⟩ := hprec r hr2
                exact Or.inl ⟨g, hg, rfl⟩
              · exact Or.inr (List.mem_singleton.1 hr2)
            · obtain ⟨g, hg, rfl⟩ := hqrec r hr1
              exact Or.inl ⟨g, hg, rfl⟩
          · intro i
            show replayFrom i (source.smul count + pre.catalysts)
              (pre.recipes ++ [.inversion inversion] ++ post.recipes) = _
            rw [List.append_assoc]
            have hrep1 : replayFrom i (source.smul count + pre.catalysts)
                pre.recipes = .ok (preInv + c2) := by
              have := hprep i
              rw [hpcat]
              exact this
            rw [replayFrom_append_ok _ i _ _ hrep1 _]
            have hsub : (Recipe.inversion inversion).input.subsetOf
                (preInv + c2) = true :=
              SSet.subsetOf_iff.2 (by
                intro j
                show inversion.inp j ≤ preInv j + c2 j
                have := hseed j
                omega)
            simp only [List.cons_append, List.nil_append, replayFrom, hsub, if_true]
            have hstate : preInv + c2 - (Recipe.inversion inversion).input
                + (Recipe.inversion inversion).output
                = (preInv - inversion.inp + inversion.out) + c2 := by
              funext j
              show preInv j + c2 j - inversion.inp j + inversion.out j
                = preInv j - inversion.inp j + inversion.out j + c2 j
              have := hseed j
              omega
            rw [hstate]
            have hrep2 : replayFrom (i + pre.recipes.length + 1)
                ((preInv - inversion.inp + inversion.out) + c2) post.recipes
                = .ok (target.smul count + c1) := hqrep _
            show replayFrom (i + pre.recipes.length + 1)
              ((preInv - inversion.inp + inversion.out) + c2) post.recipes
              = Except.ok (target.smul count + pre.catalysts)
            rw [hrep2, hpcat]

theorem invSearcher_spec (rs : RecipeSet) (source target : SSet) (count : Nat)
    (inversion : Inversion) (nc mr : Nat) (vs : InversionSearcher)
    (hvs : vs ∈ InversionSearcher.generateSearchers rs source target count
      inversion nc mr)
    (paths : List PathO) (h : vs.solve = some (.ok paths)) :
    ∀ p ∈ paths, InvResultOk rs source target inversion count p := by
  obtain ⟨sm, _, hvs2⟩ := List.mem_flatMap.1 hvs
  obtain ⟨preInv, hpreInv, hvseq⟩ := List.mem_map.1 hvs2
  subst hvseq
  have hseed := genPreInversions_subset source count inversion preInv hpreInv
  exact invSolve_spec rs source target count mr inversion preInv sm.1 sm.2
    hseed paths h

theorem solveInvMiddle_spec (rs : RecipeSet) (cfg : SolverConfiguration)
    (source target : SSet) (count : Nat) (inversion : Inversion)
    (paths : List PathO)
    (h : solveInvMiddle seqExecute rs cfg source target count inversion
      = some (.ok paths)) :
    ∀ p ∈ paths, InvResultOk rs source target inversion count p := by
  intro p hp
  unfold solveInvMiddle at h
  obtain ⟨i, _, task, htask, ps, hps, hmem⟩ := sizesLoop_mem _ _ _ _ h p hp
  obtain ⟨searcher, hsearch, htaskeq⟩ := List.mem_map.1 htask
  have hsolve : searcher.solve = some (.ok ps) := by
    rw [← htaskeq] at hps
    exact hps
  exact invSearcher_spec rs source target count inversion i cfg.maximumRecipes
    searcher hsearch ps hsolve p hmem

theorem selectInversion_mem_aux (inversions : List Inversion)
    (pred : Inversion → Bool) (tf : Nat) (rf : Inversion → Nat)
    (count : Nat) (inversion : Inversion) (apps : Nat)
    (h : (match inversions.find? pred with
      | none => (none : Option (Nat × Inversion × Nat))
      | some inv =>
        if tf = rf inv then some (1, inv, 1)
        else
          if 0 < rf inv / Nat.gcd tf (rf inv) ∧ rf inv / Nat.gcd tf (rf inv) ≤ 255
              ∧ 0 < tf / Nat.gcd tf (rf inv) ∧ tf / Nat.gcd tf (rf inv) ≤ 255 then
            some (rf inv / Nat.gcd tf (rf inv), inv, tf / Nat.gcd tf (rf inv))
          else none) = some (count, inversion, apps)) :
    inversion ∈ inversions := by
  cases hfind : inversions.find? pred with
  | none =>
    rw [hfind] at h
    exact Option.noConfusion h
  | some inv =>
    rw [hfind] at h
    have h2 : (if tf = rf inv then some (1, inv, 1)
      else
        if 0 < rf inv / Nat.gcd tf (rf inv) ∧ rf inv / Nat.gcd tf (rf inv) ≤ 255
            ∧ 0 < tf / Nat.gcd tf (rf inv) ∧ tf / Nat.gcd tf (rf inv) ≤ 255 then
          some (rf inv / Nat.gcd tf (rf inv), inv, tf / Nat.gcd tf (rf inv))
        else none) = some (count, inversion, apps) := h
    split at h2
    · have h3 : inversion = inv := congrArg (fun x => x.2.1) (Option.some.inj h2).symm
      subst h3
      exact List.mem_of_find?_eq_some hfind
    · split at h2
      · have h3 : inversion = inv := congrArg (fun x => x.2.1) (Option.some.inj h2).symm
        subst h3
        exact List.mem_of_find?_eq_some hfind
      · exact Option.noConfusion h2

/-- The inversion `select_inversion` returns is one of the family's
enumerated inversions. -/
theorem selectInversion_mem {rs : RecipeSet} {source target : SSet}
    {count : Nat} {inversion : Inversion} {apps : Nat}
    (h : selectInversion rs source target = some (count, inversion, apps)) :
    inversion ∈ rs.inversions :=
  selectInversion_mem_aux rs.inversions
    (fun r => decide (r.polarity
      = (if target.countNegatives < source.countNegatives then Pol.positive
         else Pol.negative)))
    (if (if target.countNegatives < source.countNegatives then Pol.positive
         else Pol.negative) = Pol.positive
     then target.countPositives - source.countPositives
     else target.countNegatives - source.countNegatives)
    (fun inv =>
      if (if target.countNegatives < source.countNegatives then Pol.positive
          else Pol.negative) = Pol.positive
      then inv.out.countPositives - inv.inp.countPositives
      else inv.out.countNegatives - inv.inp.countNegatives)
    count inversion apps h

theorem pathVerifies_of_fold {rs : RecipeSet} {source target : SSet} {p : PathO}
    (h : FoldResultOk rs source target p) : PathVerifies rs p := by
  obtain ⟨hs, ht, hc, hk, hr⟩ := h
  refine ⟨fun r hrm => ?_, fun i => ?_⟩
  · obtain ⟨g, hg, rfl⟩ := hk r hrm
    exact knownRecipe_folding hg
  · rw [hs, ht, hc, smul_one, smul_one]
    exact hr i

theorem pathVerifies_of_inv {rs : RecipeSet} {source target : SSet}
    {inversion : Inversion} {count : Nat} {p : PathO}
    (hinv : inversion ∈ rs.inversions)
    (h : InvResultOk rs source target inversion count p) : PathVerifies rs p := by
  obtain ⟨hs, ht, hc, hk, hr⟩ := h
  refine ⟨fun r hrm => ?_, fun i => ?_⟩
  · rcases hk r hrm with ⟨g, hg, rfl⟩ | rfl
    · exact knownRecipe_folding hg
    · exact knownRecipe_inversion hinv
  · rw [hs, ht, hc]
    exact hr i

/-- The `try_last` fallback of `solve_by_inversion`: append the inversion
after a fold search towards `count*target` with the inversion undone, or
fall through to the middle-inversion search. -/
theorem invTryLast_spec (rs : RecipeSet) (cfg : SolverConfiguration)
    (source target : SSet) (count : Nat) (inversion : Inversion)
    (paths : List PathO)
    (h : (if inversion.out.subsetOf (target.smul count) then
        match solveByFold seqExecute rs cfg (source.smul count)
            (target.smul count - inversion.out + inversion.inp) with
        | none => (none : Option (Except ResolutionError (List PathO)))
        | some (Except.ok fpaths) =>
          some (Except.ok (fpaths.map fun p =>
            (⟨source, target, count, p.catalysts,
              p.recipes ++ [.inversion inversion]⟩ : PathO)))
        | some (Except.error e) =>
          solveInvMiddle seqExecute rs cfg source target count inversion
      else solveInvMiddle seqExecute rs cfg source target count inversion)
      = some (.ok paths)) :
    ∀ p ∈ paths, InvResultOk rs source target inversion count p := by
  by_cases hout : inversion.out.subsetOf (target.smul count) = true
  · rw [if_pos hout] at h
    cases hsf : solveByFold seqExecute rs cfg (source.smul count)
        (target.smul count - inversion.out + inversion.inp) with
    | none =>
      rw [hsf] at h
      intro p hp
      exact Option.noConfusion h
    | some v =>
      rw [hsf] at h
      cases v with
      | error e =>
        have h2 : solveInvMiddle seqExecute rs cfg source target count inversion
          = some (.ok paths) := h
        exact solveInvMiddle_spec rs cfg source target count inversion paths h2
      | ok fpaths =>
        have h2 : some (Except.ok (fpaths.map fun p =>
          (⟨source, target, count, p.catalysts,
            p.recipes ++ [.inversion inversion]⟩ : PathO))) = some (Except.ok paths) := h
        have h3 : (fpaths.map fun p =>
          (⟨source, target, count, p.catalysts,
            p.recipes ++ [.inversion inversion]⟩ : PathO)) = paths :=
          Except.ok.inj (Option.some.inj h2)
        subst h3
        intro p hp
        obtain ⟨fp, hfp, hpeq⟩ := List.mem_map.1 hp
        subst hpeq
        obtain ⟨hfs, hft, _, hfrec, hfrep⟩ :=
          solveByFold_spec rs cfg _ _ fpaths hsf fp hfp
        refine ⟨rfl, rfl, rfl, ?_, ?_⟩
        · intro r hr
          rcases List.mem_append.1 hr with hr1 | hr1
          · obtain ⟨g, hg, rfl⟩ := hfrec r hr1
            exact Or.inl ⟨g, hg, rfl⟩
          · exact Or.inr (List.mem_singleton.1 hr1)
        · intro i
          show replayFrom i (source.smul count + fp.catalysts)
            (fp.recipes ++ [.inversion inversion]) = _
          have hrep1 : replayFrom i (source.smul count + fp.catalysts) fp.recipes
              = .ok ((target.smul count - inversion.out + inversion.inp)
                + fp.catalysts) := hfrep i
          rw [replayFrom_append_ok _ i _ _ hrep1 _]
          have hsub : (Recipe.inversion inversion).input.subsetOf
              ((target.smul count - inversion.out + inversion.inp)
                + fp.catalysts) = true :=
            SSet.subsetOf_iff.2 (by
              intro j
              show inversion.inp j ≤ target.smul count j - inversion.out j
                + inversion.inp j + fp.catalysts j
              omega)
          simp only [replayFrom, hsub, if_true]
          congr 1
          funext j
          have hoj := (SSet.subsetOf_iff.1 hout) j
          show target.smul count j - inversion.out j + inversion.inp j
              + fp.catalysts j - inversion.inp j + inversion.out j
            = target.smul count j + fp.catalysts j
          omega
  · rw [if_neg hout] at h
    exact solveInvMiddle_spec rs cfg source target count inversion paths h

theorem solveByInversion_spec (rs : RecipeSet) (cfg : SolverConfiguration)
    (source target : SSet) (paths : List PathO)
    (h : solveByInversion seqExecute rs cfg source target = some (.ok paths)) :
    ∀ p ∈ paths, PathVerifies rs p := by
  unfold solveByInversion at h
  cases hfind : rs.inversions.find?
      (fun v => decide (source = v.inp) && decide (target = v.out)) with
  | some inversion =>
    rw [hfind] at h
    have h2 : some (Except.ok
        [(⟨source, target, 1, SSet.empty, [.inversion inversion]⟩ : PathO)])
        = some (Except.ok paths) := h
    have h3 : [(⟨source, target, 1, SSet.empty, [.inversion inversion]⟩ : PathO)]
        = paths := Except.ok.inj (Option.some.inj h2)
    subst h3
    intro p hp
    have hp1 : p = ⟨source, target, 1, SSet.empty, [.inversion inversion]⟩ :=
      List.mem_singleton.1 hp
    subst hp1
    have hmem := List.mem_of_find?_eq_some hfind
    have hprop := List.find?_some hfind
    have hsi : source = inversion.inp ∧ target = inversion.out := by simpa using hprop
    refine ⟨?_, ?_⟩
    · intro r hr
      have : r = .inversion inversion := List.mem_singleton.1 hr
      subst this
      exact knownRecipe_inversion hmem
    · intro i
      show replayFrom i (source.smul 1 + SSet.empty) [.inversion inversion]
        = .ok (target.smul 1 + SSet.empty)
      obtain ⟨e1, e2⟩ := hsi
      subst e1
      subst e2
      have hsub : (Recipe.inversion inversion).input.subsetOf
          (inversion.inp.smul 1 + SSet.empty) = true :=
        SSet.subsetOf_iff.2 (by
          intro j
          show inversion.inp j ≤ inversion.inp j * 1 + 0
          omega)
      simp only [replayFrom, hsub, if_true]
      congr 1
      funext j
      show inversion.inp j * 1 + 0 - inversion.inp j + inversion.out j
        = inversion.out j * 1 + 0
      omega
  | none =>
    rw [hfind] at h
    have h2 : (match selectInversion rs source target with
      | none => some (Except.error ResolutionError.NotWithInversions)
      | some (count, inversion, apps) =>
        if apps ≠ 1 then some (Except.error ResolutionError.OutsideInversions)
        else
          if inversion.inp.subsetOf (source.smul count) then
            match solveByFold seqExecute rs cfg
                (source.smul count - inversion.inp + inversion.out)
                (target.smul count) with
            | none => none
            | some (Except.ok fpaths) =>
              some (Except.ok (fpaths.map fun p =>
                (⟨source, target, count, p.catalysts,
                  .inversion inversion :: p.recipes⟩ : PathO)))
            | some (Except.error e) =>
              if inversion.out.subsetOf (target.smul count) then
                match solveByFold seqExecute rs cfg (source.smul count)
                    (target.smul count - inversion.out + inversion.inp) with
                | none => (none : Option (Except ResolutionError (List PathO)))
                | some (Except.ok fpaths) =>
                  some (Except.ok (fpaths.map fun p =>
                    (⟨source, target, count, p.catalysts,
                      p.recipes ++ [.inversion inversion]⟩ : PathO)))
                | some (Except.error e) =>
                  solveInvMiddle seqExecute rs cfg source target count inversion
              else solveInvMiddle seqExecute rs cfg source target count inversion
          else
            if inversion.out.subsetOf (target.smul count) then
              match solveByFold seqExecute rs cfg (source.smul count)
                  (target.smul count - inversion.out + inversion.inp) with
              | none => (none : Option (Except ResolutionError (List PathO)))
              | some (Except.ok fpaths) =>
                some (Except.ok (fpaths.map fun p =>
                  (⟨source, target, count, p.catalysts,
                    p.recipes ++ [.inversion inversion]⟩ : PathO)))
              | some (Except.error e) =>
                solveInvMiddle seqExecute rs cfg source target count inversion
            else solveInvMiddle seqExecute rs cfg source target count inversion)
        = some (.ok paths) := h
    clear h
    cases hsel : selectInversion rs source target with
    | none =>
      rw [hsel] at h2
      intro p hp
      exact Except.noConfusion (Option.some.inj h2)
    | some triple =>
      obtain ⟨count, inversion, apps⟩ := triple
      rw [hsel] at h2
      have hinv := selectInversion_mem hsel
      have h3 : (if apps ≠ 1 then some (Except.error ResolutionError.OutsideInversions)
        else
          if inversion.inp.subsetOf (source.smul count) then
            match solveByFold seqExecute rs cfg
                (source.smul count - inversion.inp + inversion.out)
                (target.smul count) with
            | none => none
            | some (Except.ok fpaths) =>
              some (Except.ok (fpaths.map fun p =>
                (⟨source, target, count, p.catalysts,
                  .inversion inversion :: p.recipes⟩ : PathO)))
            | some (Except.error e) =>
              if inversion.out.subsetOf (target.smul count) then
                match solveByFold seqExecute rs cfg (source.smul count)
                    (target.smul count - inversion.out + inversion.inp) with
                | none => (none : Option (Except ResolutionError (List PathO)))
                | some (Except.ok fpaths) =>
                  some (Except.ok (fpaths.map fun p =>
                    (⟨source, target, count, p.catalysts,
                      p.recipes ++ [.inversion inversion]⟩ : PathO)))
                | some (Except.error e) =>
                  solveInvMiddle seqExecute rs cfg source target count inversion
              else solveInvMiddle seqExecute rs cfg source target count inversion
          else
            if inversion.out.subsetOf (target.smul count) then
              match solveByFold seqExecute rs cfg (source.smul count)
                  (target.smul count - inversion.out + inversion.inp) with
              | none => (none : Option (Except ResolutionError (List PathO)))
              | some (Except.ok fpaths) =>
                some (Except.ok (fpaths.map fun p =>
                  (⟨source, target, count, p.catalysts,
                    p.recipes ++ [.inversion inversion]⟩ : PathO)))
              | some (Except.error e) =>
                solveInvMiddle seqExecute rs cfg source target count inversion
            else solveInvMiddle seqExecute rs cfg source target count inversion)
          = some (.ok paths) := h2
      clear h2
      by_cases happ : apps ≠ 1
      · rw [if_pos happ] at h3
        intro p hp
        exact Except.noConfusion (Option.some.inj h3)
      · rw [if_neg happ] at h3
        by_cases hin : inversion.inp.subsetOf (source.smul count) = true
        · rw [if_pos hin] at h3
          cases hsf : solveByFold seqExecute rs cfg
              (source.smul count - inversion.inp + inversion.out)
              (target.smul count) with
          | none =>
            rw [hsf] at h3
            intro p hp
            exact Option.noConfusion h3
          | some v =>
            rw [hsf] at h3
            cases v with
            | error e =>
              have h4 : (if inversion.out.subsetOf (target.smul count) then
                  match solveByFold seqExecute rs cfg (source.smul count)
                      (target.smul count - inversion.out + inversion.inp) with
                  | none => (none : Option (Except ResolutionError (List PathO)))
                  | some (Except.ok fpaths) =>
                    some (Except.ok (fpaths.map fun p =>
                      (⟨source, target, count, p.catalysts,
                        p.recipes ++ [.inversion inversion]⟩ : PathO)))
                  | some (Except.error e) =>
                    solveInvMiddle seqExecute rs cfg source target count inversion
                else solveInvMiddle seqExecute rs cfg source target count inversion)
                  = some (.ok paths) := h3
              intro p hp
              exact pathVerifies_of_inv hinv
                (invTryLast_spec rs cfg source target count inversion paths h4 p hp)
            | ok fpaths =>
              have h4 : some (Except.ok (fpaths.map fun p =>
                (⟨source, target, count, p.catalysts,
                  .inversion inversion :: p.recipes⟩ : PathO)))
                  = some (Except.ok paths) := h3
              have h5 : (fpaths.map fun p =>
                (⟨source, target, count, p.catalysts,
                  .inversion inversion :: p.recipes⟩ : PathO)) = paths :=
                Except.ok.inj (Option.some.inj h4)
              subst h5
              intro p hp
              obtain ⟨fp, hfp, hpeq⟩ := List.mem_map.1 hp
              subst hpeq
              obtain ⟨hfs, hft, _, hfrec, hfrep⟩ :=
                solveByFold_spec rs cfg _ _ fpaths hsf fp hfp
              refine pathVerifies_of_inv hinv ⟨rfl, rfl, rfl, ?_, ?_⟩
              · intro r hr
                rcases List.mem_cons.1 hr with rfl | hr1
                · exact Or.inr rfl
                · obtain ⟨g, hg, rfl⟩ := hfrec r hr1
                  exact Or.inl ⟨g, hg, rfl⟩
              · intro i
                show replayFrom i (source.smul count + fp.catalysts)
                  (.inversion inversion :: fp.recipes) = _
                have hsub : (Recipe.inversion inversion).input.subsetOf
                    (source.smul count + fp.catalysts) = true :=
                  SSet.subsetOf_iff.2 (by
                    intro j
                    have hij := (SSet.subsetOf_iff.1 hin) j
                    show inversion.inp j ≤ source.smul count j + fp.catalysts j
                    omega)
                simp only [replayFrom, hsub, if_true]
                have hstate : source.smul count + fp.catalysts
                    - (Recipe.inversion inversion).input
                    + (Recipe.inversion inversion).output
                    = (source.smul count - inversion.inp + inversion.out)
                      + fp.catalysts := by
                  funext j
                  have hij := (SSet.subsetOf_iff.1 hin) j
                  show source.smul count j + fp.catalysts j - inversion.inp j
                      + inversion.out j
                    = source.smul count j - inversion.inp j + inversion.out j
                      + fp.catalysts j
                  omega
                rw [hstate]
                exact hfrep (i + 1)
        · rw [if_neg hin] at h3
          intro p hp
          exact pathVerifies_of_inv hinv
            (invTryLast_spec rs cfg source target count inversion paths h3 p hp)

/-- C1: for every source and target, every path contained in a successful
result of `solve(source, target)` passes verification — replaying its
recipes in order from `count*source + catalysts` finds each recipe's input
contained in the current state and ends exactly at `count*target +
catalysts`, so `verify` on that path returns `Ok` (for the sequential
executor; `rayonExecute_eq_seqExecute` extends this to the parallel one). -/
theorem c1_theorem (rs : RecipeSet) (cfg : SolverConfiguration)
    (source target : SSet) (paths : List PathO)
    (h : solve seqExecute rs cfg source target = some (.ok paths)) :
    ∀ p ∈ paths, verify rs p = .ok () := by
  unfold solve at h
  by_cases h1 : source.len ≠ target.len
  · rw [if_pos h1] at h
    intro p hp
    exact Except.noConfusion (Option.some.inj h)
  · rw [if_neg h1] at h
    by_cases hst : source = target
    · rw [if_pos hst] at h
      have h3 : [(⟨source, target, 1, SSet.empty, []⟩ : PathO)] = paths :=
        Except.ok.inj (Option.some.inj h)
      subst h3
      intro p hp
      have hp1 : p = ⟨source, target, 1, SSet.empty, []⟩ := List.mem_singleton.1 hp
      subst hp1
      subst hst
      exact verify_ok_of ⟨fun r hr => absurd hr (List.not_mem_nil r), fun i => rfl⟩
    · rw [if_neg hst] at h
      by_cases hneg : source.countNegatives = target.countNegatives
      · rw [if_pos hneg] at h
        intro p hp
        exact verify_ok_of (pathVerifies_of_fold
          (solveByFold_spec rs cfg source target paths h p hp))
      · rw [if_neg hneg] at h
        intro p hp
        exact verify_ok_of (solveByInversion_spec rs cfg source target paths h p hp)

/-- The result vector of the concrete solve run `EO -> GL` for the Space
Exploration family (a direct-folding hit), used to witness C1. -/
def c1PathsW : List PathO :=
  match solve seqExecute seRecipeSet defaultConfiguration
      (SSet.ofList [0, 3]) (SSet.ofList [2, 1]) with
  | some (.ok ps) => ps
  | _ => []

theorem c1_theorem_witness :
    verify seRecipeSet (⟨SSet.ofList [0, 3], SSet.ofList [2, 1], 1, SSet.empty,
      [.folding foldEO]⟩ : PathO) = .ok () :=
  c1_theorem seRecipeSet defaultConfiguration (SSet.ofList [0, 3])
    (SSet.ofList [2, 1]) c1PathsW (by rfl)
    ⟨SSet.ofList [0, 3], SSet.ofList [2, 1], 1, SSet.empty, [.folding foldEO]⟩
    (by
      rw [show c1PathsW = [⟨SSet.ofList [0, 3], SSet.ofList [2, 1], 1, SSet.empty,
        [.folding foldEO]⟩] from rfl]
      exact List.mem_singleton.2 rfl)

end Arcosphere
